import Mathlib

/-!
# SAI (Leela Zero fork) search engine: a shallow embedding

Embedding of `src/UCTSearch.cpp`, `src/UCTNode.cpp` and the constants of
`src/FastBoard.h`.

Conventions of the embedding.

* `float` and `double` values are rationals (`ℚ`).  Where a result depends on
  the rounding (the resign threshold, the share of the tree-size budget, the
  estimate of the playouts left, the value the selection compares, the best
  score of `get_best_move`), every conversion and every operation of the
  source is rounded to binary32 or binary64 (`f32`, `f64`: to nearest, ties to
  even), one at a time, as the expressions of the source associate.  The
  other functions (the normalisation of the priors and the threshold of the
  expansion, the mean value `get_eval` and the ranking built on it, the
  backup, `eval_with_bonus`) keep every comparison and every arithmetic step
  of the source, evaluated in exact arithmetic.  Infinities and NaN are
  outside the model.
* `int` and `size_t` counters are `Int` or `Nat`.  The conversion of a `float`
  to `int` in `est_playouts_left` and the `int` subtraction of
  `prune_noncontenders` are modelled with their behaviour out of range
  (`static_cast_int`, `wrap_int`); the `size_t` subtraction
  `children.size() - 1` is modelled modulo `2 ^ 64`.  The other counters stay
  in the ranges the engine uses (board sizes up to 25, visit limits at most
  half of the `int` range).
* Mutexes and atomics are dropped: every function is the sequential run of
  its body.  Logging (`myprintf`) is dropped, but not the assertions its
  arguments meet: `get_eval` asserts `visits + virtual_loss > 0`
  (`get_eval_assertion`), which `get_best_move` checks where it calls
  `get_eval` unguarded and `play_simulation_asserts` collects for the log
  lines of `play_simulation`.
* Calls into code that is not part of the three files (the network, the
  position, the random generator) are parameters of the function that makes
  the call.
-/

namespace SAI

/-! ## Constants of `FastBoard.h` -/

namespace FastBoard

/-- The vertex of a pass, `FastBoard::PASS`. -/
def PASS : Int := -1

/-- The vertex of a "resign move", `FastBoard::RESIGN`. -/
def RESIGN : Int := -2

/-- Colour constant `FastBoard::BLACK` of `vertex_t`. -/
def BLACK : Int := 0

/-- Colour constant `FastBoard::WHITE` of `vertex_t`. -/
def WHITE : Int := 1

end FastBoard

/-! ## Configuration and flags -/

/-- The values `cfg_timemanage` ranges over (`TimeManagement::OFF`, `ON`,
`FAST` in `UCTSearch::have_alternate_moves`). -/
inductive TimeManagement where
  | OFF
  | ON
  | FAST
deriving DecidableEq, Repr

/-- The global configuration variables read by the embedded functions. -/
structure Config where
  cfg_resignpct : Int
  cfg_random_cnt : Int
  cfg_dumbpass : Bool
  cfg_timemanage : TimeManagement
  cfg_noise : Bool
  cfg_fpuzero : Bool
  cfg_puct : ℚ
  cfg_fpu_reduction : ℚ
  is_mult_komi_net : Bool
  /-- The node budget `MAX_TREE_SIZE`, a constant of the absent `UCTSearch.h`. -/
  MAX_TREE_SIZE : Int

/-- Modelled from the spec: `UCTSearch.h` is not among the sources; the spec
gives `passflag ∈ subset({NOPASS, NORESIGN})`, a bit set.  `NOPASS` is its
first bit. -/
def NOPASS : Nat := 1

/-- Modelled from the spec: the second bit of the `passflag` bit set (see
`NOPASS`). -/
def NORESIGN : Nat := 2

/-- Modelled from the spec: `UCTSearch::UNLIMITED_PLAYOUTS` is declared in the
absent `UCTSearch.h`; `set_visit_limit` documents it as "type max / 2" of
`int`. -/
def UNLIMITED_PLAYOUTS : Int := (2 ^ 31 - 1) / 2

/-- The C++ test `passflag & flag` of a bit-set flag. -/
def flag_set (passflag flag : Nat) : Bool := (passflag &&& flag) != 0

/-- The smallest positive normal `float`,
`std::numeric_limits<float>::min()`. -/
def FLT_MIN : ℚ := 1 / 2 ^ 126

/-! ## Binary floating point and `int` arithmetic -/

/-- The integer nearest to `x`; of two nearest integers, the even one. -/
def round_half_even (x : ℚ) : Int :=
  if x - ⌊x⌋ < 1 / 2 then ⌊x⌋
  else if 1 / 2 < x - ⌊x⌋ then ⌊x⌋ + 1
  else if ⌊x⌋ % 2 = 0 then ⌊x⌋
  else ⌊x⌋ + 1

/-- The number of halvings that bring `n` below 2, in at most `fuel` steps. -/
def halvings : Nat → Nat → Nat
  | 0, _ => 0
  | fuel + 1, n => if 2 ≤ n then halvings fuel (n / 2) + 1 else 0

/-- The binary logarithm of a positive natural number, rounded down. -/
def ilog2 (n : Nat) : Nat := halvings n n

/-- The binary exponent of a rational that is not 0: the greatest `e` with
`2 ^ e <= |x|`. -/
def binade (x : ℚ) : Int :=
  let e0 : Int := (ilog2 x.num.natAbs : Int) - (ilog2 x.den : Int)
  if (2 : ℚ) ^ e0 ≤ |x| then e0 else e0 - 1

/-- Rounding to the binary floating-point format with `p` digits and least
exponent `emin`: to the nearest number of the format, ties to the one with an
even last digit. -/
def round_to (p : Nat) (emin : Int) (x : ℚ) : ℚ :=
  if x = 0 then 0
  else
    let quantum : ℚ := 2 ^ (max (binade x) emin - ((p : Int) - 1))
    (round_half_even (x / quantum) : ℚ) * quantum

/-- Rounding to `float` (binary32): 24 digits, least exponent -126.  Values
beyond the largest finite `float` are outside the model. -/
def f32 (x : ℚ) : ℚ := round_to 24 (-126) x

/-- Rounding to `double` (binary64): 53 digits, least exponent -1022. -/
def f64 (x : ℚ) : ℚ := round_to 53 (-1022) x

/-- The `float` subtraction `x - y` of two floats: the difference rounded to
binary32.  Subtracting 0 gives `x` itself, as it does for every float `x`. -/
def float_sub (x y : ℚ) : ℚ := if y = 0 then x else f32 (x - y)

/-- The conversion `static_cast<int>(x)` of a floating-point number: the
number truncated towards 0 when that fits `int`.  Out of the range of `int`
the conversion is undefined in C++; the value taken here, `INT_MIN`, is what
the conversion instruction of x86 gives. -/
def static_cast_int (x : ℚ) : Int :=
  let truncated : Int := if 0 ≤ x then ⌊x⌋ else ⌈x⌉
  if -(2 : Int) ^ 31 ≤ truncated ∧ truncated < (2 : Int) ^ 31 then truncated else -(2 : Int) ^ 31

/-- The value of an `int` expression whose mathematical value is `z`: itself
in the range of `int`, and wrapped modulo `2 ^ 32` (two's complement) when the
operation overflows, which is undefined in C++. -/
def wrap_int (z : Int) : Int := (z + 2 ^ 31) % 2 ^ 32 - 2 ^ 31

/-! ## The position, as the search consumes it -/

/-- The part of `GameState` the embedded functions read.  The class itself is
not among the sources, so each query the code makes (`get_passes`,
`get_movenum`, `is_move_legal`, `final_score`, ...) is a field. -/
structure GameState where
  /-- The compile-time board side `BOARD_SIZE`, also `board.get_boardsize()`. -/
  boardsize : Nat
  to_move : Int
  movenum : Nat
  passes : Nat
  handicap : Int
  komi : ℚ
  last_move : Int
  final_score : ℚ
  is_move_legal : Int → Int → Bool
  /-- The Zobrist hash `board.get_hash()` of the position. -/
  hash : Nat := 0

namespace GameState

/-- Query `board.black_to_move()`. -/
def black_to_move (g : GameState) : Bool := g.to_move == FastBoard.BLACK

/-- Query `board.white_to_move()`. -/
def white_to_move (g : GameState) : Bool := g.to_move == FastBoard.WHITE

/-- Modelled from the spec: `FastBoard::get_vertex(x, y)` is only declared in
`FastBoard.h`; the spec describes a letterboxed grid of side `S + 2` whose
border cells are sentinels, so the point `(x, y)` is the cell
`(y + 1) * (S + 2) + (x + 1)`. -/
def get_vertex (g : GameState) (x y : Nat) : Int :=
  (((y + 1) * (g.boardsize + 2) + (x + 1) : Nat) : Int)

end GameState

/-! ## Tree nodes -/

/-- The node status of `UCTNode` (`INVALID`, `PRUNED`, `ACTIVE`). -/
inductive Status where
  | INVALID
  | PRUNED
  | ACTIVE
deriving DecidableEq, Repr

/-- A tree node, `UCTNode`.  A `UCTNodePointer` child, deflated or inflated,
is the node it stands for (a deflated pointer is a node with no visits and
no children). -/
structure UCTNode where
  m_move : Int
  m_score : ℚ
  m_visits : Int
  m_blackevals : ℚ
  m_virtual_loss : Int
  m_status : Status
  m_min_psa_ratio_children : ℚ
  m_is_expanding : Bool
  m_net_eval : ℚ
  m_agent_eval : ℚ
  m_eval_bonus : ℚ
  m_eval_base : ℚ
  m_net_alpkt : ℚ
  m_net_beta : ℚ
  m_children : List UCTNode

namespace UCTNode

/-- Modelled from the spec: the constructor `UCTNode(vertex, score)` sets the
move and the prior; the member initialisers are in the absent `UCTNode.h`.
A new node has no visits, no children, is `ACTIVE`, and is unexpanded, which
by the spec means `min_psa_ratio_children > 1` (the value used is 2). -/
def create (vertex : Int) (score : ℚ) : UCTNode :=
  { m_move := vertex, m_score := score, m_visits := 0, m_blackevals := 0,
    m_virtual_loss := 0, m_status := Status.ACTIVE,
    m_min_psa_ratio_children := 2, m_is_expanding := false,
    m_net_eval := 0, m_agent_eval := 0, m_eval_bonus := 0, m_eval_base := 0,
    m_net_alpkt := 0, m_net_beta := 0, m_children := [] }

/-- Accessor `UCTNode::get_move`. -/
def get_move (n : UCTNode) : Int := n.m_move

/-- Accessor `UCTNode::get_score`. -/
def get_score (n : UCTNode) : ℚ := n.m_score

/-- Accessor `UCTNode::get_visits`. -/
def get_visits (n : UCTNode) : Int := n.m_visits

/-- Accessor `UCTNode::get_blackevals`. -/
def get_blackevals (n : UCTNode) : ℚ := n.m_blackevals

/-- Test `UCTNode::first_visit`. -/
def first_visit (n : UCTNode) : Bool := n.m_visits == 0

/-- Test `UCTNode::has_children`. -/
def has_children (n : UCTNode) : Bool := decide (n.m_min_psa_ratio_children ≤ 1)

/-- Test `UCTNode::expandable`. -/
def expandable (n : UCTNode) (min_psa_ratio : ℚ) : Bool :=
  decide (min_psa_ratio < n.m_min_psa_ratio_children)

/-- Test `UCTNode::valid`. -/
def valid (n : UCTNode) : Bool := n.m_status != Status.INVALID

/-- Test `UCTNode::active`. -/
def active (n : UCTNode) : Bool := n.m_status == Status.ACTIVE

/-- The assertion `assert(visits > 0)` that opens `UCTNode::get_eval`, where
`visits` is the visit count plus the pending virtual loss: a call on a node
that fails it aborts instead of returning a value. -/
def get_eval_assertion (n : UCTNode) : Bool := decide (n.get_visits + n.m_virtual_loss > 0)

/-- The mean value `UCTNode::get_eval(tomove)` in exact arithmetic: the virtual
loss is added to the visits, and for White also to the sum of Black's
evaluations, before White takes the complement.  It is the value of a call
that passes `get_eval_assertion`; callers that reach `get_eval` unguarded
check the assertion first, and `get_eval_float` is the value with the
roundings of the source. -/
def get_eval (n : UCTNode) (tomove : Int) : ℚ :=
  let virtual_loss := n.m_virtual_loss
  let visits := n.get_visits + virtual_loss
  let blackeval := n.get_blackevals
  let blackeval := if tomove = FastBoard.WHITE then blackeval + (virtual_loss : ℚ) else blackeval
  let score := blackeval / (visits : ℚ)
  if tomove = FastBoard.WHITE then 1 - score else score

/-- The value `UCTNode::get_eval(tomove)` as the source computes it, for a
call that passes `get_eval_assertion`: the sum and the quotient are `double`
operations, the quotient is cast to `float`, and White's complement `1.0f -
score` is a `float` subtraction. -/
def get_eval_float (n : UCTNode) (tomove : Int) : ℚ :=
  let virtual_loss := n.m_virtual_loss
  let visits := n.get_visits + virtual_loss
  let blackeval := n.get_blackevals
  let blackeval :=
    if tomove = FastBoard.WHITE then f64 (blackeval + f64 (virtual_loss : ℚ)) else blackeval
  let score := f32 (f64 (blackeval / f64 (visits : ℚ)))
  if tomove = FastBoard.WHITE then f32 (1 - score) else score

/-- Mutator `UCTNode::invalidate`. -/
def invalidate (n : UCTNode) : UCTNode := { n with m_status := Status.INVALID }

/-- Mutator `UCTNode::set_active`: an `INVALID` node keeps its status. -/
def set_active (n : UCTNode) (active : Bool) : UCTNode :=
  if n.valid then
    { n with m_status := if active then Status.ACTIVE else Status.PRUNED }
  else
    n

/-- The comparison `NodeComp(color)(a, b)`, "a ranks below b". -/
def NodeComp (color : Int) (a b : UCTNode) : Bool :=
  if a.get_visits ≠ b.get_visits then
    decide (a.get_visits < b.get_visits)
  else if a.get_visits = 0 then
    decide (a.get_score < b.get_score)
  else
    decide (a.get_eval color < b.get_eval color)

end UCTNode

/-- The call `std::stable_sort(rbegin(v), rend(v), comp)`: the reversed
sequence is sorted ascending for `comp` by a stable sort (insertion sort,
which keeps elements that `comp` does not separate in their order), so the
sequence itself ends up descending. -/
def stable_sort_reversed {α : Type} (comp : α → α → Bool) (v : List α) : List α :=
  (List.insertionSort (fun a b => comp b a = false) v.reverse).reverse

/-- The `operator<` of `std::pair<float, int>` (`Network::ScoreVertexPair`):
lexicographic, the prior first and the vertex second. -/
def pair_less (a b : ℚ × Int) : Bool :=
  decide (a.1 < b.1) || (!decide (b.1 < a.1) && decide (a.2 < b.2))

namespace UCTNode

/-- The call `UCTNode::sort_children(color)`. -/
def sort_children (n : UCTNode) (color : Int) : UCTNode :=
  { n with m_children := stable_sort_reversed (NodeComp color) n.m_children }

/-- Modelled from the spec: `UCTNode::get_first_child` is not among the
sources; best-move selection takes the first of the sorted children, and
there is none (a null pointer) when the node has no children. -/
def get_first_child (n : UCTNode) : Option UCTNode := n.m_children.head?

/-- Modelled from the spec: `UCTNode::get_nopass_child` is not among the
sources; the spec's pass heuristic replaces a pass "with best non-pass child
(or accept pass only if no non-pass child exists)", so it is the first child
in the children order whose move is not `PASS`, and null when there is
none. -/
def get_nopass_child (n : UCTNode) : Option UCTNode :=
  n.m_children.find? (fun child => child.m_move != FastBoard.PASS)

end UCTNode

/-! ## The search object -/

/-- The members of `UCTSearch` the embedded functions use, with the
configuration globals. -/
structure UCTSearch where
  cfg : Config
  m_rootstate : GameState
  m_root : UCTNode
  m_playouts : Int
  m_maxplayouts : Int
  m_maxvisits : Int
  m_nodes : Int
  m_run : Bool
  /-- The remembered root position of the last search, null (`none`) when
  there is none. -/
  m_last_rootstate : Option GameState := none

namespace UCTSearch

/-- The resign decision `UCTSearch::should_resign(passflag, bestscore)`.  The
thresholds are `float` values: every conversion of an integer and every
operation is rounded to binary32 (`f32`), one at a time as the expressions of
the source associate. -/
def should_resign (s : UCTSearch) (passflag : Nat) (bestscore : ℚ) : Bool :=
  if flag_set passflag NORESIGN then
    false
  else if s.cfg.cfg_resignpct = 0 then
    false
  else
    let board_squares : Nat := s.m_rootstate.boardsize * s.m_rootstate.boardsize
    let move_threshold := board_squares / 4
    let movenum := s.m_rootstate.movenum
    if movenum ≤ move_threshold then
      false
    else
      let color := s.m_rootstate.to_move
      let is_default_cfg_resign : Bool := decide (s.cfg.cfg_resignpct < 0)
      let resign_threshold : ℚ :=
        f32 (f32 (1 / 100)
          * f32 (if is_default_cfg_resign then (10 : ℚ) else (s.cfg.cfg_resignpct : ℚ)))
      if bestscore > resign_threshold then
        false
      else if 0 < s.m_rootstate.handicap ∧ color = FastBoard.WHITE
          ∧ is_default_cfg_resign = true then
        let handicap_resign_threshold : ℚ :=
          f32 (resign_threshold / f32 (1 + (s.m_rootstate.handicap : ℚ)))
        let blend_ratio : ℚ :=
          min 1 (f32 (f32 (movenum : ℚ) / f32 (f32 (6 / 10) * f32 (board_squares : ℚ))))
        let blended_resign_threshold : ℚ :=
          f32 (f32 (blend_ratio * resign_threshold)
            + f32 (f32 (1 - blend_ratio) * handicap_resign_threshold))
        if bestscore > blended_resign_threshold then
          false
        else
          true
      else
        true

/-- The threshold of the resign rule as the source computes it, in `float`
arithmetic: `T = 0.01f * 10` for a negative (default) `cfg_resignpct` and
`T = 0.01f * cfg_resignpct` otherwise; for White in a handicap game with the
default setting the smaller of `T` and the blend `r * T + (1 - r) * (T / (1 +
h))`, `r = min(1.0f, movenum / (0.6f * board_squares))`. -/
def float_resign_threshold (s : UCTSearch) : ℚ :=
  let board_squares : Nat := s.m_rootstate.boardsize * s.m_rootstate.boardsize
  let T : ℚ :=
    f32 (f32 (1 / 100)
      * f32 (if s.cfg.cfg_resignpct < 0 then (10 : ℚ) else (s.cfg.cfg_resignpct : ℚ)))
  let h : ℚ := f32 (1 + (s.m_rootstate.handicap : ℚ))
  let r : ℚ :=
    min 1 (f32 (f32 (s.m_rootstate.movenum : ℚ) / f32 (f32 (6 / 10) * f32 (board_squares : ℚ))))
  if 0 < s.m_rootstate.handicap ∧ s.m_rootstate.to_move = FastBoard.WHITE
      ∧ s.cfg.cfg_resignpct < 0 then
    min T (f32 (f32 (r * T) + f32 (f32 (1 - r) * f32 (T / h))))
  else
    T

/-- The threshold of the resign rule as the specification words it: `0.10`
for a negative (default) `cfg_resignpct` and `0.01 * cfg_resignpct`
otherwise, replaced for White in a handicap game with the default setting by
the blend `r * T + (1 - r) * T / (1 + h)`, `r = min(1, movenum / (0.6 *
board_squares))`. -/
def spec_resign_threshold (s : UCTSearch) : ℚ :=
  let board_squares : ℚ := ((s.m_rootstate.boardsize * s.m_rootstate.boardsize : Nat) : ℚ)
  let T : ℚ := if s.cfg.cfg_resignpct < 0 then 10 / 100 else (1 / 100) * (s.cfg.cfg_resignpct : ℚ)
  let h : ℚ := (s.m_rootstate.handicap : ℚ)
  let r : ℚ := min 1 ((s.m_rootstate.movenum : ℚ) / ((6 / 10) * board_squares))
  if s.m_rootstate.to_move = FastBoard.WHITE ∧ 0 < s.m_rootstate.handicap
      ∧ s.cfg.cfg_resignpct < 0 then
    r * T + (1 - r) * T / (1 + h)
  else
    T

/-- The children of the root as `get_best_move` ranks them before it reads
the first child: sorted by `sort_children(color)`; in the first
`cfg_random_cnt` moves `randomize_first_proportionally` reorders them, and
they are sorted again when the randomly chosen first child would lead to
resignation.  `randomize` stands for `UCTNode::randomize_first_proportionally`
(not among the sources, and random): it gives the reordered children and the
flag `dumb_move_chosen`.  The call of `get_eval` in the randomisation branch
is unguarded: `ranked_children_assertion` says whether it returns. -/
def ranked_children (s : UCTSearch) (passflag : Nat)
    (randomize : List UCTNode → List UCTNode × Bool) : List UCTNode :=
  let color := s.m_rootstate.to_move
  let sorted := (s.m_root.sort_children color).m_children
  let movenum : Int := (s.m_rootstate.movenum : Int)
  if movenum < s.cfg.cfg_random_cnt then
    let randomized := (randomize sorted).1
    match randomized.head? with
    | none => randomized
    | some first_child =>
      if s.should_resign passflag (first_child.get_eval_float color) then
        stable_sort_reversed (UCTNode.NodeComp color) randomized
      else
        randomized
  else
    sorted

/-- The call `m_root->get_first_child()->get_eval(color)` of the randomisation
branch of `get_best_move` returns: the branch is not taken, or the first child
exists and passes the assertion of `get_eval`. -/
def ranked_children_assertion (s : UCTSearch)
    (randomize : List UCTNode → List UCTNode × Bool) : Bool :=
  let color := s.m_rootstate.to_move
  let sorted := (s.m_root.sort_children color).m_children
  let movenum : Int := (s.m_rootstate.movenum : Int)
  if movenum < s.cfg.cfg_random_cnt then
    match (randomize sorted).1.head? with
    | none => false
    | some first_child => first_child.get_eval_assertion
  else
    true

/-- The assertions `get_best_move` meets on every path: the one of the
randomisation branch, `first_child != nullptr`, and the assertion of the
unguarded call `first_child->get_eval(color)` that gives `bestscore`. -/
def get_best_move_assertions (s : UCTSearch) (passflag : Nat)
    (randomize : List UCTNode → List UCTNode × Bool) : Bool :=
  s.ranked_children_assertion randomize
    && match (s.ranked_children passflag randomize).head? with
      | none => false
      | some first_child => first_child.get_eval_assertion

/-- The move choice `UCTSearch::get_best_move(passflag)`; `none` is a failed
assertion: the one of `get_eval` in the randomisation branch, `first_child !=
nullptr` of a root without children, or the one of `get_eval` on the first
child.  The calls of `get_eval` on the non-pass child are guarded by
`first_visit()`.  The blunder flag the function also sets on the root state is
not part of the result. -/
def get_best_move (s : UCTSearch) (passflag : Nat)
    (randomize : List UCTNode → List UCTNode × Bool) : Option Int :=
  let color := s.m_rootstate.to_move
  if !s.ranked_children_assertion randomize then
    none
  else
    let root : UCTNode := { s.m_root with m_children := s.ranked_children passflag randomize }
    match root.get_first_child with
    | none => none
    | some first_child =>
      if !first_child.get_eval_assertion then
        none
      else
        let bestmove := first_child.get_move
        let bestscore := first_child.get_eval_float color
        let avoid_pass : Int × ℚ :=
          match root.get_nopass_child with
          | some nopass =>
            (nopass.get_move, if nopass.first_visit then 1 else nopass.get_eval_float color)
          | none => (bestmove, bestscore)
        let score := s.m_rootstate.final_score
        let pass_loses : Bool :=
          decide ((score > 0 ∧ color = FastBoard.WHITE) ∨ (score < 0 ∧ color = FastBoard.BLACK))
        let chosen : Int × ℚ :=
          if flag_set passflag NOPASS then
            if bestmove = FastBoard.PASS then avoid_pass else (bestmove, bestscore)
          else if !s.cfg.cfg_dumbpass && decide (bestmove = FastBoard.PASS) then
            if pass_loses then avoid_pass else (bestmove, bestscore)
          else if !s.cfg.cfg_dumbpass && decide (s.m_rootstate.last_move = FastBoard.PASS) then
            if pass_loses then (bestmove, bestscore) else (FastBoard.PASS, bestscore)
          else
            (bestmove, bestscore)
        if chosen.1 ≠ FastBoard.PASS then
          if s.should_resign passflag chosen.2 then some FastBoard.RESIGN else some chosen.1
        else
          some chosen.1

/-- The search with two of its inputs replaced: the option `cfg_dumbpass` and
the final score of the root position. -/
def with_pass_inputs (s : UCTSearch) (dumbpass : Bool) (final_score : ℚ) : UCTSearch :=
  { s with cfg := { s.cfg with cfg_dumbpass := dumbpass },
           m_rootstate := { s.m_rootstate with final_score := final_score } }

/-- The move of the top-ranked child of the root, the first of
`ranked_children`, if there is one. -/
def top_move (s : UCTSearch) (passflag : Nat)
    (randomize : List UCTNode → List UCTNode × Bool) : Option Int :=
  (s.ranked_children passflag randomize).head?.map UCTNode.get_move

/-- The non-pass child `get_best_move` falls back on: `get_nopass_child` of
the root with its children ranked. -/
def ranked_nopass_child (s : UCTSearch) (passflag : Nat)
    (randomize : List UCTNode → List UCTNode × Bool) : Option UCTNode :=
  UCTNode.get_nopass_child { s.m_root with m_children := s.ranked_children passflag randomize }

/-- The estimate `UCTSearch::est_playouts_left(elapsed_centis, time_for_move)`.
The playout rate `1.0f * playouts / elapsed_centis` and its product with the
time left are `float` values; the product, rounded up by `std::ceil`, is cast
to `int` (`static_cast_int`). -/
def est_playouts_left (s : UCTSearch) (elapsed_centis time_for_move : Int) : Int :=
  let playouts := s.m_playouts
  let playouts_left :=
    max 0 (min (s.m_maxplayouts - playouts) (s.m_maxvisits - s.m_root.get_visits))
  if elapsed_centis < 100 ∨ playouts < 100 then
    playouts_left
  else
    let playout_rate : ℚ := f32 (f32 (1 * f32 (playouts : ℚ)) / f32 (elapsed_centis : ℚ))
    let time_left := max 0 (time_for_move - elapsed_centis)
    min playouts_left
      (static_cast_int ((⌈f32 (playout_rate * f32 (time_left : ℚ))⌉ : Int) : ℚ))

/-- The value `std::ceil(playout_rate * time_left)` that `est_playouts_left`
casts to `int`. -/
def est_playouts_ceil (s : UCTSearch) (elapsed_centis time_for_move : Int) : Int :=
  let playout_rate : ℚ := f32 (f32 (1 * f32 (s.m_playouts : ℚ)) / f32 (elapsed_centis : ℚ))
  let time_left := max 0 (time_for_move - elapsed_centis)
  ⌈f32 (playout_rate * f32 (time_left : ℚ))⌉

/-- The first loop of `prune_noncontenders`: the largest visit count among the
valid children, starting from `Nfirst`. -/
def max_valid_visits (Nfirst : Int) : List UCTNode → Int
  | [] => Nfirst
  | node :: rest =>
    if node.valid then max_valid_visits (max Nfirst node.get_visits) rest
    else max_valid_visits Nfirst rest

/-- The second loop of `prune_noncontenders`: every valid child is set active
or pruned, and the pruned ones are counted on top of `pruned_nodes`. -/
def prune_loop (min_required_visits : Int) (pruned_nodes : Nat) :
    List UCTNode → List UCTNode × Nat
  | [] => ([], pruned_nodes)
  | node :: rest =>
    if node.valid then
      let has_enough_visits : Bool := decide (node.get_visits ≥ min_required_visits)
      let r := prune_loop min_required_visits
        (if !has_enough_visits then pruned_nodes + 1 else pruned_nodes) rest
      (node.set_active has_enough_visits :: r.1, r.2)
    else
      let r := prune_loop min_required_visits pruned_nodes rest
      (node :: r.1, r.2)

/-- The pruning `UCTSearch::prune_noncontenders(elapsed_centis, time_for_move)`:
the number of pruned children and the search with the statuses of the root's
children updated.  The difference `Nfirst - est_playouts_left(...)` is an
`int` subtraction (`wrap_int`).  The closing assertion is `prune_assertion`. -/
def prune_noncontenders (s : UCTSearch) (elapsed_centis time_for_move : Int) :
    Nat × UCTSearch :=
  let Nfirst := max_valid_visits 0 s.m_root.m_children
  let min_required_visits :=
    wrap_int (Nfirst - s.est_playouts_left elapsed_centis time_for_move)
  let r := prune_loop min_required_visits 0 s.m_root.m_children
  (r.2, { s with m_root := { s.m_root with m_children := r.1 } })

/-- The local `min_required_visits` of `prune_noncontenders`. -/
def min_required_visits (s : UCTSearch) (elapsed_centis time_for_move : Int) : Int :=
  wrap_int (max_valid_visits 0 s.m_root.m_children
    - s.est_playouts_left elapsed_centis time_for_move)

/-- The `int` computations of `prune_noncontenders` stay in range: the visit
counts of the valid root children, the playout count and the playout limit
are non-negative `int` values, and the value `est_playouts_left` casts to
`int`, if it comes to the cast, is below `2^31`. -/
def prune_in_range (s : UCTSearch) (elapsed_centis time_for_move : Int) : Prop :=
  (∀ c ∈ s.m_root.m_children, c.valid = true → 0 ≤ c.m_visits ∧ c.m_visits < 2 ^ 31)
    ∧ 0 ≤ s.m_playouts ∧ s.m_maxplayouts < 2 ^ 31
    ∧ (elapsed_centis < 100 ∨ s.m_playouts < 100
      ∨ s.est_playouts_ceil elapsed_centis time_for_move < 2 ^ 31)

/-- The assertion `pruned_nodes < m_root->get_children().size()` that closes
`prune_noncontenders`. -/
def prune_assertion (s : UCTSearch) (elapsed_centis time_for_move : Int) : Bool :=
  decide ((s.prune_noncontenders elapsed_centis time_for_move).1 < s.m_root.m_children.length)

/-- The `size_t` expression `m_root->get_children().size() - 1`, which wraps
around for a root without children. -/
def children_size_minus_one (n : UCTNode) : Nat :=
  (n.m_children.length + 2 ^ 64 - 1) % 2 ^ 64

/-- The test `UCTSearch::have_alternate_moves(elapsed_centis, time_for_move)`,
with the search as the pruning leaves it.  `can_accumulate_time` is the answer
of the time control (not among the sources) for the side to move. -/
def have_alternate_moves (s : UCTSearch) (can_accumulate_time : Bool)
    (elapsed_centis time_for_move : Int) : Bool × UCTSearch :=
  if s.cfg.cfg_timemanage = TimeManagement.OFF then
    (true, s)
  else
    let r := s.prune_noncontenders elapsed_centis time_for_move
    let pruned := r.1
    if pruned < children_size_minus_one r.2.m_root then
      (true, r.2)
    else if (!can_accumulate_time || decide (s.m_maxplayouts < UNLIMITED_PLAYOUTS))
        && decide (s.cfg.cfg_timemanage ≠ TimeManagement.FAST) then
      (true, r.2)
    else
      (false, r.2)

/-- The test `UCTSearch::stop_thinking(elapsed_centis, time_for_move)`. -/
def stop_thinking (s : UCTSearch) (elapsed_centis time_for_move : Int) : Bool :=
  decide (s.m_playouts ≥ s.m_maxplayouts)
    || decide (s.m_root.get_visits ≥ s.m_maxvisits)
    || decide (elapsed_centis ≥ time_for_move)

/-- The test `UCTSearch::is_running`. -/
def is_running (s : UCTSearch) : Bool :=
  s.m_run && decide (s.m_nodes < s.cfg.MAX_TREE_SIZE)

/-- The end of one iteration of the main loop of `UCTSearch::think`: the value
of `keeprunning` that decides whether the loop goes on, and the search after
the pruning done by `have_alternate_moves` (which `&=` always evaluates). -/
def think_keeprunning (s : UCTSearch) (can_accumulate_time : Bool)
    (elapsed_centis time_for_move : Int) : Bool × UCTSearch :=
  let keeprunning := s.is_running
  let keeprunning := keeprunning && !s.stop_thinking elapsed_centis time_for_move
  let r := s.have_alternate_moves can_accumulate_time elapsed_centis time_for_move
  (keeprunning && r.1, r.2)

end UCTSearch

/-! ## Node expansion -/

/-- The result of `Network::get_scored_moves`: the policy over the board
points (indexed `0 .. BOARD_SQUARES - 1`), the policy of a pass, the value and
the score head `alpha`, `beta`. -/
structure Netresult where
  policy : Nat → ℚ
  policy_pass : ℚ
  value : ℚ
  alpha : ℚ
  beta : ℚ

/-- The four evaluations a node stores in the `is_mult_komi_net` branch of
`create_children`. -/
structure SaiEval where
  net_eval : ℚ
  eval_bonus : ℚ
  eval_base : ℚ
  agent_eval : ℚ

/-- The code `create_children` calls outside the three files: the network,
and the score-head blending of the `is_mult_komi_net` branch (built from
`Utils::sigmoid`, `std::log`, `Utils::sigmoid_interval_avg`, `cfg_lambda` and
`cfg_mu`) as a function of `alpkt` and `beta`. -/
structure External where
  get_scored_moves : GameState → Netresult
  sai_blend : ℚ → ℚ → SaiEval

/-- What a call of `create_children` leaves behind: the returned flag, the
node, the global node count, the output parameters `value`, `alpkt`, `beta`
(`none` when they were not written), and the number of network calls made. -/
structure Expansion where
  success : Bool
  node : UCTNode
  nodecount : Int
  out : Option (ℚ × ℚ × ℚ)
  netcalls : Nat

namespace UCTNode

/-- The loop of `create_children` over the board points `i`, which appends
`(policy[i], vertex)` to the node list and adds `policy[i]` to `legal_sum` for
each legal point. -/
def collect_legal (state : GameState) (raw : Netresult) :
    List Nat → List (ℚ × Int) × ℚ → List (ℚ × Int) × ℚ
  | [], acc => acc
  | i :: rest, acc =>
    let x := i % state.boardsize
    let y := i / state.boardsize
    let vertex := state.get_vertex x y
    if state.is_move_legal state.to_move vertex then
      collect_legal state raw rest (acc.1 ++ [(raw.policy i, vertex)], acc.2 + raw.policy i)
    else
      collect_legal state raw rest acc

/-- The pair the loop of `create_children` emits for the board point with
index `i`: `(policy[i], vertex)` when the point is legal for the side to
move, nothing otherwise. -/
def board_candidate (state : GameState) (raw : Netresult) (i : Nat) : Option (ℚ × Int) :=
  if state.is_move_legal state.to_move (state.get_vertex (i % state.boardsize) (i / state.boardsize))
  then some (raw.policy i, state.get_vertex (i % state.boardsize) (i / state.boardsize))
  else none

/-- The node list of `create_children` before normalisation, with
`legal_sum`: the legal board points in index order, then the pass. -/
def raw_nodelist (state : GameState) (raw : Netresult) : List (ℚ × Int) × ℚ :=
  let r := collect_legal state raw (List.range (state.boardsize * state.boardsize)) ([], 0)
  (r.1 ++ [(raw.policy_pass, FastBoard.PASS)], r.2 + raw.policy_pass)

/-- The node list of `create_children` as it is handed to `link_nodelist`:
divided by `legal_sum` when that exceeds `FLT_MIN`, uniform otherwise. -/
def normalized_nodelist (state : GameState) (raw : Netresult) : List (ℚ × Int) :=
  let r := raw_nodelist state raw
  let nodelist := r.1
  let legal_sum := r.2
  if legal_sum > FLT_MIN then
    nodelist.map (fun node => (node.1 / legal_sum, node.2))
  else
    let uniform_prob : ℚ := 1 / (nodelist.length : ℚ)
    nodelist.map (fun node => (uniform_prob, node.2))

/-- The loop of `link_nodelist` over the sorted node list: a candidate below
`new_min_psa` is skipped, one below `old_min_psa` becomes a child and is
counted, the others are taken to be there already. -/
def link_loop (new_min_psa old_min_psa : ℚ) :
    List (ℚ × Int) → List UCTNode × Int × Bool → List UCTNode × Int × Bool
  | [], acc => acc
  | node :: rest, (children, nodecount, skipped_children) =>
    if node.1 < new_min_psa then
      link_loop new_min_psa old_min_psa rest (children, nodecount, true)
    else if node.1 < old_min_psa then
      link_loop new_min_psa old_min_psa rest
        (children ++ [UCTNode.create node.2 node.1], nodecount + 1, skipped_children)
    else
      link_loop new_min_psa old_min_psa rest (children, nodecount, skipped_children)

/-- The call `UCTNode::link_nodelist(nodecount, nodelist, min_psa_ratio)`:
the node and the node count afterwards. -/
def link_nodelist (n : UCTNode) (nodecount : Int) (nodelist : List (ℚ × Int))
    (min_psa_ratio : ℚ) : UCTNode × Int :=
  match stable_sort_reversed pair_less nodelist with
  | [] => (n, nodecount)
  | best :: rest =>
    let max_psa := best.1
    let old_min_psa := max_psa * n.m_min_psa_ratio_children
    let new_min_psa := max_psa * min_psa_ratio
    let r := link_loop new_min_psa old_min_psa (best :: rest) (n.m_children, nodecount, false)
    ({ n with m_children := r.1,
              m_min_psa_ratio_children := if r.2.2 then min_psa_ratio else 0,
              m_is_expanding := false }, r.2.1)

/-- The call `UCTNode::create_children(nodecount, state, value, alpkt, beta,
min_psa_ratio)`. -/
def create_children (ext : External) (cfg : Config) (n : UCTNode) (nodecount : Int)
    (state : GameState) (min_psa_ratio : ℚ) : Expansion :=
  if !n.expandable min_psa_ratio then
    { success := false, node := n, nodecount := nodecount, out := none, netcalls := 0 }
  else if state.passes ≥ 2 then
    { success := false, node := n, nodecount := nodecount, out := none, netcalls := 0 }
  else if !n.expandable min_psa_ratio then
    { success := false, node := n, nodecount := nodecount, out := none, netcalls := 0 }
  else if n.m_is_expanding then
    { success := false, node := n, nodecount := nodecount, out := none, netcalls := 0 }
  else
    let n : UCTNode := { n with m_is_expanding := true }
    let raw_netlist := ext.get_scored_moves state
    let komi := state.komi
    let alpkt := (if state.black_to_move then raw_netlist.alpha else -raw_netlist.alpha) - komi
    let beta := raw_netlist.beta
    let value := raw_netlist.value
    let value := if state.white_to_move then 1 - value else value
    let n : UCTNode :=
      if cfg.is_mult_komi_net then
        let e := ext.sai_blend alpkt beta
        { n with m_net_alpkt := alpkt, m_net_beta := beta, m_eval_bonus := e.eval_bonus,
                 m_eval_base := e.eval_base, m_agent_eval := e.agent_eval,
                 m_net_eval := e.net_eval }
      else
        { n with m_net_alpkt := alpkt, m_net_beta := beta, m_eval_bonus := 0,
                 m_eval_base := 0, m_net_eval := value, m_agent_eval := value }
    let nodelist := normalized_nodelist state raw_netlist
    let r := link_nodelist n nodecount nodelist min_psa_ratio
    { success := true, node := r.1, nodecount := r.2, out := some (value, alpkt, beta),
      netcalls := 1 }

end UCTNode

/-! ## Tree-size budget -/

namespace UCTSearch

/-- The ratio `UCTSearch::get_min_psa_ratio()`: the share of the node budget
in use decides how low a prior may be for a child to be created.  The share
`m_nodes / static_cast<float>(MAX_TREE_SIZE)` is a `float` division of the two
counts converted to `float`, and the constants are `float` literals. -/
def get_min_psa_ratio (s : UCTSearch) : ℚ :=
  let mem_full : ℚ := f32 (f32 (s.m_nodes : ℚ) / f32 (s.cfg.MAX_TREE_SIZE : ℚ))
  if mem_full > f32 (5 / 10) then
    if mem_full > f32 (95 / 100) then
      f32 (1 / 100)
    else
      f32 (1 / 1000)
  else
    0

/-- The local `mem_full` of `get_min_psa_ratio`: the share of the node budget
in use, as the `float` the source computes. -/
def mem_full (s : UCTSearch) : ℚ :=
  f32 (f32 (s.m_nodes : ℚ) / f32 (s.cfg.MAX_TREE_SIZE : ℚ))

end UCTSearch

/-! ## Selection -/

/-- The functions of the floating-point library and of `Utils` (not among the
sources) the embedded code calls: `std::sqrt`, `std::log` and
`Utils::sigmoid(alpkt, beta, x)`. -/
structure Numerics where
  sqrt : ℚ → ℚ
  log : ℚ → ℚ
  sigmoid : ℚ → ℚ → ℚ → ℚ

namespace UCTNode

/-- Accessor `UCTNode::get_agent_eval(tomove)`; White's complement `1.0f -
m_agent_eval` is a `float` subtraction. -/
def get_agent_eval (n : UCTNode) (tomove : Int) : ℚ :=
  if tomove = FastBoard.WHITE then f32 (1 - n.m_agent_eval) else n.m_agent_eval

/-- The first loop of `uct_select_child`: over the valid children, the sum of
the priors of the visited ones (`total_visited_policy`, a `float`
accumulator) and the sum of the visits (`parentvisits`). -/
def visit_totals : List UCTNode → ℚ × Int → ℚ × Int
  | [], acc => acc
  | child :: rest, acc =>
    if child.valid then
      visit_totals rest
        (if child.get_visits > 0 then f32 (acc.1 + child.get_score) else acc.1,
          acc.2 + child.get_visits)
    else
      visit_totals rest acc

/-- The value `fpu_eval` of `uct_select_child`, the estimated eval of a child
without visits: `0.5f` with `cfg_fpuzero`, else the parent's agent eval for
the side to move minus `fpu_reduction`, which is 0 at a root with noise and
the `float` product `cfg_fpu_reduction * sqrt(total_visited_policy)`
elsewhere. -/
def fpu_eval (num : Numerics) (cfg : Config) (n : UCTNode) (color : Int) (is_root : Bool) : ℚ :=
  let total_visited_policy := (visit_totals n.m_children (0, 0)).1
  let fpu_reduction : ℚ :=
    if !is_root || !cfg.cfg_noise then
      f32 (cfg.cfg_fpu_reduction * f32 (num.sqrt total_visited_policy))
    else
      0
  if !cfg.cfg_fpuzero then
    float_sub (n.get_agent_eval color) fpu_reduction
  else
    5 / 10

/-- The `value` the second loop of `uct_select_child` gives a child:
`winrate + puct`, as the source computes it.  The numerator
`std::sqrt(double(parentvisits))`, the denominator and their quotient are
`double` values, `cfg_puct * psa` is a `float` product, and the product with
the quotient and the sum with the `float` winrate are `double` operations. -/
def child_value (num : Numerics) (cfg : Config) (n : UCTNode) (color : Int) (is_root : Bool)
    (child : UCTNode) : ℚ :=
  let parentvisits := (visit_totals n.m_children (0, 0)).2
  let numerator := f64 (num.sqrt (f64 (parentvisits : ℚ)))
  let winrate := if child.get_visits > 0 then child.get_eval_float color
    else fpu_eval num cfg n color is_root
  let psa := child.get_score
  let denom : ℚ := f64 (1 + f64 (child.get_visits : ℚ))
  let puct := f64 (f32 (cfg.cfg_puct * psa) * f64 (numerator / denom))
  f64 (winrate + puct)

/-- The second loop of `uct_select_child` from the child with index `i` on:
`best` is the index and value of the best active child so far (`none` stands
for the null pointer with `best_value` the lowest double); a child replaces
it only with a strictly larger value. -/
def select_loop (value : UCTNode → ℚ) : List UCTNode → Nat → Option (Nat × ℚ) → Option (Nat × ℚ)
  | [], _, best => best
  | child :: rest, i, best =>
    if !child.active then
      select_loop value rest (i + 1) best
    else
      match best with
      | none => select_loop value rest (i + 1) (some (i, value child))
      | some b =>
        if value child > b.2 then
          select_loop value rest (i + 1) (some (i, value child))
        else
          select_loop value rest (i + 1) (some b)

/-- The selection `UCTNode::uct_select_child(color, is_root)`: the index of
the selected child in the children and the child; `none` is the failed
assertion `best != nullptr` of a node without active child. -/
def uct_select_child (num : Numerics) (cfg : Config) (n : UCTNode) (color : Int)
    (is_root : Bool) : Option (Nat × UCTNode) :=
  match select_loop (child_value num cfg n color is_root) n.m_children 0 none with
  | none => none
  | some b =>
    match n.m_children[b.1]? with
    | none => none
    | some child => some (b.1, child)

/-- The score of a child as the specification words it, in exact arithmetic:
`q + u` with `u = c_puct * prior * sqrt(S) / (1 + visits)`, `S` the sum of the
visits over the valid children, and `q` the child's eval for the side to move
if it has visits and the fpu value otherwise. -/
def spec_puct_score (num : Numerics) (cfg : Config) (n : UCTNode) (color : Int)
    (is_root : Bool) (child : UCTNode) : ℚ :=
  let S : Int := ((n.m_children.filter (fun c => c.valid)).map (fun c => c.m_visits)).sum
  let q : ℚ := if child.m_visits > 0 then child.get_eval color
    else fpu_eval num cfg n color is_root
  let u : ℚ := cfg.cfg_puct * child.m_score * num.sqrt (S : ℚ) / (1 + (child.m_visits : ℚ))
  q + u

end UCTNode

/-! ## Root management -/

/-- The operations of `GameState` that change the position (not among the
sources): `play_move`, `undo_move`, `forward_move`, and the test `superko`. -/
structure Rules where
  play_move : GameState → Int → GameState
  undo_move : GameState → GameState
  forward_move : GameState → GameState
  superko : GameState → Bool

namespace UCTNode

/-- Modelled from the spec: `UCTNode::find_child(move)` is not among the
sources; tree reuse is to "find the child matching that move, promote it to
root", so it is the first child with that move, and null when there is
none. -/
def find_child (n : UCTNode) (move : Int) : Option UCTNode :=
  n.m_children.find? (fun child => child.m_move == move)

/-- The count `UCTNode::count_nodes()`: the children, plus the nodes counted
below every child that has visits. -/
def count_nodes : UCTNode → Nat
  | ⟨_, _, _, _, _, _, _, _, _, _, _, _, _, _, children⟩ =>
    children.length + count_below children
where
  /-- The loop of `count_nodes` over the children. -/
  count_below : List UCTNode → Nat
    | [] => 0
    | child :: rest =>
      (if child.m_visits > 0 then child.count_nodes else 0) + count_below rest

end UCTNode

namespace UCTSearch

/-- The loop "Try to replay moves advancing m_root" of
`advance_to_new_rootstate`, `depth` times: the new root (null when a move has
no matching child), the replayed position `test` and the advanced last root
state. -/
def replay_moves (rules : Rules) :
    Nat → GameState → UCTNode → GameState → Option UCTNode × GameState × GameState
  | 0, test, root, last => (some root, test, last)
  | depth + 1, test, root, last =>
    let test := rules.forward_move test
    let move := test.last_move
    match root.find_child move with
    | none => (none, test, last)
    | some child => replay_moves rules depth test child (rules.play_move last move)

/-- The call `UCTSearch::advance_to_new_rootstate()`: the returned flag, the
root it leaves (null when a replayed move had no matching child) and the last
root state it leaves.  The asynchronous destruction of the old roots is
dropped. -/
def advance_to_new_rootstate (rules : Rules) (s : UCTSearch) :
    Bool × Option UCTNode × Option GameState :=
  match s.m_last_rootstate with
  | none => (false, some s.m_root, none)
  | some last =>
    if s.m_rootstate.komi ≠ last.komi then
      (false, some s.m_root, some last)
    else
      let depth : Int := (s.m_rootstate.movenum : Int) - (last.movenum : Int)
      if depth < 0 then
        (false, some s.m_root, some last)
      else
        let test := rules.undo_move^[depth.toNat] s.m_rootstate
        if last.hash ≠ test.hash then
          (false, some s.m_root, some last)
        else
          let r := replay_moves rules depth.toNat test s.m_root last
          match r.1 with
          | none => (false, none, some r.2.2)
          | some root =>
            if r.2.2.hash ≠ r.2.1.hash then
              (false, some root, some r.2.2)
            else
              (true, some root, some r.2.2)

/-- The call `UCTSearch::update_root()`. -/
def update_root (rules : Rules) (s : UCTSearch) : UCTSearch :=
  let a := advance_to_new_rootstate rules s
  let root : UCTNode :=
    match a.1, a.2.1 with
    | true, some root => root
    | _, _ => UCTNode.create FastBoard.PASS 0
  { s with m_playouts := 0, m_root := root, m_last_rootstate := none,
           m_nodes := (root.count_nodes : Int) }

end UCTSearch

/-! ## Simulation -/

/-- Modelled from the spec: the class `SearchResult` is declared in the
absent `UCTSearch.h`; the spec gives a validity flag, the value `eval()` and
the score head `m_alpkt`, `m_beta`. -/
structure SearchResult where
  m_valid : Bool
  m_eval : ℚ
  m_alpkt : ℚ
  m_beta : ℚ

namespace SearchResult

/-- Modelled from the spec: the default-constructed `SearchResult{}` "carries
no value" and is not valid. -/
def invalid : SearchResult := { m_valid := false, m_eval := 0, m_alpkt := 0, m_beta := 0 }

/-- Test `SearchResult::valid`. -/
def valid (r : SearchResult) : Bool := r.m_valid

/-- Accessor `SearchResult::eval`. -/
def eval (r : SearchResult) : ℚ := r.m_eval

/-- Modelled from the spec: `from_eval(value, alpkt, beta)` "carries
`m_alpkt`, `m_beta`, and `eval() = value`". -/
def from_eval (value alpkt beta : ℚ) : SearchResult :=
  { m_valid := true, m_eval := value, m_alpkt := alpkt, m_beta := beta }

/-- Modelled from the spec: `from_score(score)` "carries a terminal value
(`score > 0` gives 1, `score < 0` gives 0, `= 0` gives 0.5)"; the score head
of a terminal result is not given by the spec and is the parameter `head`. -/
def from_score (board_score : ℚ) (head : ℚ × ℚ) : SearchResult :=
  if board_score > 0 then
    { m_valid := true, m_eval := 1, m_alpkt := head.1, m_beta := head.2 }
  else if board_score < 0 then
    { m_valid := true, m_eval := 0, m_alpkt := head.1, m_beta := head.2 }
  else
    { m_valid := true, m_eval := 5 / 10, m_alpkt := head.1, m_beta := head.2 }

/-- The value `SearchResult::eval_with_bonus(xbar)`. -/
def eval_with_bonus (num : Numerics) (r : SearchResult) (xbar : ℚ) : ℚ :=
  if |xbar| < 1 / 1000 then
    num.sigmoid r.m_alpkt r.m_beta 0
  else if (|r.m_alpkt| + |xbar|) * r.m_beta < 10 then
    1 - num.log (num.sigmoid r.m_alpkt r.m_beta xbar / num.sigmoid r.m_alpkt r.m_beta 0)
      / r.m_beta / xbar
  else if r.m_alpkt > 0 then
    1
  else
    0

end SearchResult

/-- Modelled from the spec: the constant `VIRTUAL_LOSS_COUNT` of the absent
`UCTNode.h`, "typically 3". -/
def VIRTUAL_LOSS_COUNT : Int := 3

/-- Everything `play_simulation` calls outside the three files: the network
and the blending (`ext`), the position operations (`rules`), the
floating-point library (`num`), and the score head `from_score` gives a
terminal result (`score_head`). -/
structure SimEnv where
  ext : External
  rules : Rules
  num : Numerics
  score_head : ℚ → ℚ × ℚ

namespace UCTNode

/-- Mutator `UCTNode::virtual_loss`. -/
def virtual_loss (n : UCTNode) : UCTNode :=
  { n with m_virtual_loss := n.m_virtual_loss + VIRTUAL_LOSS_COUNT }

/-- Mutator `UCTNode::virtual_loss_undo`. -/
def virtual_loss_undo (n : UCTNode) : UCTNode :=
  { n with m_virtual_loss := n.m_virtual_loss - VIRTUAL_LOSS_COUNT }

/-- Mutator `UCTNode::update(eval)`: one more visit, and `eval` added to the
sum of Black's evaluations. -/
def update (n : UCTNode) (eval : ℚ) : UCTNode :=
  { n with m_visits := n.m_visits + 1, m_blackevals := n.m_blackevals + eval }

/-- Accessor `UCTNode::get_eval_bonus`. -/
def get_eval_bonus (n : UCTNode) : ℚ := n.m_eval_bonus

/-- The node reached from `n` by following the children with the indices of
`path`, if there is one: how a node of the tree below `n` is named. -/
def subnode (n : UCTNode) : List Nat → Option UCTNode
  | [] => some n
  | i :: rest =>
    match n.m_children[i]? with
    | none => none
    | some child => child.subnode rest

end UCTNode

/-- How a call of `play_simulation` ends: with the returned result, the node
and the global node count as the call leaves them (`done`); in the failed
assertion `best != nullptr` of a selection without active child; or, in the
embedding only, without fuel for the recursion. -/
inductive Simulation where
  | done (result : SearchResult) (node : UCTNode) (nodes : Int)
  | no_active_child
  | out_of_fuel

namespace UCTSearch

/-- The expansion step of `play_simulation` (the block `if
(node->expandable())`): the result so far, the node and the node count. -/
def expand_phase (env : SimEnv) (s : UCTSearch) (currstate : GameState) (node : UCTNode) :
    SearchResult × UCTNode × Int :=
  if node.expandable 0 then
    if currstate.passes ≥ 2 then
      let score := currstate.final_score
      (SearchResult.from_score score (env.score_head score), node, s.m_nodes)
    else if s.m_nodes < s.cfg.MAX_TREE_SIZE then
      let had_children := node.has_children
      let e := node.create_children env.ext s.cfg s.m_nodes currstate s.get_min_psa_ratio
      let out := e.out.getD (0, 0, 0)
      if !had_children && e.success then
        (SearchResult.from_eval out.1 out.2.1 out.2.2, e.node, e.nodecount)
      else
        (SearchResult.invalid, e.node, e.nodecount)
    else
      (SearchResult.invalid, node, s.m_nodes)
  else
    (SearchResult.invalid, node, s.m_nodes)

/-- The value backed up into a node: `eval_with_bonus` at the node's
`eval_bonus` with a score head (`is_mult_komi_net`), `eval()` otherwise. -/
def backup_value (env : SimEnv) (s : UCTSearch) (result : SearchResult) (node : UCTNode) : ℚ :=
  if s.cfg.is_mult_komi_net then
    result.eval_with_bonus env.num node.get_eval_bonus
  else
    result.eval

/-- The end of `play_simulation`: a valid result is backed up into the node,
and the virtual loss is undone. -/
def backup_phase (env : SimEnv) (s : UCTSearch) (result : SearchResult) (node : UCTNode) :
    UCTNode :=
  let node := if result.valid then node.update (backup_value env s result node) else node
  node.virtual_loss_undo

/-- The call `UCTSearch::play_simulation(currstate, node)`, with `is_root`
the test `node == m_root.get()`.  The search `s` gives the configuration and
the node count `m_nodes`; the recursion depth is bounded by `fuel`.  The log
lines of the source evaluate `node->get_eval(color)`, which asserts `visits +
virtual_loss > 0`: this is the outcome of a call in which no assertion fails,
and `play_simulation_asserts` says whether one does. -/
def play_simulation (env : SimEnv) :
    Nat → UCTSearch → GameState → UCTNode → Bool → Simulation
  | 0, _, _, _, _ => Simulation.out_of_fuel
  | fuel + 1, s, currstate, node, is_root =>
    let color := currstate.to_move
    let node := node.virtual_loss
    let x := expand_phase env s currstate node
    let result := x.1
    let node := x.2.1
    let nodes := x.2.2
    if node.has_children && !result.valid then
      match node.uct_select_child env.num s.cfg color is_root with
      | none => Simulation.no_active_child
      | some (i, next) =>
        let move := next.get_move
        let currstate := env.rules.play_move currstate move
        if move ≠ FastBoard.PASS ∧ env.rules.superko currstate = true then
          Simulation.done result
            (backup_phase env s result
              { node with m_children := node.m_children.set i next.invalidate })
            nodes
        else
          match play_simulation env fuel { s with m_nodes := nodes } currstate next false with
          | Simulation.done result next nodes =>
            Simulation.done result
              (backup_phase env s result { node with m_children := node.m_children.set i next })
              nodes
          | Simulation.no_active_child => Simulation.no_active_child
          | Simulation.out_of_fuel => Simulation.out_of_fuel
    else
      Simulation.done result (backup_phase env s result node) nodes

/-- The assertions on the way of `play_simulation(currstate, node)`.  The log
lines after `node->virtual_loss()`, after `create_children` and at the end of
the call (after `virtual_loss_undo`) evaluate `node->get_eval(color)`, which
asserts `visits + virtual_loss > 0`, and `uct_select_child` asserts `best !=
nullptr`.  The value is true when none of them fails, in the call and in the
calls below it. -/
def play_simulation_asserts (env : SimEnv) :
    Nat → UCTSearch → GameState → UCTNode → Bool → Bool
  | 0, _, _, _, _ => true
  | fuel + 1, s, currstate, node, is_root =>
    let color := currstate.to_move
    let node := node.virtual_loss
    let begins := node.get_eval_assertion
    let x := expand_phase env s currstate node
    let created :=
      if node.expandable 0 = true ∧ ¬ currstate.passes ≥ 2 ∧ s.m_nodes < s.cfg.MAX_TREE_SIZE then
        x.2.1.get_eval_assertion
      else
        true
    let result := x.1
    let node := x.2.1
    let nodes := x.2.2
    begins && created &&
      (if node.has_children && !result.valid then
        match node.uct_select_child env.num s.cfg color is_root with
        | none => false
        | some (i, next) =>
          let move := next.get_move
          let currstate := env.rules.play_move currstate move
          if move ≠ FastBoard.PASS ∧ env.rules.superko currstate = true then
            (backup_phase env s result
              { node with m_children := node.m_children.set i next.invalidate }).get_eval_assertion
          else
            play_simulation_asserts env fuel { s with m_nodes := nodes } currstate next false
              && match play_simulation env fuel { s with m_nodes := nodes } currstate next
                  false with
                | Simulation.done result next _ =>
                  (backup_phase env s result
                    { node with m_children := node.m_children.set i next }).get_eval_assertion
                | Simulation.no_active_child => false
                | Simulation.out_of_fuel => true
      else
        (backup_phase env s result node).get_eval_assertion)

/-- One turn of the loop of `UCTWorker::operator()` and of the main loop of
`think`: a simulation from the root on a copy of the root state, and one more
playout if its result is valid.  `none` when the simulation does not end
with a result. -/
def worker_iteration (env : SimEnv) (fuel : Nat) (s : UCTSearch) : Option UCTSearch :=
  match play_simulation env fuel s s.m_rootstate s.m_root true with
  | Simulation.done result node nodes =>
    some { s with m_root := node, m_nodes := nodes,
                  m_playouts := if result.valid then s.m_playouts + 1 else s.m_playouts }
  | _ => none

end UCTSearch

/-! ## Statements about the whole tree -/

/-- Whether the node named by `path` lies on the descent `descent` of a
simulation whose result is valid: the nodes a backup touches. -/
def on_descent (valid : Bool) (descent path : List Nat) : Bool :=
  valid && path.isPrefixOf descent

/-- The effect of a simulation on the tree below a node, `old` before and
`new` after the call, for a result with validity `valid` backed up with the
value `w` along `descent`.  Every node of the old tree is still there under
the same path, with its move, with its status if its move is a pass, with its
virtual loss, and with its visits and sum of evaluations increased by 1 and
by `w` if it lies on the descent, and unchanged otherwise.  Every node that
is new has no virtual loss, and one visit with the evaluation `w` if it lies
on the descent and none otherwise. -/
def BackupFrame (w : UCTNode → ℚ) (valid : Bool) (descent : List Nat) (old new : UCTNode) :
    Prop :=
  (∀ path n0, old.subnode path = some n0 →
      ∃ n1, new.subnode path = some n1
        ∧ n1.m_move = n0.m_move
        ∧ (n0.m_move = FastBoard.PASS → n1.m_status = n0.m_status)
        ∧ n1.m_virtual_loss = n0.m_virtual_loss
        ∧ n1.m_visits = n0.m_visits + (if on_descent valid descent path = true then 1 else 0)
        ∧ n1.m_blackevals
          = n0.m_blackevals + (if on_descent valid descent path = true then w n1 else 0))
    ∧ (∀ path n1, old.subnode path = none → new.subnode path = some n1 →
        n1.m_virtual_loss = 0
          ∧ n1.m_visits = (if on_descent valid descent path = true then 1 else 0)
          ∧ n1.m_blackevals = (if on_descent valid descent path = true then w n1 else 0))

/-- The invariant "for every node, visits >= sum of its children's visits"
on the tree below `root`. -/
def visits_invariant (root : UCTNode) : Prop :=
  ∀ path n, root.subnode path = some n →
    (n.m_children.map (fun c => c.m_visits)).sum ≤ n.m_visits

namespace UCTNode

/-- The depth of the tree below a node: 0 without children, else one more
than the largest depth of a child.  It bounds the recursion of
`play_simulation`. -/
def depth : UCTNode → Nat
  | ⟨_, _, _, _, _, _, _, _, _, _, _, _, _, _, children⟩ => depth_below children
where
  /-- The largest depth of a child, plus one. -/
  depth_below : List UCTNode → Nat
    | [] => 0
    | child :: rest => max (child.depth + 1) (depth_below rest)

end UCTNode

/-- Every node of the tree below `root` that has children has an `ACTIVE`
child: the condition under which the assertion `best != nullptr` of the
selection holds at every node of the tree. -/
def has_active_children (root : UCTNode) : Prop :=
  ∀ path n, root.subnode path = some n → n.has_children = true →
    ∃ c ∈ n.m_children, c.active = true

namespace UCTSearch

/-- The loop "reactivate all pruned root children" that `think` runs after
the search has stopped: `set_active(true)` on every child of the root. -/
def reactivate_children (s : UCTSearch) : UCTSearch :=
  { s with m_root :=
      { s.m_root with m_children := s.m_root.m_children.map (fun node => node.set_active true) } }

end UCTSearch

namespace SearchResult

/-- The body of `SearchResult::eval_with_bonus(xbar)` for the score head
`alpkt`, `beta`, over any ordered field `K` of numbers (the rationals of the
embedding, or the reals), with the absent `sigmoid` and `std::log` as
parameters. -/
def eval_with_bonus_over {K : Type} [LinearOrderedField K] (sigmoid : K → K → K → K)
    (log : K → K) (alpkt beta xbar : K) : K :=
  if |xbar| < 1 / 1000 then
    sigmoid alpkt beta 0
  else if (|alpkt| + |xbar|) * beta < 10 then
    1 - log (sigmoid alpkt beta xbar / sigmoid alpkt beta 0) / beta / xbar
  else if alpkt > 0 then
    1
  else
    0

end SearchResult

/-- Modelled from the spec: `sigmoid` is not among the sources; the spec has
"a logistic over board-score margin".  This is the logistic curve
`1 / (1 + exp (-t))` for the exponential `exp` of the field; the source, which
inverts `pi = sigmoid(alpkt, beta, 0)` into `eval_bonus = logit(pi) / beta -
alpkt`, fits `sigmoid(alpha, beta, x) = logistic (beta * (alpha + x))`, the
glossary of the spec writes `beta * (alpha - x)`. -/
def logistic {K : Type} [Field K] (exp : K → K) (t : K) : K :=
  1 / (1 + exp (-t))

/-- The score-head sigmoid with the offset added to `alpha`, as the inversion
`eval_bonus = logit(pi) / beta - alpkt` of the source has it. -/
def sigmoid_plus {K : Type} [Field K] (exp : K → K) (alpha beta x : K) : K :=
  logistic exp (beta * (alpha + x))

/-- Modelled from the spec: the score-head sigmoid as the glossary of the
spec writes it, with the offset subtracted from `alpha`. -/
def sigmoid_minus {K : Type} [Field K] (exp : K → K) (alpha beta x : K) : K :=
  logistic exp (beta * (alpha - x))

/-! ## Sample inputs -/

namespace Sample

/-- A configuration with the default resign setting (`cfg_resignpct = -1`),
no opening randomisation and time management `ON`. -/
def config : Config :=
  { cfg_resignpct := -1, cfg_random_cnt := 0, cfg_dumbpass := false,
    cfg_timemanage := TimeManagement.ON, cfg_noise := false, cfg_fpuzero := false,
    cfg_puct := 8 / 10, cfg_fpu_reduction := 1 / 4, is_mult_komi_net := false,
    MAX_TREE_SIZE := 40000000 }

/-- The sample configuration with the resign threshold set to 7 percent. -/
def config_resign7 : Config := { config with cfg_resignpct := 7 }

/-- A 19x19 position at move 100, White to move in a two-stone handicap
game, every point legal. -/
def state : GameState :=
  { boardsize := 19, to_move := FastBoard.WHITE, movenum := 100, passes := 0,
    handicap := 2, komi := 1 / 2, last_move := 72, final_score := 3,
    is_move_legal := fun _ _ => true }

/-- A child of the root given by its move, prior, visits and sum of Black's
evaluations. -/
def child (move : Int) (score : ℚ) (visits : Int) (blackevals : ℚ) : UCTNode :=
  { UCTNode.create move score with m_visits := visits, m_blackevals := blackevals }

/-- An expanded root with the given children. -/
def root (children : List UCTNode) : UCTNode :=
  { UCTNode.create FastBoard.PASS 0 with
    m_visits := 100, m_blackevals := 50, m_min_psa_ratio_children := 0,
    m_children := children }

/-- A search over `state` with the given configuration and root children. -/
def search (cfg : Config) (g : GameState) (children : List UCTNode) : UCTSearch :=
  { cfg := cfg, m_rootstate := g, m_root := root children, m_playouts := 90,
    m_maxplayouts := 100, m_maxvisits := UNLIMITED_PLAYOUTS, m_nodes := 1000, m_run := true }

/-- A pass with 60 visits ranked above move 72 with 30 visits. -/
def pass_on_top : List UCTNode := [child FastBoard.PASS (1 / 2) 60 30, child 72 (1 / 4) 30 6]

/-- Move 72 with 60 visits, all of them won by Black, ranked above a pass with
30 visits. -/
def pass_second : List UCTNode := [child 72 (1 / 2) 60 60, child FastBoard.PASS (1 / 4) 30 15]

/-- The identity reordering, a `randomize_first_proportionally` that picks
the first child. -/
def keep_order (children : List UCTNode) : List UCTNode × Bool := (children, false)

/-- The 19x19 position with Black's last move a pass and the given final
score, White to move. -/
def after_pass (final_score : ℚ) : GameState :=
  { state with last_move := FastBoard.PASS, passes := 1, final_score := final_score }

/-- A child with 50 visits and a child without visits: with 10 playouts left
the second cannot catch up. -/
def one_contender : List UCTNode := [child 72 (1 / 2) 50 25, child 73 (1 / 4) 0 0]

/-- The sample configuration with "fast" time management. -/
def config_fast : Config := { config with cfg_timemanage := TimeManagement.FAST }

/-- An empty 9x9 position, Black to move, every point legal. -/
def state9 : GameState :=
  { boardsize := 9, to_move := FastBoard.BLACK, movenum := 0, passes := 0,
    handicap := 0, komi := 15 / 2, last_move := 0, final_score := 0,
    is_move_legal := fun _ _ => true }

/-- A network whose policy puts `1/2` on the first point, `1/1000` on each
other point and the rest on the pass; value `1/2`. -/
def peaked_net : External :=
  { get_scored_moves := fun _ =>
      { policy := fun i => if i = 0 then 1 / 2 else 1 / 1000,
        policy_pass := 42 / 100, value := 1 / 2, alpha := 0, beta := 1 },
    sai_blend := fun _ _ => { net_eval := 1 / 2, eval_bonus := 0, eval_base := 0,
                              agent_eval := 1 / 2 } }

/-- A network whose policy is 0 on the board and the denormal `2^-127` on the
pass. -/
def tiny_net : External :=
  { get_scored_moves := fun _ =>
      { policy := fun _ => 0, policy_pass := 1 / 2 ^ 127, value := 1 / 2, alpha := 0,
        beta := 1 },
    sai_blend := fun _ _ => { net_eval := 1 / 2, eval_bonus := 0, eval_base := 0,
                              agent_eval := 1 / 2 } }

/-- A rational stand-in for the floating-point library: the square root is
exact on squares of rationals (and rounded down otherwise), the logarithm and
the sigmoid are first-order approximations around 1 and 0. -/
def numerics : Numerics :=
  { sqrt := fun x => (Nat.sqrt (x.num.toNat * x.den) : ℚ) / (x.den : ℚ),
    log := fun x => x - 1,
    sigmoid := fun alpkt beta x => 1 / 2 + beta * (alpkt - x) / 4 }

/-- The sample configuration with Dirichlet noise enabled (`cfg_fpuzero`
stays false). -/
def config_noise : Config := { config with cfg_noise := true }

/-- An expanded root whose agent eval for Black is `0.8`, with one visited
and one unvisited child. -/
def confident_root : UCTNode := { root one_contender with m_agent_eval := 8 / 10 }

/-- Position operations for the samples: a move is recorded as the last move,
no position repeats, undo and redo only step the move number. -/
def rules : Rules :=
  { play_move := fun g move => { g with last_move := move, movenum := g.movenum + 1,
                                          to_move := 1 - g.to_move },
    undo_move := fun g => { g with movenum := g.movenum - 1 },
    forward_move := fun g => { g with movenum := g.movenum + 1 },
    superko := fun _ => false }

/-- The sample search remembering a last root state with another komi. -/
def search_other_komi : UCTSearch :=
  { search config state one_contender with
    m_last_rootstate := some { state with komi := 13 / 2 } }

/-- The surroundings of a simulation for the samples: the peaked network, the
sample position operations (no position repeats), the rational numerics, and
a terminal score head `(0, 1)`. -/
def sim_env : SimEnv :=
  { ext := peaked_net, rules := rules, num := numerics, score_head := fun _ => (0, 1) }

/-- The surroundings of a simulation in which every position repeats an
earlier one. -/
def sim_env_superko : SimEnv :=
  { sim_env with rules := { rules with superko := fun _ => true } }

/-- A search on the empty 9x9 position over the root with the visited child 72
and the unvisited child 73. -/
def search9 : UCTSearch := search config state9 one_contender

/-- The move 72 made `INVALID` by a superko abort, next to the unvisited
move 73. -/
def one_invalid : List UCTNode := [(child 72 (1 / 2) 50 25).invalidate, child 73 (1 / 4) 0 0]

/-- The sample configuration with `cfg_puct = 1`. -/
def config_puct1 : Config := { config with cfg_puct := 1 }

/-- Three children sorted by prior, 25 visits in all, of which the last two
have the same score `q + u` for Black. -/
def tied_children : List UCTNode :=
  [child 72 (1 / 2) 9 0, child 73 (25 / 64) 14 7, child 74 (5 / 64) 2 1]

/-- Two root children with 150 and 50 visits. -/
def two_contenders : List UCTNode := [child 72 (1 / 2) 150 75, child 73 (1 / 4) 50 25]

/-- A search without a playout limit, 200 playouts done, over a root with 200
visits and the children `two_contenders`. -/
def search_unlimited : UCTSearch :=
  { search config state two_contenders with
    m_root := { root two_contenders with m_visits := 200, m_blackevals := 100 },
    m_playouts := 200, m_maxplayouts := UNLIMITED_PLAYOUTS }

end Sample

/-! ## Theorems -/

/-! ### Rounding -/

/-- The nearest integer is within one half. -/
theorem round_half_even_near (x : ℚ) : |(round_half_even x : ℚ) - x| ≤ 1 / 2 := by
  have h1 := Int.floor_le x
  have h2 := Int.lt_floor_add_one x
  unfold round_half_even
  rw [abs_le]
  split_ifs with a b c
  · constructor <;> linarith
  · push_cast
    constructor <;> linarith
  · constructor <;> linarith
  · push_cast
    constructor <;> linarith

/-- Rounding to the nearest integer is monotone. -/
theorem round_half_even_mono (a b : ℚ) (h : a ≤ b) : round_half_even a ≤ round_half_even b := by
  rcases eq_or_lt_of_le h with rfl | hlt
  · exact le_refl _
  · by_contra hc
    have hc2 : round_half_even b + 1 ≤ round_half_even a := by omega
    have hq : (round_half_even b : ℚ) + 1 ≤ (round_half_even a : ℚ) := by exact_mod_cast hc2
    have ha := abs_le.mp (round_half_even_near a)
    have hb := abs_le.mp (round_half_even_near b)
    linarith [ha.1, ha.2, hb.1, hb.2]

/-- An integer rounds to itself. -/
theorem round_half_even_int (n : Int) : round_half_even (n : ℚ) = n := by
  unfold round_half_even
  simp

/-- The binary logarithm brackets its argument. -/
theorem halvings_spec : ∀ (fuel n : Nat), n ≤ fuel → n ≠ 0 →
    2 ^ halvings fuel n ≤ n ∧ n < 2 ^ (halvings fuel n + 1) := by
  intro fuel
  induction fuel with
  | zero => intro n h h0; omega
  | succ fuel ih =>
    intro n h h0
    unfold halvings
    by_cases h2 : 2 ≤ n
    · rw [if_pos h2]
      obtain ⟨l, u⟩ := ih (n / 2) (by omega) (by omega)
      constructor
      · rw [pow_succ]
        omega
      · rw [pow_succ]
        omega
    · rw [if_neg h2]
      constructor <;> simp <;> omega

/-- The binary logarithm brackets its argument. -/
theorem ilog2_spec (n : Nat) (h0 : n ≠ 0) : 2 ^ ilog2 n ≤ n ∧ n < 2 ^ (ilog2 n + 1) :=
  halvings_spec n n (le_refl n) h0

/-- The absolute value of a rational as a quotient of natural numbers. -/
theorem abs_eq_natAbs_div (x : ℚ) : |x| = (x.num.natAbs : ℚ) / (x.den : ℚ) := by
  have h := Rat.num_div_den x
  have hd : (0 : ℚ) < (x.den : ℚ) := by exact_mod_cast x.den_pos
  conv_lhs => rw [← h]
  rw [abs_div, abs_of_pos hd]
  congr 1
  rw [Nat.cast_natAbs, Int.cast_abs]

/-- The binade brackets the absolute value. -/
theorem binade_spec (x : ℚ) (hx : x ≠ 0) :
    (2 : ℚ) ^ binade x ≤ |x| ∧ |x| < (2 : ℚ) ^ (binade x + 1) := by
  have hN0 : x.num.natAbs ≠ 0 := by
    intro h
    apply hx
    rw [Int.natAbs_eq_zero] at h
    exact Rat.zero_of_num_zero h
  obtain ⟨hNl, hNu⟩ := ilog2_spec x.num.natAbs hN0
  obtain ⟨hDl, hDu⟩ := ilog2_spec x.den x.den_nz
  have hNlq : (2 : ℚ) ^ (ilog2 x.num.natAbs) ≤ (x.num.natAbs : ℚ) := by exact_mod_cast hNl
  have hNuq : (x.num.natAbs : ℚ) < (2 : ℚ) ^ (ilog2 x.num.natAbs + 1) := by exact_mod_cast hNu
  have hDlq : (2 : ℚ) ^ (ilog2 x.den) ≤ (x.den : ℚ) := by exact_mod_cast hDl
  have hDuq : (x.den : ℚ) < (2 : ℚ) ^ (ilog2 x.den + 1) := by exact_mod_cast hDu
  have hd : (0 : ℚ) < (x.den : ℚ) := by exact_mod_cast x.den_pos
  have h2 : (2 : ℚ) ≠ 0 := by norm_num
  have hpa : (0 : ℚ) < (2 : ℚ) ^ (ilog2 x.num.natAbs) := by positivity
  have hpb : (0 : ℚ) < (2 : ℚ) ^ (ilog2 x.den) := by positivity
  have e0 : (2 : ℚ) ^ ((ilog2 x.num.natAbs : Int) - (ilog2 x.den : Int))
      = (2 : ℚ) ^ (ilog2 x.num.natAbs) / (2 : ℚ) ^ (ilog2 x.den) := by
    rw [zpow_sub₀ h2, zpow_natCast, zpow_natCast]
  unfold binade
  simp only
  split_ifs with hc
  · refine ⟨hc, ?_⟩
    rw [zpow_add_one₀ h2, e0, abs_eq_natAbs_div, div_mul_eq_mul_div, div_lt_div_iff₀ hd hpb]
    rw [pow_succ] at hNuq
    calc (x.num.natAbs : ℚ) * 2 ^ ilog2 x.den
        < (2 ^ ilog2 x.num.natAbs * 2) * 2 ^ ilog2 x.den := by
          apply mul_lt_mul_of_pos_right hNuq hpb
      _ ≤ (2 ^ ilog2 x.num.natAbs * 2) * (x.den : ℚ) := by
          apply mul_le_mul_of_nonneg_left hDlq (by positivity)
  · have hc2 := not_le.mp hc
    constructor
    · rw [zpow_sub_one₀ h2, e0, abs_eq_natAbs_div, div_mul_eq_mul_div, div_le_div_iff₀ hpb hd]
      rw [pow_succ] at hDuq
      have i1 : (2 : ℚ) ^ ilog2 x.num.natAbs * 2⁻¹ * (x.den : ℚ)
          ≤ 2 ^ ilog2 x.num.natAbs * 2⁻¹ * (2 ^ ilog2 x.den * 2) :=
        mul_le_mul_of_nonneg_left hDuq.le (by positivity)
      have i2 : (2 : ℚ) ^ ilog2 x.num.natAbs * 2⁻¹ * (2 ^ ilog2 x.den * 2)
          = 2 ^ ilog2 x.num.natAbs * 2 ^ ilog2 x.den := by
        field_simp
        ring
      have i3 : (2 : ℚ) ^ ilog2 x.num.natAbs * 2 ^ ilog2 x.den
          ≤ (x.num.natAbs : ℚ) * 2 ^ ilog2 x.den :=
        mul_le_mul_of_nonneg_right hNlq hpb.le
      linarith
    · have : ((ilog2 x.num.natAbs : Int) - (ilog2 x.den : Int) - 1 + 1)
          = (ilog2 x.num.natAbs : Int) - (ilog2 x.den : Int) := by ring
      rw [this]
      exact hc2

/-- The binade does not decrease with the absolute value. -/
theorem binade_mono (x y : ℚ) (hx : x ≠ 0) (hy : y ≠ 0) (h : |x| ≤ |y|) :
    binade x ≤ binade y := by
  obtain ⟨lx, _⟩ := binade_spec x hx
  obtain ⟨_, uy⟩ := binade_spec y hy
  have hlt : (2 : ℚ) ^ binade x < (2 : ℚ) ^ (binade y + 1) := by linarith
  have := (zpow_lt_zpow_iff_right₀ (by norm_num : (1 : ℚ) < 2)).mp hlt
  omega

/-- Rounding a number that is not negative gives a number that is not
negative. -/
theorem round_to_nonneg (p : Nat) (emin : Int) (x : ℚ) (hx : 0 ≤ x) :
    0 ≤ round_to p emin x := by
  unfold round_to
  split_ifs with h0
  · exact le_refl _
  · simp only
    have hq : (0 : ℚ) < 2 ^ (max (binade x) emin - ((p : Int) - 1)) := by positivity
    have h1 : (0 : ℚ) ≤ x / 2 ^ (max (binade x) emin - ((p : Int) - 1)) := div_nonneg hx hq.le
    have h2 := round_half_even_mono _ _ (by exact_mod_cast h1 : ((0 : Int) : ℚ) ≤ _)
    rw [round_half_even_int] at h2
    have h3 : (0 : ℚ) ≤ (round_half_even (x / 2 ^ (max (binade x) emin - ((p : Int) - 1))) : ℚ) := by
      exact_mod_cast h2
    exact mul_nonneg h3 hq.le

/-- Rounding is monotone on the numbers that are not negative. -/
theorem round_to_mono (p : Nat) (emin : Int) (x y : ℚ) (hp : 1 ≤ p) (hx : 0 ≤ x)
    (hxy : x ≤ y) :
    round_to p emin x ≤ round_to p emin y := by
  rcases eq_or_lt_of_le hx with hx0 | hxpos
  · rw [← hx0]
    have : round_to p emin 0 = 0 := by simp [round_to]
    rw [this]
    exact round_to_nonneg p emin y (le_trans hx hxy)
  · have hypos : 0 < y := lt_of_lt_of_le hxpos hxy
    have hx0 : x ≠ 0 := ne_of_gt hxpos
    have hy0 : y ≠ 0 := ne_of_gt hypos
    have h2 : (2 : ℚ) ≠ 0 := by norm_num
    have hb : binade x ≤ binade y :=
      binade_mono x y hx0 hy0 (by rw [abs_of_pos hxpos, abs_of_pos hypos]; exact hxy)
    obtain ⟨_, ux⟩ := binade_spec x hx0
    obtain ⟨ly, _⟩ := binade_spec y hy0
    rw [abs_of_pos hxpos] at ux
    rw [abs_of_pos hypos] at ly
    unfold round_to
    rw [if_neg hx0, if_neg hy0]
    simp only
    rcases eq_or_lt_of_le (max_le_max hb (le_refl emin)) with heq | hlt
    · -- the same quantum
      rw [heq]
      have hq : (0 : ℚ) < 2 ^ (max (binade y) emin - ((p : Int) - 1)) := by positivity
      have hdiv : x / 2 ^ (max (binade y) emin - ((p : Int) - 1))
          ≤ y / 2 ^ (max (binade y) emin - ((p : Int) - 1)) :=
        div_le_div_of_nonneg_right hxy hq.le
      have := round_half_even_mono _ _ hdiv
      exact mul_le_mul_of_nonneg_right (by exact_mod_cast this) hq.le
    · -- a smaller quantum for `x`: a power of two lies between the roundings
      have hEy : max (binade y) emin = binade y := by
        rcases le_total (binade y) emin with h | h
        · rw [max_eq_right h] at hlt
          exact absurd hlt (not_lt.mpr (le_max_right _ _))
        · exact max_eq_left h
      have hqx : (0 : ℚ) < 2 ^ (max (binade x) emin - ((p : Int) - 1)) := by positivity
      have hqy : (0 : ℚ) < 2 ^ (max (binade y) emin - ((p : Int) - 1)) := by positivity
      -- the rounding of `x` is at most `2 ^ (E x + 1)`
      have hxup : x ≤ (2 : ℚ) ^ (max (binade x) emin + 1) := by
        have : (2 : ℚ) ^ (binade x + 1) ≤ (2 : ℚ) ^ (max (binade x) emin + 1) :=
          zpow_le_zpow_right₀ (by norm_num) (by have := le_max_left (binade x) emin; omega)
        linarith
      have hxdiv : x / 2 ^ (max (binade x) emin - ((p : Int) - 1)) ≤ (((2 : Int) ^ p : Int) : ℚ) := by
        rw [div_le_iff₀ hqx]
        have : ((((2 : Int) ^ p : Int) : ℚ)) * 2 ^ (max (binade x) emin - ((p : Int) - 1))
            = (2 : ℚ) ^ (max (binade x) emin + 1) := by
          push_cast
          rw [← zpow_natCast, ← zpow_add₀ h2]
          congr 1
          ring
        rw [this]
        exact hxup
      have hrx := round_half_even_mono _ _ hxdiv
      rw [round_half_even_int] at hrx
      have hRx : (round_half_even (x / 2 ^ (max (binade x) emin - ((p : Int) - 1))) : ℚ)
          * 2 ^ (max (binade x) emin - ((p : Int) - 1)) ≤ (2 : ℚ) ^ (max (binade x) emin + 1) := by
        have h1 : (round_half_even (x / 2 ^ (max (binade x) emin - ((p : Int) - 1))) : ℚ)
            ≤ (((2 : Int) ^ p : Int) : ℚ) := by exact_mod_cast hrx
        have h3 := mul_le_mul_of_nonneg_right h1 hqx.le
        have : ((((2 : Int) ^ p : Int) : ℚ)) * 2 ^ (max (binade x) emin - ((p : Int) - 1))
            = (2 : ℚ) ^ (max (binade x) emin + 1) := by
          push_cast
          rw [← zpow_natCast, ← zpow_add₀ h2]
          congr 1
          ring
        rw [this] at h3
        exact h3
      -- the rounding of `y` is at least `2 ^ (E y)`
      have hpow : ((((2 : Int) ^ (p - 1) : Int)) : ℚ) * 2 ^ (binade y - ((p : Int) - 1))
          = (2 : ℚ) ^ (binade y) := by
        push_cast
        rw [← zpow_natCast, ← zpow_add₀ h2]
        congr 1
        have : ((p - 1 : Nat) : Int) = (p : Int) - 1 := by omega
        rw [this]
        ring
      have hydiv : ((((2 : Int) ^ (p - 1) : Int)) : ℚ)
          ≤ y / 2 ^ (max (binade y) emin - ((p : Int) - 1)) := by
        rw [le_div_iff₀ hqy, hEy, hpow]
        exact ly
      have hry := round_half_even_mono _ _ hydiv
      rw [round_half_even_int] at hry
      have h1 : ((((2 : Int) ^ (p - 1) : Int)) : ℚ)
          ≤ (round_half_even (y / 2 ^ (max (binade y) emin - ((p : Int) - 1))) : ℚ) := by
        exact_mod_cast hry
      have hRy := mul_le_mul_of_nonneg_right h1 hqy.le
      rw [hEy] at hRy ⊢
      rw [hpow] at hRy
      have hmid : (2 : ℚ) ^ (max (binade x) emin + 1) ≤ (2 : ℚ) ^ (binade y) := by
        apply zpow_le_zpow_right₀ (by norm_num)
        rw [hEy] at hlt
        omega
      linarith

/-- A rational of absolute value at least `2^e` has a binade of at least
`e`. -/
theorem le_binade (x : ℚ) (e : Int) (h : (2 : ℚ) ^ e ≤ |x|) : e ≤ binade x := by
  have hx : x ≠ 0 := by
    intro h0
    rw [h0, abs_zero] at h
    have : (0 : ℚ) < 2 ^ e := by positivity
    linarith
  obtain ⟨_, u⟩ := binade_spec x hx
  have hlt : (2 : ℚ) ^ e < (2 : ℚ) ^ (binade x + 1) := lt_of_le_of_lt h u
  have := (zpow_lt_zpow_iff_right₀ (by norm_num : (1 : ℚ) < 2)).mp hlt
  omega

/-- The binade is the only exponent that brackets the absolute value. -/
theorem binade_unique (x : ℚ) (e : Int) (hl : (2 : ℚ) ^ e ≤ |x|) (hu : |x| < (2 : ℚ) ^ (e + 1)) :
    binade x = e := by
  have hx : x ≠ 0 := by
    intro h
    rw [h, abs_zero] at hl
    have : (0 : ℚ) < 2 ^ e := by positivity
    linarith
  obtain ⟨l, u⟩ := binade_spec x hx
  have h1 : (2 : ℚ) ^ e < (2 : ℚ) ^ (binade x + 1) := by linarith
  have h2 : (2 : ℚ) ^ binade x < (2 : ℚ) ^ (e + 1) := by linarith
  have a := (zpow_lt_zpow_iff_right₀ (by norm_num : (1 : ℚ) < 2)).mp h1
  have b := (zpow_lt_zpow_iff_right₀ (by norm_num : (1 : ℚ) < 2)).mp h2
  omega

/-- The error of a rounding in the normal range: at most the fraction `2 ^ -p`
of the number rounded. -/
theorem round_to_error (p : Nat) (emin : Int) (x : ℚ) (hb : emin ≤ binade x) (hx : x ≠ 0) :
    |round_to p emin x - x| ≤ |x| / 2 ^ p := by
  have h2 : (2 : ℚ) ≠ 0 := by norm_num
  obtain ⟨l, _⟩ := binade_spec x hx
  unfold round_to
  rw [if_neg hx, max_eq_left hb]
  simp only
  have hq : (0 : ℚ) < 2 ^ (binade x - ((p : Int) - 1)) := by positivity
  have hnear := round_half_even_near (x / 2 ^ (binade x - ((p : Int) - 1)))
  have e1 : (round_half_even (x / 2 ^ (binade x - ((p : Int) - 1))) : ℚ)
        * 2 ^ (binade x - ((p : Int) - 1)) - x
      = ((round_half_even (x / 2 ^ (binade x - ((p : Int) - 1))) : ℚ)
          - x / 2 ^ (binade x - ((p : Int) - 1))) * 2 ^ (binade x - ((p : Int) - 1)) := by
    field_simp
  rw [e1, abs_mul, abs_of_pos hq]
  have e2 : (1 / 2 : ℚ) * 2 ^ (binade x - ((p : Int) - 1)) = 2 ^ binade x / 2 ^ p := by
    have : binade x - ((p : Int) - 1) = binade x - (p : Int) + 1 := by ring
    rw [this, zpow_add_one₀ h2, zpow_sub₀ h2, zpow_natCast]
    field_simp
  calc |(round_half_even (x / 2 ^ (binade x - ((p : Int) - 1))) : ℚ)
          - x / 2 ^ (binade x - ((p : Int) - 1))| * 2 ^ (binade x - ((p : Int) - 1))
      ≤ (1 / 2) * 2 ^ (binade x - ((p : Int) - 1)) := mul_le_mul_of_nonneg_right hnear hq.le
    _ = 2 ^ binade x / 2 ^ p := e2
    _ ≤ |x| / 2 ^ p := div_le_div_of_nonneg_right l (by positivity)

/-- Halving commutes with rounding, above the least exponent. -/
theorem round_to_half (p : Nat) (emin : Int) (x : ℚ) (hb : emin + 1 ≤ binade x) :
    round_to p emin (x / 2) = round_to p emin x / 2 := by
  have h2 : (2 : ℚ) ≠ 0 := by norm_num
  by_cases hx : x = 0
  · subst hx
    simp [round_to]
  · obtain ⟨l, u⟩ := binade_spec x hx
    have hb2 : binade (x / 2) = binade x - 1 := by
      apply binade_unique
      · rw [abs_div, abs_of_pos (by norm_num : (0 : ℚ) < 2), zpow_sub_one₀ h2]
        rw [le_div_iff₀ (by norm_num : (0 : ℚ) < 2)]
        calc (2 : ℚ) ^ binade x * 2⁻¹ * 2 = 2 ^ binade x := by field_simp
          _ ≤ |x| := l
      · rw [abs_div, abs_of_pos (by norm_num : (0 : ℚ) < 2), sub_add_cancel]
        rw [div_lt_iff₀ (by norm_num : (0 : ℚ) < 2)]
        rw [zpow_add_one₀ h2] at u
        exact u
    have hx2 : x / 2 ≠ 0 := by
      intro h
      apply hx
      linarith [div_eq_zero_iff.mp h |>.resolve_right h2]
    unfold round_to
    rw [if_neg hx, if_neg hx2, hb2, max_eq_left (by omega : emin ≤ binade x - 1),
      max_eq_left (by omega : emin ≤ binade x)]
    simp only
    have hq : (2 : ℚ) ^ (binade x - 1 - ((p : Int) - 1))
        = 2 ^ (binade x - ((p : Int) - 1)) / 2 := by
      have : binade x - 1 - ((p : Int) - 1) = binade x - ((p : Int) - 1) - 1 := by ring
      rw [this, zpow_sub_one₀ h2]
      rfl
    rw [hq]
    have hqpos : (0 : ℚ) < 2 ^ (binade x - ((p : Int) - 1)) := by positivity
    have hdiv : x / 2 / (2 ^ (binade x - ((p : Int) - 1)) / 2)
        = x / 2 ^ (binade x - ((p : Int) - 1)) := by
      field_simp
    rw [hdiv]
    ring

/-- The relative error of rounding a positive number in the normal range is
at most `2^-p`. -/
theorem round_to_rel (p : Nat) (emin : Int) (x : ℚ) (hx : 0 < x) (hb : emin ≤ binade x) :
    x * (1 - 1 / 2 ^ p) ≤ round_to p emin x ∧ round_to p emin x ≤ x * (1 + 1 / 2 ^ p) := by
  have h := round_to_error p emin x hb hx.ne'
  rw [abs_of_pos hx, abs_le] at h
  constructor
  · have : x * (1 - 1 / 2 ^ p) = x - x / 2 ^ p := by ring
    rw [this]
    linarith [h.1]
  · have : x * (1 + 1 / 2 ^ p) = x + x / 2 ^ p := by ring
    rw [this]
    linarith [h.2]

/-- The `float` quotient of two positive integers below `2^31`, each converted
to `float` first, is within three roundings of the exact quotient. -/
theorem f32_quotient_bounds (m M : Int) (hm : 0 < m) (hM : 0 < M) (hM31 : M < 2 ^ 31) :
    ((m : ℚ) * (1 - 1 / 2 ^ 24)) / ((M : ℚ) * (1 + 1 / 2 ^ 24)) * (1 - 1 / 2 ^ 24)
        ≤ f32 (f32 (m : ℚ) / f32 (M : ℚ))
      ∧ f32 (f32 (m : ℚ) / f32 (M : ℚ))
        ≤ ((m : ℚ) * (1 + 1 / 2 ^ 24)) / ((M : ℚ) * (1 - 1 / 2 ^ 24)) * (1 + 1 / 2 ^ 24) := by
  have hm1 : (1 : ℚ) ≤ (m : ℚ) := by exact_mod_cast hm
  have hM1 : (1 : ℚ) ≤ (M : ℚ) := by exact_mod_cast hM
  have hMu : (M : ℚ) < 2 ^ 31 := by exact_mod_cast hM31
  have hbm : (-126 : Int) ≤ binade (m : ℚ) := by
    have : (0 : Int) ≤ binade (m : ℚ) := by
      apply le_binade
      rw [abs_of_pos (by linarith)]
      simpa using hm1
    omega
  have hbM : (-126 : Int) ≤ binade (M : ℚ) := by
    have : (0 : Int) ≤ binade (M : ℚ) := by
      apply le_binade
      rw [abs_of_pos (by linarith)]
      simpa using hM1
    omega
  obtain ⟨a1, a2⟩ := round_to_rel 24 (-126) (m : ℚ) (by linarith) hbm
  obtain ⟨b1, b2⟩ := round_to_rel 24 (-126) (M : ℚ) (by linarith) hbM
  have hu1 : (0 : ℚ) < 1 - 1 / 2 ^ 24 := by norm_num
  have hu2 : (0 : ℚ) < 1 + 1 / 2 ^ 24 := by norm_num
  have ha0 : 0 < (m : ℚ) * (1 - 1 / 2 ^ 24) := mul_pos (by linarith) hu1
  have hb0 : 0 < (M : ℚ) * (1 - 1 / 2 ^ 24) := mul_pos (by linarith) hu1
  have hapos : 0 < round_to 24 (-126) (m : ℚ) := lt_of_lt_of_le ha0 a1
  have hbpos : 0 < round_to 24 (-126) (M : ℚ) := lt_of_lt_of_le hb0 b1
  have hq1 : (m : ℚ) * (1 - 1 / 2 ^ 24) / ((M : ℚ) * (1 + 1 / 2 ^ 24))
      ≤ round_to 24 (-126) (m : ℚ) / round_to 24 (-126) (M : ℚ) :=
    div_le_div₀ hapos.le a1 hbpos b2
  have hq2 : round_to 24 (-126) (m : ℚ) / round_to 24 (-126) (M : ℚ)
      ≤ (m : ℚ) * (1 + 1 / 2 ^ 24) / ((M : ℚ) * (1 - 1 / 2 ^ 24)) :=
    div_le_div₀ (mul_pos (by linarith) hu2).le a2 hb0 b1
  have hqpos : 0 < round_to 24 (-126) (m : ℚ) / round_to 24 (-126) (M : ℚ) :=
    div_pos hapos hbpos
  have hqlow : (2 : ℚ) ^ (-126 : Int)
      ≤ |round_to 24 (-126) (m : ℚ) / round_to 24 (-126) (M : ℚ)| := by
    rw [abs_of_pos hqpos]
    refine le_trans ?_ hq1
    rw [le_div_iff₀ (mul_pos (by linarith) hu2)]
    have h1 : (2 : ℚ) ^ (-126 : Int) * ((M : ℚ) * (1 + 1 / 2 ^ 24))
        ≤ (2 : ℚ) ^ (-126 : Int) * (2 ^ 31 * (1 + 1 / 2 ^ 24)) := by
      apply mul_le_mul_of_nonneg_left _ (by positivity)
      exact mul_le_mul_of_nonneg_right hMu.le hu2.le
    have h2 : (2 : ℚ) ^ (-126 : Int) * (2 ^ 31 * (1 + 1 / 2 ^ 24)) ≤ 1 * (1 - 1 / 2 ^ 24) := by
      norm_num
    have h3 : 1 * (1 - 1 / 2 ^ 24) ≤ (m : ℚ) * (1 - 1 / 2 ^ 24) :=
      mul_le_mul_of_nonneg_right hm1 hu1.le
    linarith
  obtain ⟨c1, c2⟩ := round_to_rel 24 (-126) _ hqpos (le_binade _ _ hqlow)
  unfold f32
  constructor
  · exact le_trans (mul_le_mul_of_nonneg_right hq1 hu1.le) c1
  · exact le_trans c2 (mul_le_mul_of_nonneg_right hq2 hu2.le)

/-- The `float` share of two positive integers below `2^31` against the
constants `0.5f` and `0.95f`: away from the boundaries by a relative distance
of `2^-22`, the comparisons come out as for the exact quotient. -/
theorem f32_quotient_bands (m M : Int) (hm : 0 < m) (hM : 0 < M) (hM31 : M < 2 ^ 31) :
    (50 / 100 * (1 + 1 / 2 ^ 22) * (M : ℚ) ≤ (m : ℚ) → 1 / 2 < f32 (f32 (m : ℚ) / f32 (M : ℚ)))
      ∧ ((m : ℚ) ≤ 95 / 100 * (1 - 1 / 2 ^ 22) * (M : ℚ) →
          f32 (f32 (m : ℚ) / f32 (M : ℚ)) ≤ 15938355 / 16777216)
      ∧ (95 / 100 * (1 + 1 / 2 ^ 22) * (M : ℚ) ≤ (m : ℚ) →
          15938355 / 16777216 < f32 (f32 (m : ℚ) / f32 (M : ℚ))) := by
  obtain ⟨lo, hi⟩ := f32_quotient_bounds m M hm hM hM31
  have hMq : (0 : ℚ) < (M : ℚ) := by exact_mod_cast hM
  have hd1 : (0 : ℚ) < (M : ℚ) * (1 + 1 / 2 ^ 24) := mul_pos hMq (by norm_num)
  have hd2 : (0 : ℚ) < (M : ℚ) * (1 - 1 / 2 ^ 24) := mul_pos hMq (by norm_num)
  refine ⟨?_, ?_, ?_⟩
  · intro h
    refine lt_of_lt_of_le ?_ lo
    rw [div_mul_eq_mul_div, lt_div_iff₀ hd1]
    have h1 : 50 / 100 * (1 + 1 / 2 ^ 22) * (M : ℚ) * (1 - 1 / 2 ^ 24) * (1 - 1 / 2 ^ 24)
        ≤ (m : ℚ) * (1 - 1 / 2 ^ 24) * (1 - 1 / 2 ^ 24) :=
      mul_le_mul_of_nonneg_right (mul_le_mul_of_nonneg_right h (by norm_num)) (by norm_num)
    have h2 : 1 / 2 * ((M : ℚ) * (1 + 1 / 2 ^ 24))
        < 50 / 100 * (1 + 1 / 2 ^ 22) * (M : ℚ) * (1 - 1 / 2 ^ 24) * (1 - 1 / 2 ^ 24) := by
      have : 50 / 100 * (1 + 1 / 2 ^ 22) * (M : ℚ) * (1 - 1 / 2 ^ 24) * (1 - 1 / 2 ^ 24)
          - 1 / 2 * ((M : ℚ) * (1 + 1 / 2 ^ 24))
          = (M : ℚ) * (50 / 100 * (1 + 1 / 2 ^ 22) * (1 - 1 / 2 ^ 24) * (1 - 1 / 2 ^ 24)
            - 1 / 2 * (1 + 1 / 2 ^ 24)) := by ring
      have hpos : (0 : ℚ) < 50 / 100 * (1 + 1 / 2 ^ 22) * (1 - 1 / 2 ^ 24) * (1 - 1 / 2 ^ 24)
            - 1 / 2 * (1 + 1 / 2 ^ 24) := by norm_num
      have := mul_pos hMq hpos
      linarith
    linarith
  · intro h
    refine le_trans hi ?_
    rw [div_mul_eq_mul_div, div_le_iff₀ hd2]
    have h1 : (m : ℚ) * (1 + 1 / 2 ^ 24) * (1 + 1 / 2 ^ 24)
        ≤ 95 / 100 * (1 - 1 / 2 ^ 22) * (M : ℚ) * (1 + 1 / 2 ^ 24) * (1 + 1 / 2 ^ 24) :=
      mul_le_mul_of_nonneg_right (mul_le_mul_of_nonneg_right h (by norm_num)) (by norm_num)
    have h2 : 95 / 100 * (1 - 1 / 2 ^ 22) * (M : ℚ) * (1 + 1 / 2 ^ 24) * (1 + 1 / 2 ^ 24)
        ≤ 15938355 / 16777216 * ((M : ℚ) * (1 - 1 / 2 ^ 24)) := by
      have hpos : (0 : ℚ) ≤ 15938355 / 16777216 * (1 - 1 / 2 ^ 24)
          - 95 / 100 * (1 - 1 / 2 ^ 22) * (1 + 1 / 2 ^ 24) * (1 + 1 / 2 ^ 24) := by norm_num
      have := mul_nonneg hMq.le hpos
      linarith
    linarith
  · intro h
    refine lt_of_lt_of_le ?_ lo
    rw [div_mul_eq_mul_div, lt_div_iff₀ hd1]
    have h1 : 95 / 100 * (1 + 1 / 2 ^ 22) * (M : ℚ) * (1 - 1 / 2 ^ 24) * (1 - 1 / 2 ^ 24)
        ≤ (m : ℚ) * (1 - 1 / 2 ^ 24) * (1 - 1 / 2 ^ 24) :=
      mul_le_mul_of_nonneg_right (mul_le_mul_of_nonneg_right h (by norm_num)) (by norm_num)
    have h2 : 15938355 / 16777216 * ((M : ℚ) * (1 + 1 / 2 ^ 24))
        < 95 / 100 * (1 + 1 / 2 ^ 22) * (M : ℚ) * (1 - 1 / 2 ^ 24) * (1 - 1 / 2 ^ 24) := by
      have hpos : (0 : ℚ) < 95 / 100 * (1 + 1 / 2 ^ 22) * (1 - 1 / 2 ^ 24) * (1 - 1 / 2 ^ 24)
            - 15938355 / 16777216 * (1 + 1 / 2 ^ 24) := by norm_num
      have := mul_pos hMq hpos
      linarith
    linarith

/-- The `float` product `0.01f * k` of a positive integer below `2^31` is
within a relative distance of `2^-22` of `k / 100`. -/
theorem f32_percent_bounds (k : Int) (hk : 0 < k) (hk31 : k < 2 ^ 31) :
    (k : ℚ) / 100 * (1 - 1 / 2 ^ 22) ≤ f32 (f32 (1 / 100) * f32 (k : ℚ))
      ∧ f32 (f32 (1 / 100) * f32 (k : ℚ)) ≤ (k : ℚ) / 100 * (1 + 1 / 2 ^ 22) := by
  have hc : f32 (1 / 100) = 5368709 / 536870912 := by decide!
  have hk1 : (1 : ℚ) ≤ (k : ℚ) := by exact_mod_cast hk
  have hku : (k : ℚ) < 2 ^ 31 := by exact_mod_cast hk31
  have hbk : (-126 : Int) ≤ binade (k : ℚ) := by
    have : (0 : Int) ≤ binade (k : ℚ) := by
      apply le_binade
      rw [abs_of_pos (by linarith)]
      simpa using hk1
    omega
  obtain ⟨a1, a2⟩ := round_to_rel 24 (-126) (k : ℚ) (by linarith) hbk
  have hapos : 0 < round_to 24 (-126) (k : ℚ) :=
    lt_of_lt_of_le (mul_pos (by linarith) (by norm_num)) a1
  have hppos : (0 : ℚ) < 5368709 / 536870912 * round_to 24 (-126) (k : ℚ) :=
    mul_pos (by norm_num) hapos
  have hplow : (2 : ℚ) ^ (-126 : Int)
      ≤ |5368709 / 536870912 * round_to 24 (-126) (k : ℚ)| := by
    rw [abs_of_pos hppos]
    have h1 : (5368709 / 536870912 : ℚ) * ((k : ℚ) * (1 - 1 / 2 ^ 24))
        ≤ 5368709 / 536870912 * round_to 24 (-126) (k : ℚ) :=
      mul_le_mul_of_nonneg_left a1 (by norm_num)
    have h2 : (5368709 / 536870912 : ℚ) * (1 * (1 - 1 / 2 ^ 24))
        ≤ 5368709 / 536870912 * ((k : ℚ) * (1 - 1 / 2 ^ 24)) :=
      mul_le_mul_of_nonneg_left (mul_le_mul_of_nonneg_right hk1 (by norm_num)) (by norm_num)
    have h3 : (2 : ℚ) ^ (-126 : Int) ≤ 5368709 / 536870912 * (1 * (1 - 1 / 2 ^ 24)) := by
      norm_num
    linarith
  obtain ⟨c1, c2⟩ := round_to_rel 24 (-126) _ hppos (le_binade _ _ hplow)
  rw [hc]
  unfold f32
  constructor
  · refine le_trans ?_ c1
    have h1 : (5368709 / 536870912 : ℚ) * ((k : ℚ) * (1 - 1 / 2 ^ 24)) * (1 - 1 / 2 ^ 24)
        ≤ 5368709 / 536870912 * round_to 24 (-126) (k : ℚ) * (1 - 1 / 2 ^ 24) :=
      mul_le_mul_of_nonneg_right (mul_le_mul_of_nonneg_left a1 (by norm_num)) (by norm_num)
    have h2 : (k : ℚ) / 100 * (1 - 1 / 2 ^ 22)
        ≤ 5368709 / 536870912 * ((k : ℚ) * (1 - 1 / 2 ^ 24)) * (1 - 1 / 2 ^ 24) := by
      have hpos : (0 : ℚ) ≤ 5368709 / 536870912 * (1 - 1 / 2 ^ 24) * (1 - 1 / 2 ^ 24)
          - 1 / 100 * (1 - 1 / 2 ^ 22) := by norm_num
      have := mul_nonneg (by linarith : (0 : ℚ) ≤ (k : ℚ)) hpos
      linarith
    linarith
  · refine le_trans c2 ?_
    have h1 : (5368709 / 536870912 : ℚ) * round_to 24 (-126) (k : ℚ) * (1 + 1 / 2 ^ 24)
        ≤ 5368709 / 536870912 * ((k : ℚ) * (1 + 1 / 2 ^ 24)) * (1 + 1 / 2 ^ 24) :=
      mul_le_mul_of_nonneg_right (mul_le_mul_of_nonneg_left a2 (by norm_num)) (by norm_num)
    have h2 : (5368709 / 536870912 : ℚ) * ((k : ℚ) * (1 + 1 / 2 ^ 24)) * (1 + 1 / 2 ^ 24)
        ≤ (k : ℚ) / 100 * (1 + 1 / 2 ^ 22) := by
      have hpos : (0 : ℚ) ≤ 1 / 100 * (1 + 1 / 2 ^ 22)
          - 5368709 / 536870912 * (1 + 1 / 2 ^ 24) * (1 + 1 / 2 ^ 24) := by norm_num
      have := mul_nonneg (by linarith : (0 : ℚ) ≤ (k : ℚ)) hpos
      linarith
    linarith

/-! ### Resignation -/

/-- C1: `should_resign` returns false for every `bestscore` whenever the
`NORESIGN` flag is set in `passflag`, or `cfg_resignpct` is 0, or the root
move number is at most `floor(boardsize * boardsize / 4)`. -/
theorem should_resign_never (s : UCTSearch) (passflag : Nat) (bestscore : ℚ)
    (h : flag_set passflag NORESIGN = true ∨ s.cfg.cfg_resignpct = 0
      ∨ s.m_rootstate.movenum ≤ s.m_rootstate.boardsize * s.m_rootstate.boardsize / 4) :
    s.should_resign passflag bestscore = false := by
  unfold UCTSearch.should_resign
  rcases h with h | h | h
  · simp [h]
  · simp [h]
  · simp [h]

/-- Witness of C1: with `NORESIGN` set the sample search does not resign on
a best score of 0. -/
theorem should_resign_never_witness :
    flag_set 2 NORESIGN = true
      ∧ (Sample.search Sample.config Sample.state []).should_resign 2 0 = false :=
  ⟨by decide, should_resign_never _ 2 0 (Or.inl (by decide))⟩

/-- C2 (amended): when resigning is not excluded (`NORESIGN` unset,
`cfg_resignpct` not 0, move number above `floor(board_squares / 4)`),
`should_resign` returns true if and only if `bestscore` is at most the
threshold the source computes in `float` arithmetic: the float product
`0.01f * 10` for a negative `cfg_resignpct` and `0.01f * cfg_resignpct`
otherwise, and for White in a handicap game with the default setting also at
most the blend `r * T + (1 - r) * (T / (1 + h))` computed in `float`.  Where
the blend does not apply, the threshold computed is within a relative distance
of `2^-22` of the `0.10` or `0.01 * cfg_resignpct` of exact arithmetic. -/
theorem should_resign_iff (s : UCTSearch) (passflag : Nat) (bestscore : ℚ)
    (hflag : flag_set passflag NORESIGN = false) (hpct : s.cfg.cfg_resignpct ≠ 0)
    (hmove : s.m_rootstate.boardsize * s.m_rootstate.boardsize / 4 < s.m_rootstate.movenum) :
    (s.should_resign passflag bestscore = true ↔ bestscore ≤ s.float_resign_threshold)
      ∧ (¬ (0 < s.m_rootstate.handicap ∧ s.m_rootstate.to_move = FastBoard.WHITE
            ∧ s.cfg.cfg_resignpct < 0) →
          s.cfg.cfg_resignpct < 2 ^ 31 →
            s.spec_resign_threshold * (1 - 1 / 2 ^ 22) ≤ s.float_resign_threshold
              ∧ s.float_resign_threshold ≤ s.spec_resign_threshold * (1 + 1 / 2 ^ 22)) := by
  constructor
  · unfold UCTSearch.should_resign UCTSearch.float_resign_threshold
    have hmove2 : ¬ s.m_rootstate.movenum
        ≤ s.m_rootstate.boardsize * s.m_rootstate.boardsize / 4 := not_le.mpr hmove
    simp only [hflag, hpct, hmove2, if_false, Bool.false_eq_true]
    by_cases hneg : s.cfg.cfg_resignpct < 0
    · by_cases hcase : 0 < s.m_rootstate.handicap ∧ s.m_rootstate.to_move = FastBoard.WHITE
      · simp only [hneg, hcase, decide_True, and_self, if_true, gt_iff_lt, le_min_iff]
        split_ifs with h1 h2
        · simp only [Bool.false_eq_true, false_iff, not_and, not_le]
          intro h
          exact absurd h (not_le.mpr h1)
        · simp only [Bool.false_eq_true, false_iff, not_and, not_le]
          intro _
          exact h2
        · simp only [true_iff]
          exact ⟨not_lt.mp h1, not_lt.mp h2⟩
      · have hcase2 : ¬ (0 < s.m_rootstate.handicap ∧ s.m_rootstate.to_move = FastBoard.WHITE
            ∧ decide (s.cfg.cfg_resignpct < 0) = true) := by
          intro h
          exact hcase ⟨h.1, h.2.1⟩
        have hcase3 : ¬ (0 < s.m_rootstate.handicap ∧ s.m_rootstate.to_move = FastBoard.WHITE
            ∧ s.cfg.cfg_resignpct < 0) := by
          intro h
          exact hcase ⟨h.1, h.2.1⟩
        rw [if_neg hcase2, if_neg hcase3]
        simp only [hneg, decide_True, if_true, gt_iff_lt]
        split_ifs with h1
        · simp only [Bool.false_eq_true, false_iff, not_le]
          exact h1
        · simp only [true_iff]
          exact not_lt.mp h1
    · have hcase2 : ¬ (0 < s.m_rootstate.handicap ∧ s.m_rootstate.to_move = FastBoard.WHITE
          ∧ decide (s.cfg.cfg_resignpct < 0) = true) := by
        intro h
        exact hneg (of_decide_eq_true h.2.2)
      have hcase3 : ¬ (0 < s.m_rootstate.handicap ∧ s.m_rootstate.to_move = FastBoard.WHITE
          ∧ s.cfg.cfg_resignpct < 0) := by
        intro h
        exact hneg h.2.2
      rw [if_neg hcase2, if_neg hcase3]
      simp only [hneg, decide_False, if_false, gt_iff_lt, Bool.false_eq_true]
      split_ifs with h1
      · simp only [Bool.false_eq_true, false_iff, not_le]
        exact h1
      · simp only [true_iff]
        exact not_lt.mp h1
  · intro hcase h31
    have hcase2 : ¬ (s.m_rootstate.to_move = FastBoard.WHITE ∧ 0 < s.m_rootstate.handicap
        ∧ s.cfg.cfg_resignpct < 0) := by
      intro h
      exact hcase ⟨h.2.1, h.1, h.2.2⟩
    unfold UCTSearch.float_resign_threshold UCTSearch.spec_resign_threshold
    simp only
    rw [if_neg hcase, if_neg hcase2]
    by_cases hneg : s.cfg.cfg_resignpct < 0
    · rw [if_pos hneg, if_pos hneg]
      have h := f32_percent_bounds 10 (by norm_num) (by norm_num)
      have e : ((10 : Int) : ℚ) = 10 := by norm_num
      rw [e] at h
      exact h
    · rw [if_neg hneg, if_neg hneg]
      have hk : 0 < s.cfg.cfg_resignpct := by omega
      have h := f32_percent_bounds s.cfg.cfg_resignpct hk h31
      have e : 1 / 100 * (s.cfg.cfg_resignpct : ℚ) = (s.cfg.cfg_resignpct : ℚ) / 100 := by ring
      rw [e]
      exact h

/-- Witness of C2 (amended): White at move 100 of a two-stone handicap game on
19x19, default resign setting, best score `1 / 20`. -/
theorem should_resign_iff_witness :
    flag_set 0 NORESIGN = false ∧ Sample.config.cfg_resignpct ≠ 0
      ∧ 19 * 19 / 4 < 100
      ∧ ((Sample.search Sample.config Sample.state []).should_resign 0 (1 / 20) = true
        ↔ (1 / 20 : ℚ) ≤ (Sample.search Sample.config Sample.state []).float_resign_threshold) :=
  ⟨by decide, by decide, by decide,
    (should_resign_iff (Sample.search Sample.config Sample.state []) 0 (1 / 20)
      (by decide) (by decide) (by decide)).1⟩

/-- C2 (counterexample): with `cfg_resignpct = 7` the threshold of the claim
is `0.01 * 7 = 7/100`; the best score `0.07f = 9395241 / 2^27`, the float
nearest to `0.07`, is above it, and `should_resign` returns true all the same,
because the float product `0.01f * 7` is `0.07f` too. -/
theorem should_resign_above_exact_threshold :
    flag_set 0 NORESIGN = false ∧ Sample.config_resign7.cfg_resignpct ≠ 0
      ∧ 19 * 19 / 4 < 100
      ∧ f32 (7 / 100) = 9395241 / 134217728
      ∧ (Sample.search Sample.config_resign7 Sample.state []).spec_resign_threshold = 7 / 100
      ∧ (Sample.search Sample.config_resign7 Sample.state []).should_resign 0
          (9395241 / 134217728) = true
      ∧ ¬ ((9395241 / 134217728 : ℚ)
          ≤ (Sample.search Sample.config_resign7 Sample.state []).spec_resign_threshold) := by
  decide!

/-! ### Ranking of the root's children -/

/-- A sequence sorted by `stable_sort_reversed` is a rearrangement of the
original one. -/
theorem stable_sort_reversed_perm {α : Type} (comp : α → α → Bool) (v : List α) :
    (stable_sort_reversed comp v).Perm v := by
  unfold stable_sort_reversed
  exact (List.reverse_perm _).trans ((List.perm_insertionSort _ _).trans (List.reverse_perm _))

/-- After `stable_sort_reversed`, no element is below (for `comp`) an element
placed after it, provided `comp` is the strict part of a total preorder. -/
theorem stable_sort_reversed_sorted {α : Type} (comp : α → α → Bool)
    (htotal : ∀ a b, comp b a = false ∨ comp a b = false)
    (htrans : ∀ a b c, comp b a = false → comp c b = false → comp c a = false)
    (v : List α) :
    (stable_sort_reversed comp v).Pairwise (fun a b => comp a b = false) := by
  unfold stable_sort_reversed
  haveI : IsTotal α (fun a b => comp b a = false) := ⟨htotal⟩
  haveI : IsTrans α (fun a b => comp b a = false) := ⟨htrans⟩
  rw [List.pairwise_reverse]
  exact List.sorted_insertionSort (fun a b => comp b a = false) v.reverse

/-- A child returned by `get_nopass_child` is a child whose move is not a
pass. -/
theorem get_nopass_child_some (n nopass : UCTNode) (h : n.get_nopass_child = some nopass) :
    nopass ∈ n.m_children ∧ nopass.m_move ≠ FastBoard.PASS := by
  unfold UCTNode.get_nopass_child at h
  refine ⟨List.mem_of_find?_eq_some h, ?_⟩
  have := List.find?_some h
  simpa using this

/-- `get_nopass_child` returns null exactly when every child is a pass. -/
theorem get_nopass_child_none (n : UCTNode) :
    n.get_nopass_child = none ↔ ∀ c ∈ n.m_children, c.m_move = FastBoard.PASS := by
  unfold UCTNode.get_nopass_child
  simp [List.find?_eq_none]

/-- The assertions of `get_best_move` hold exactly when the call of the
randomisation branch returns and the first ranked child exists and passes the
assertion of `get_eval`. -/
theorem get_best_move_assertions_iff (s : UCTSearch) (passflag : Nat)
    (randomize : List UCTNode → List UCTNode × Bool) :
    s.get_best_move_assertions passflag randomize = true ↔
      s.ranked_children_assertion randomize = true
        ∧ ∃ fc, (s.ranked_children passflag randomize).head? = some fc
          ∧ fc.get_eval_assertion = true := by
  unfold UCTSearch.get_best_move_assertions
  cases h : (s.ranked_children passflag randomize).head? with
  | none => simp
  | some fc => simp

/-- When its assertions hold, `get_best_move` returns a move. -/
theorem get_best_move_returns (s : UCTSearch) (passflag : Nat)
    (randomize : List UCTNode → List UCTNode × Bool)
    (hassert : s.get_best_move_assertions passflag randomize = true) :
    ∃ move, s.get_best_move passflag randomize = some move := by
  obtain ⟨h1, fc, hfc, h2⟩ := (get_best_move_assertions_iff s passflag randomize).mp hassert
  unfold UCTSearch.get_best_move
  simp only [UCTNode.get_first_child, hfc, h1, h2, Bool.not_true, Bool.false_eq_true, if_false]
  split_ifs <;> exact ⟨_, rfl⟩

/-- C3: in `get_best_move` without the `NOPASS` flag and with `cfg_dumbpass`
false, when the top-ranked root child is `PASS` and the final score is a loss
for the side to move, the returned move is `PASS` only if no non-pass child
exists (`get_nopass_child` returns null); otherwise it is that non-pass
child's move or `RESIGN`, never `PASS`.  A move is returned when the
assertions on the way hold (`get_best_move_assertions`: the top-ranked child
has `visits + virtual_loss > 0` where `get_eval` reads it unguarded). -/
theorem get_best_move_pass_loses (s : UCTSearch) (passflag : Nat)
    (randomize : List UCTNode → List UCTNode × Bool)
    (hflag : flag_set passflag NOPASS = false) (hdumb : s.cfg.cfg_dumbpass = false)
    (htop : s.top_move passflag randomize = some FastBoard.PASS)
    (hloss : (s.m_rootstate.final_score > 0 ∧ s.m_rootstate.to_move = FastBoard.WHITE)
      ∨ (s.m_rootstate.final_score < 0 ∧ s.m_rootstate.to_move = FastBoard.BLACK))
    (hassert : s.get_best_move_assertions passflag randomize = true) :
    (s.get_best_move passflag randomize = some FastBoard.PASS →
        s.ranked_nopass_child passflag randomize = none
          ∧ ∀ c ∈ s.ranked_children passflag randomize, c.m_move = FastBoard.PASS)
      ∧ (∀ nopass, s.ranked_nopass_child passflag randomize = some nopass →
          (s.get_best_move passflag randomize = some nopass.get_move
            ∨ s.get_best_move passflag randomize = some FastBoard.RESIGN)
          ∧ s.get_best_move passflag randomize ≠ some FastBoard.PASS) := by
  obtain ⟨h1, fc, hfc, h2⟩ := (get_best_move_assertions_iff s passflag randomize).mp hassert
  unfold UCTSearch.top_move at htop
  have hmove : fc.get_move = FastBoard.PASS := by
    rw [hfc] at htop
    simpa using htop
  have hloss2 : decide ((s.m_rootstate.final_score > 0 ∧ s.m_rootstate.to_move = FastBoard.WHITE)
      ∨ (s.m_rootstate.final_score < 0 ∧ s.m_rootstate.to_move = FastBoard.BLACK)) = true :=
    decide_eq_true hloss
  unfold UCTSearch.get_best_move UCTSearch.ranked_nopass_child
  simp only [UCTNode.get_first_child, hfc, hflag, hdumb, hmove, hloss2, h1, h2, Bool.not_true,
    Bool.false_eq_true, if_false]
  cases hn : UCTNode.get_nopass_child
      { s.m_root with m_children := s.ranked_children passflag randomize } with
  | none =>
    have hall := (get_nopass_child_none _).mp hn
    simp
    exact hall
  | some nopass =>
    have hne := (get_nopass_child_some _ _ hn).2
    have hne2 : ¬ nopass.get_move = FastBoard.PASS := hne
    have hRP : ¬ FastBoard.RESIGN = FastBoard.PASS := by decide
    by_cases hr : s.should_resign passflag
        (if nopass.first_visit = true then 1
          else nopass.get_eval_float s.m_rootstate.to_move) = true
    · simp [hne2, hr, hRP]
    · simp [hne2, hr, hRP]

/-- Witness of C3: White to move, a pass ranked first although the final
score (3 for Black) loses, and a non-pass child (move 72) exists: move 72 is
returned. -/
theorem get_best_move_pass_loses_witness :
    (Sample.search Sample.config Sample.state Sample.pass_on_top).top_move 0 Sample.keep_order
        = some FastBoard.PASS
      ∧ (Sample.state.final_score > 0 ∧ Sample.state.to_move = FastBoard.WHITE)
      ∧ (Sample.search Sample.config Sample.state Sample.pass_on_top).get_best_move_assertions 0
          Sample.keep_order = true
      ∧ (Sample.search Sample.config Sample.state Sample.pass_on_top).get_best_move 0
          Sample.keep_order = some 72
      ∧ ((Sample.search Sample.config Sample.state Sample.pass_on_top).get_best_move 0
            Sample.keep_order = some FastBoard.PASS →
          (Sample.search Sample.config Sample.state Sample.pass_on_top).ranked_nopass_child 0
              Sample.keep_order = none
            ∧ ∀ c ∈ (Sample.search Sample.config Sample.state Sample.pass_on_top).ranked_children 0
                Sample.keep_order, c.m_move = FastBoard.PASS) :=
  ⟨by decide!, by decide!, by decide!, by decide!,
    (get_best_move_pass_loses (Sample.search Sample.config Sample.state Sample.pass_on_top) 0
      Sample.keep_order (by decide!) (by decide!) (by decide!) (Or.inl (by decide!))
      (by decide!)).1⟩

/-- C4: in `get_best_move` without the `NOPASS` flag and with `cfg_dumbpass`
false, when the top-ranked root child is not `PASS`, the opponent's last move
was `PASS`, and passing does not lose for the side to move (final score at
most 0 for White to move, at least 0 for Black to move), the returned move is
`PASS`, and it is not `RESIGN`, whatever the best score is.  A move is
returned when the assertions on the way hold (`get_best_move_assertions`: the
top-ranked child has `visits + virtual_loss > 0` where `get_eval` reads it
unguarded). -/
theorem get_best_move_pass_out (s : UCTSearch) (passflag : Nat)
    (randomize : List UCTNode → List UCTNode × Bool) (top : Int)
    (hflag : flag_set passflag NOPASS = false) (hdumb : s.cfg.cfg_dumbpass = false)
    (htop : s.top_move passflag randomize = some top) (hnp : top ≠ FastBoard.PASS)
    (hlast : s.m_rootstate.last_move = FastBoard.PASS)
    (hscore : (s.m_rootstate.to_move = FastBoard.WHITE ∧ s.m_rootstate.final_score ≤ 0)
      ∨ (s.m_rootstate.to_move = FastBoard.BLACK ∧ 0 ≤ s.m_rootstate.final_score))
    (hassert : s.get_best_move_assertions passflag randomize = true) :
    s.get_best_move passflag randomize = some FastBoard.PASS
      ∧ s.get_best_move passflag randomize ≠ some FastBoard.RESIGN := by
  obtain ⟨h1, fc, hfc, h2⟩ := (get_best_move_assertions_iff s passflag randomize).mp hassert
  unfold UCTSearch.top_move at htop
  have hmove : fc.get_move = top := by
    rw [hfc] at htop
    simpa using htop
  have hwb : ¬ FastBoard.WHITE = FastBoard.BLACK := by decide
  have hnoloss : decide ((s.m_rootstate.final_score > 0 ∧ s.m_rootstate.to_move = FastBoard.WHITE)
      ∨ (s.m_rootstate.final_score < 0 ∧ s.m_rootstate.to_move = FastBoard.BLACK)) = false := by
    apply decide_eq_false
    rintro (⟨h1, h2⟩ | ⟨h1, h2⟩)
    · rcases hscore with ⟨_, h3⟩ | ⟨h3, _⟩
      · exact absurd h1 (not_lt.mpr h3)
      · exact hwb (h2.symm.trans h3)
    · rcases hscore with ⟨h3, _⟩ | ⟨_, h3⟩
      · exact hwb (h3.symm.trans h2)
      · exact absurd h1 (not_lt.mpr h3)
  have hres : s.get_best_move passflag randomize = some FastBoard.PASS := by
    unfold UCTSearch.get_best_move
    have hnp2 : ¬ fc.get_move = FastBoard.PASS := hmove ▸ hnp
    simp [UCTNode.get_first_child, hfc, hflag, hdumb, hnp2, hlast, hnoloss, h1, h2]
  refine ⟨hres, ?_⟩
  rw [hres]
  decide

/-- Witness of C4: White to move after a pass of Black, final score 0, move
72 ranked first with a hopeless mean value: the answer is a pass, not a
resignation. -/
theorem get_best_move_pass_out_witness :
    (Sample.search Sample.config (Sample.after_pass 0) Sample.pass_second).top_move 0
        Sample.keep_order = some 72
      ∧ (Sample.search Sample.config (Sample.after_pass 0)
          Sample.pass_second).get_best_move_assertions 0 Sample.keep_order = true
      ∧ (Sample.search Sample.config (Sample.after_pass 0) Sample.pass_second).get_best_move 0
        Sample.keep_order = some FastBoard.PASS :=
  ⟨by decide!, by decide!,
    (get_best_move_pass_out (Sample.search Sample.config (Sample.after_pass 0) Sample.pass_second)
      0 Sample.keep_order 72 (by decide!) (by decide!) (by decide!) (by decide!) (by decide!)
      (Or.inl (by decide!)) (by decide!)).1⟩

/-- An instance of the assertions of `get_best_move`: on a root whose only
child, move 72, has no visit and no virtual loss, the call
`first_child->get_eval(color)` fails its assertion and no move is returned. -/
theorem get_best_move_unvisited_top :
    (Sample.search Sample.config (Sample.after_pass 0)
        [Sample.child 72 (1 / 2) 0 0]).top_move 0 Sample.keep_order = some 72
      ∧ (Sample.search Sample.config (Sample.after_pass 0)
          [Sample.child 72 (1 / 2) 0 0]).get_best_move_assertions 0 Sample.keep_order = false
      ∧ (Sample.search Sample.config (Sample.after_pass 0)
          [Sample.child 72 (1 / 2) 0 0]).get_best_move 0 Sample.keep_order = none := by
  decide!

/-- With the `NOPASS` flag set, `get_best_move` reads neither `cfg_dumbpass`
nor the final score. -/
theorem get_best_move_nopass_inputs (s : UCTSearch) (passflag : Nat)
    (randomize : List UCTNode → List UCTNode × Bool)
    (hflag : flag_set passflag NOPASS = true) (d1 d2 : Bool) (score1 score2 : ℚ) :
    (s.with_pass_inputs d1 score1).get_best_move passflag randomize
      = (s.with_pass_inputs d2 score2).get_best_move passflag randomize := by
  unfold UCTSearch.get_best_move
  have hr : ∀ d score, (s.with_pass_inputs d score).ranked_children passflag randomize
      = s.ranked_children passflag randomize := by
    intro d score
    rfl
  have ha : ∀ d score, (s.with_pass_inputs d score).ranked_children_assertion randomize
      = s.ranked_children_assertion randomize := by
    intro d score
    rfl
  simp only [hr, ha, hflag, if_true]
  rfl

/-- C5: when the `NOPASS` flag is set, `NOPASS` wins over `cfg_dumbpass`: for
every root tree and root state `get_best_move` returns the same move with
`cfg_dumbpass` true as with `cfg_dumbpass` false, whatever the final score is
(the final-score pass heuristics are not consulted), and it returns `PASS`
only when the top-ranked child is `PASS` and no non-pass child exists. -/
theorem get_best_move_nopass_wins (s : UCTSearch) (passflag : Nat)
    (randomize : List UCTNode → List UCTNode × Bool)
    (hflag : flag_set passflag NOPASS = true) :
    (∀ score1 score2 : ℚ,
        (s.with_pass_inputs true score1).get_best_move passflag randomize
          = (s.with_pass_inputs false score2).get_best_move passflag randomize)
      ∧ (∀ dumbpass : Bool, ∀ score : ℚ,
          (s.with_pass_inputs dumbpass score).get_best_move passflag randomize
              = some FastBoard.PASS →
            s.top_move passflag randomize = some FastBoard.PASS
              ∧ s.ranked_nopass_child passflag randomize = none
              ∧ ∀ c ∈ s.ranked_children passflag randomize, c.m_move = FastBoard.PASS) := by
  refine ⟨fun score1 score2 => get_best_move_nopass_inputs s passflag randomize hflag _ _ _ _, ?_⟩
  intro dumbpass score hpass
  have hs : (s.with_pass_inputs dumbpass score).get_best_move passflag randomize
      = s.get_best_move passflag randomize :=
    get_best_move_nopass_inputs s passflag randomize hflag dumbpass s.cfg.cfg_dumbpass score
      s.m_rootstate.final_score
  rw [hs] at hpass
  have hRP : ¬ FastBoard.RESIGN = FastBoard.PASS := by decide
  unfold UCTSearch.get_best_move at hpass
  unfold UCTSearch.top_move UCTSearch.ranked_nopass_child
  by_cases h1 : s.ranked_children_assertion randomize = true
  swap
  · simp [h1] at hpass
  cases hfc : (s.ranked_children passflag randomize).head? with
  | none => simp [UCTNode.get_first_child, hfc] at hpass
  | some fc =>
    by_cases h2 : fc.get_eval_assertion = true
    swap
    · simp [UCTNode.get_first_child, hfc, h2] at hpass
    simp only [UCTNode.get_first_child, hfc, hflag, if_true, h1, h2, Bool.not_true,
      Bool.false_eq_true, if_false] at hpass
    by_cases hmove : fc.get_move = FastBoard.PASS
    · simp only [hmove, if_true] at hpass
      cases hn : UCTNode.get_nopass_child
          { s.m_root with m_children := s.ranked_children passflag randomize } with
      | none =>
        exact ⟨by simp [hmove], rfl, (get_nopass_child_none _).mp hn⟩
      | some nopass =>
        have hne : ¬ nopass.get_move = FastBoard.PASS := (get_nopass_child_some _ _ hn).2
        rw [hn] at hpass
        simp only [hne, ne_eq, not_false_eq_true, if_true] at hpass
        split_ifs at hpass <;>
          first
          | exact absurd (Option.some.inj hpass) hRP
          | exact absurd (Option.some.inj hpass) hne
    · simp only [hmove, if_false, ne_eq, not_false_eq_true, if_true] at hpass
      split_ifs at hpass
      · exact absurd (Option.some.inj hpass) hRP
      · exact absurd (Option.some.inj hpass) hmove

/-- Witness of C5: with `NOPASS` set and a pass ranked first, the sample
search answers the same for both values of `cfg_dumbpass`. -/
theorem get_best_move_nopass_wins_witness :
    flag_set 1 NOPASS = true
      ∧ ((Sample.search Sample.config Sample.state Sample.pass_on_top).with_pass_inputs true
            3).get_best_move 1 Sample.keep_order
        = ((Sample.search Sample.config Sample.state Sample.pass_on_top).with_pass_inputs false
            (-3)).get_best_move 1 Sample.keep_order :=
  ⟨by decide,
    (get_best_move_nopass_wins (Sample.search Sample.config Sample.state Sample.pass_on_top) 1
      Sample.keep_order (by decide)).1 3 (-3)⟩

/-! ### The main loop of `think` -/

/-- The second loop of `prune_noncontenders` keeps the number of children. -/
theorem prune_loop_length (min_required_visits : Int) (children : List UCTNode) :
    ∀ pruned_nodes : Nat,
      (UCTSearch.prune_loop min_required_visits pruned_nodes children).1.length
        = children.length := by
  induction children with
  | nil => intro p; rfl
  | cons node rest ih =>
    intro p
    unfold UCTSearch.prune_loop
    split_ifs
    · simp [ih]
    · simp [ih]

/-- When `have_alternate_moves` answers false: time management is not `OFF`,
the pruning left no more children unpruned than one (`pruned` is at least
`children.size() - 1`), and either time management is `FAST` or time can be
accumulated and the playouts are unlimited. -/
theorem have_alternate_moves_false_iff (s : UCTSearch) (can_accumulate_time : Bool)
    (elapsed_centis time_for_move : Int) :
    (s.have_alternate_moves can_accumulate_time elapsed_centis time_for_move).1 = false ↔
      (s.cfg.cfg_timemanage ≠ TimeManagement.OFF
        ∧ UCTSearch.children_size_minus_one s.m_root
            ≤ (s.prune_noncontenders elapsed_centis time_for_move).1
        ∧ (s.cfg.cfg_timemanage = TimeManagement.FAST
          ∨ (can_accumulate_time = true ∧ UNLIMITED_PLAYOUTS ≤ s.m_maxplayouts))) := by
  have hlen : UCTSearch.children_size_minus_one
      (s.prune_noncontenders elapsed_centis time_for_move).2.m_root
      = UCTSearch.children_size_minus_one s.m_root := by
    unfold UCTSearch.children_size_minus_one UCTSearch.prune_noncontenders
    simp [prune_loop_length]
  unfold UCTSearch.have_alternate_moves
  by_cases hoff : s.cfg.cfg_timemanage = TimeManagement.OFF
  · simp [hoff]
  · simp only [hoff, if_false, hlen, ne_eq, not_false_eq_true, true_and]
    by_cases hp : (s.prune_noncontenders elapsed_centis time_for_move).1
        < UCTSearch.children_size_minus_one s.m_root
    · simp [hp, not_le.mpr hp]
    · simp only [hp, if_false, not_lt.mp hp, true_and]
      by_cases hfast : s.cfg.cfg_timemanage = TimeManagement.FAST
      · simp [hfast]
      · cases can_accumulate_time
        · simp [hfast]
        · by_cases hm : s.m_maxplayouts < UNLIMITED_PLAYOUTS
          · simp [hfast, hm]
          · simp [hfast, hm, not_lt.mp hm]

/-- C7 (amended): the main loop of `think` stops after an iteration whenever
`playouts >= max_playouts`, root visits `>= max_visits` or `elapsed >=` the
time budget; it also stops whenever `have_alternate_moves` answers false,
which happens exactly when time management is not `OFF`, the pruning pruned
at least `children.size() - 1` root children, and time management is `FAST`
or time can be accumulated with unlimited playouts. -/
theorem think_stops (s : UCTSearch) (can_accumulate_time : Bool)
    (elapsed_centis time_for_move : Int) :
    ((s.m_playouts ≥ s.m_maxplayouts ∨ s.m_root.get_visits ≥ s.m_maxvisits
          ∨ elapsed_centis ≥ time_for_move) →
        (s.think_keeprunning can_accumulate_time elapsed_centis time_for_move).1 = false)
      ∧ ((s.have_alternate_moves can_accumulate_time elapsed_centis time_for_move).1 = false →
        (s.think_keeprunning can_accumulate_time elapsed_centis time_for_move).1 = false)
      ∧ ((s.have_alternate_moves can_accumulate_time elapsed_centis time_for_move).1 = false ↔
        (s.cfg.cfg_timemanage ≠ TimeManagement.OFF
          ∧ UCTSearch.children_size_minus_one s.m_root
              ≤ (s.prune_noncontenders elapsed_centis time_for_move).1
          ∧ (s.cfg.cfg_timemanage = TimeManagement.FAST
            ∨ (can_accumulate_time = true ∧ UNLIMITED_PLAYOUTS ≤ s.m_maxplayouts)))) := by
  refine ⟨?_, ?_, have_alternate_moves_false_iff s can_accumulate_time elapsed_centis
    time_for_move⟩
  · intro h
    have hstop : s.stop_thinking elapsed_centis time_for_move = true := by
      unfold UCTSearch.stop_thinking
      rcases h with h | h | h
      · simp [h]
      · simp [h]
      · simp [h]
    unfold UCTSearch.think_keeprunning
    simp [hstop]
  · intro hf
    unfold UCTSearch.think_keeprunning
    simp [hf]

/-- Witness of C7: with "fast" time management, 10 playouts left and one
child 50 visits ahead of the other, the loop stops. -/
theorem think_stops_witness :
    ((Sample.search Sample.config_fast Sample.state Sample.one_contender).prune_noncontenders
        10 1000).1 = 1
      ∧ ((Sample.search Sample.config_fast Sample.state Sample.one_contender).think_keeprunning
        true 10 1000).1 = false :=
  ⟨by decide!,
    (think_stops (Sample.search Sample.config_fast Sample.state Sample.one_contender) true 10
      1000).2.1
      ((think_stops (Sample.search Sample.config_fast Sample.state Sample.one_contender) true 10
        1000).2.2.mpr ⟨by decide!, by decide!, Or.inl (by decide!)⟩)⟩

/-- C7 (counterexample): time management `ON`, a limit of 100 playouts of
which 90 are done, and two root children of which the pruning prunes one (all
but one): `have_alternate_moves` still answers true and the loop goes on,
although no stop condition of the budget holds either. -/
theorem think_goes_on_with_one_contender :
    Sample.config.cfg_timemanage = TimeManagement.ON
      ∧ (Sample.search Sample.config Sample.state Sample.one_contender).m_root.m_children.length
        = 2
      ∧ ((Sample.search Sample.config Sample.state Sample.one_contender).prune_noncontenders
        10 1000).1 = 1
      ∧ (((Sample.search Sample.config Sample.state Sample.one_contender).prune_noncontenders
        10 1000).2.m_root.m_children.map UCTNode.active) = [true, false]
      ∧ ((Sample.search Sample.config Sample.state Sample.one_contender).have_alternate_moves
        true 10 1000).1 = true
      ∧ ((Sample.search Sample.config Sample.state Sample.one_contender).think_keeprunning
        true 10 1000).1 = true := by
  decide!

/-! ### Node expansion -/

/-- C8: `create_children` returns false, without calling the network and
leaving the node (its children, `min_psa_ratio_children`, `is_expanding`) and
the global node count unchanged, whenever `min_psa_ratio` is at least the
node's `min_psa_ratio_children`, or the position has at least two consecutive
passes, or `is_expanding` is already set. -/
theorem create_children_refused (ext : External) (cfg : Config) (n : UCTNode)
    (nodecount : Int) (state : GameState) (min_psa_ratio : ℚ)
    (h : n.m_min_psa_ratio_children ≤ min_psa_ratio ∨ 2 ≤ state.passes
      ∨ n.m_is_expanding = true) :
    (n.create_children ext cfg nodecount state min_psa_ratio).success = false
      ∧ (n.create_children ext cfg nodecount state min_psa_ratio).netcalls = 0
      ∧ (n.create_children ext cfg nodecount state min_psa_ratio).node = n
      ∧ (n.create_children ext cfg nodecount state min_psa_ratio).node.m_children = n.m_children
      ∧ (n.create_children ext cfg nodecount state min_psa_ratio).node.m_min_psa_ratio_children
        = n.m_min_psa_ratio_children
      ∧ (n.create_children ext cfg nodecount state min_psa_ratio).node.m_is_expanding
        = n.m_is_expanding
      ∧ (n.create_children ext cfg nodecount state min_psa_ratio).nodecount = nodecount := by
  have key : n.create_children ext cfg nodecount state min_psa_ratio
      = { success := false, node := n, nodecount := nodecount, out := none, netcalls := 0 } := by
    unfold UCTNode.create_children
    by_cases h1 : n.expandable min_psa_ratio = true
    · by_cases h2 : state.passes ≥ 2
      · simp [h1, h2]
      · by_cases h3 : n.m_is_expanding = true
        · simp [h1, h2, h3]
        · exfalso
          rcases h with h | h | h
          · unfold UCTNode.expandable at h1
            exact absurd (of_decide_eq_true h1) (not_lt.mpr h)
          · exact h2 h
          · exact h3 h
    · simp [h1]
  rw [key]
  exact ⟨rfl, rfl, rfl, rfl, rfl, rfl, rfl⟩

/-- Witness of C8: a root expanded down to ratio 0 is not expanded again. -/
theorem create_children_refused_witness :
    (Sample.root []).m_min_psa_ratio_children ≤ 0
      ∧ ((Sample.root []).create_children Sample.peaked_net Sample.config 1000 Sample.state9
          0).success = false
      ∧ ((Sample.root []).create_children Sample.peaked_net Sample.config 1000 Sample.state9
          0).netcalls = 0 :=
  ⟨by decide!,
    (create_children_refused Sample.peaked_net Sample.config (Sample.root []) 1000 Sample.state9 0
      (Or.inl (by decide!))).1,
    (create_children_refused Sample.peaked_net Sample.config (Sample.root []) 1000 Sample.state9 0
      (Or.inl (by decide!))).2.1⟩

/-- C9 (counterexample): on an empty 9x9 board with ratio `1/100`, a policy of
`1/2` on the first point, `1/1000` on every other point and `0.42` on the
pass, the expansion of a new node succeeds and creates two children only (the
first point, vertex 12, and the pass); the legal point with vertex 13 gets no
child. -/
theorem create_children_skips_legal_moves :
    ((UCTNode.create FastBoard.PASS 0).create_children Sample.peaked_net Sample.config 0
        Sample.state9 (1 / 100)).success = true
      ∧ (UCTNode.create FastBoard.PASS 0).m_children.length = 0
      ∧ Sample.state9.get_vertex 1 0 = 13
      ∧ Sample.state9.is_move_legal Sample.state9.to_move 13 = true
      ∧ ((UCTNode.create FastBoard.PASS 0).create_children Sample.peaked_net Sample.config 0
          Sample.state9 (1 / 100)).node.m_children.map UCTNode.get_move = [12, FastBoard.PASS] := by
  decide!

/-- The loop over the board points appends the candidates of the legal points
and adds up their policy values. -/
theorem collect_legal_eq (state : GameState) (raw : Netresult) (l : List Nat) :
    ∀ acc : List (ℚ × Int) × ℚ,
      UCTNode.collect_legal state raw l acc
        = (acc.1 ++ l.filterMap (UCTNode.board_candidate state raw),
            acc.2 + ((l.filterMap (UCTNode.board_candidate state raw)).map Prod.fst).sum) := by
  induction l with
  | nil => intro acc; simp [UCTNode.collect_legal]
  | cons i rest ih =>
    intro acc
    unfold UCTNode.collect_legal
    by_cases hl : state.is_move_legal state.to_move
        (state.get_vertex (i % state.boardsize) (i / state.boardsize)) = true
    · have hc : UCTNode.board_candidate state raw i
          = some (raw.policy i, state.get_vertex (i % state.boardsize) (i / state.boardsize)) := by
        simp [UCTNode.board_candidate, hl]
      simp only [hl, if_true, ih, List.filterMap_cons, hc, List.map_cons, List.sum_cons,
        List.append_assoc, List.singleton_append, add_assoc]
    · have hc : UCTNode.board_candidate state raw i = none := by
        simp [UCTNode.board_candidate, hl]
      simp only [hl, if_false, ih, List.filterMap_cons, hc, Bool.false_eq_true]

/-- The node list before normalisation: the candidates of the legal board
points in index order, then the pass; `legal_sum` is the sum of its policy
values. -/
theorem raw_nodelist_eq (state : GameState) (raw : Netresult) :
    (UCTNode.raw_nodelist state raw).1
        = (List.range (state.boardsize * state.boardsize)).filterMap
            (UCTNode.board_candidate state raw) ++ [(raw.policy_pass, FastBoard.PASS)]
      ∧ (UCTNode.raw_nodelist state raw).2
        = ((UCTNode.raw_nodelist state raw).1.map Prod.fst).sum := by
  unfold UCTNode.raw_nodelist
  simp [collect_legal_eq]

/-- Dividing every prior of a list by `c` divides their sum by `c`. -/
theorem sum_map_div_fst (c : ℚ) (l : List (ℚ × Int)) :
    ((l.map (fun node => (node.1 / c, node.2))).map Prod.fst).sum
      = (l.map Prod.fst).sum / c := by
  induction l with
  | nil => simp
  | cons a t ih => simp only [List.map_cons, List.sum_cons, ih, add_div]

/-- Giving every candidate the prior `c` makes the priors sum to `c` times
the number of candidates. -/
theorem sum_map_const_fst (c : ℚ) (l : List (ℚ × Int)) :
    ((l.map (fun node => (c, node.2))).map Prod.fst).sum = (l.length : ℚ) * c := by
  induction l with
  | nil => simp
  | cons a t ih =>
    simp only [List.map_cons, List.sum_cons, ih, List.length_cons, Nat.cast_add, Nat.cast_one]
    ring

/-- The node list before normalisation is not empty: the pass is always a
candidate. -/
theorem raw_nodelist_length_pos (state : GameState) (raw : Netresult) :
    0 < (UCTNode.raw_nodelist state raw).1.length := by
  rw [(raw_nodelist_eq state raw).1]
  simp

/-- The smallest positive normal float is positive. -/
theorem FLT_MIN_pos : 0 < FLT_MIN := by
  unfold FLT_MIN
  positivity

/-- The priors handed to `link_nodelist` sum to 1. -/
theorem normalized_sum_one (state : GameState) (raw : Netresult) :
    ((UCTNode.normalized_nodelist state raw).map Prod.fst).sum = 1 := by
  unfold UCTNode.normalized_nodelist
  by_cases hs : (UCTNode.raw_nodelist state raw).2 > FLT_MIN
  · have hpos : (UCTNode.raw_nodelist state raw).2 ≠ 0 :=
      ne_of_gt (lt_trans FLT_MIN_pos hs)
    simp only [hs, if_true, sum_map_div_fst]
    rw [← (raw_nodelist_eq state raw).2]
    exact div_self hpos
  · have hn : ((UCTNode.raw_nodelist state raw).1.length : ℚ) ≠ 0 := by
      exact_mod_cast (raw_nodelist_length_pos state raw).ne'
    simp only [hs, if_false, sum_map_const_fst]
    field_simp

/-- The moves of the normalised node list are those of the raw one. -/
theorem normalized_moves (state : GameState) (raw : Netresult) :
    (UCTNode.normalized_nodelist state raw).map Prod.snd
      = (UCTNode.raw_nodelist state raw).1.map Prod.snd := by
  unfold UCTNode.normalized_nodelist
  by_cases hs : (UCTNode.raw_nodelist state raw).2 > FLT_MIN <;>
    simp [hs, List.map_map, Function.comp_def]

/-- What the pair comparison decides: `a` is not less than `b` when its prior
is larger, or the priors are equal and its vertex is not smaller. -/
theorem pair_less_eq_false_iff (a b : ℚ × Int) :
    pair_less a b = false ↔ (b.1 < a.1 ∨ (b.1 = a.1 ∧ b.2 ≤ a.2)) := by
  unfold pair_less
  rcases lt_trichotomy a.1 b.1 with h | h | h
  · simp [h, not_lt.mpr h.le, h.ne']
  · simp [h]
  · simp [h, not_lt.mpr h.le]

/-- The pair comparison leaves no two pairs unordered both ways. -/
theorem pair_less_total (a b : ℚ × Int) : pair_less b a = false ∨ pair_less a b = false := by
  rw [pair_less_eq_false_iff, pair_less_eq_false_iff]
  rcases lt_trichotomy a.1 b.1 with h | h | h
  · exact Or.inl (Or.inl h)
  · rcases le_total a.2 b.2 with h2 | h2
    · exact Or.inl (Or.inr ⟨h, h2⟩)
    · exact Or.inr (Or.inr ⟨h.symm, h2⟩)
  · exact Or.inr (Or.inl h)

/-- The ranking "not less" of the pair comparison is transitive. -/
theorem pair_less_trans (a b c : ℚ × Int) (hab : pair_less b a = false)
    (hbc : pair_less c b = false) : pair_less c a = false := by
  rw [pair_less_eq_false_iff] at hab hbc ⊢
  rcases hab with h1 | ⟨h1, h2⟩ <;> rcases hbc with h3 | ⟨h3, h4⟩
  · exact Or.inl (lt_trans h1 h3)
  · exact Or.inl (h3 ▸ h1)
  · exact Or.inl (h1 ▸ h3)
  · exact Or.inr ⟨h1.trans h3, le_trans h2 h4⟩

/-- After the sort of `link_nodelist` the first candidate has the largest
prior. -/
theorem sorted_head_max (nodelist : List (ℚ × Int)) (best : ℚ × Int) (rest : List (ℚ × Int))
    (hs : stable_sort_reversed pair_less nodelist = best :: rest) :
    ∀ p ∈ best :: rest, p.1 ≤ best.1 := by
  have h := stable_sort_reversed_sorted pair_less (fun a b => pair_less_total a b)
    (fun a b c => pair_less_trans a b c) nodelist
  rw [hs, List.pairwise_cons] at h
  intro p hp
  rcases List.mem_cons.mp hp with hp | hp
  · rw [hp]
  · rcases (pair_less_eq_false_iff best p).mp (h.1 p hp) with h1 | ⟨h1, _⟩
    · exact h1.le
    · exact h1.le

/-- The loop of `link_nodelist` appends one new child for every candidate with
`new_min_psa <= prior < old_min_psa`, in order, counts these children, and
records whether a candidate was below `new_min_psa`. -/
theorem link_loop_eq (new_min_psa old_min_psa : ℚ) (l : List (ℚ × Int)) :
    ∀ (children : List UCTNode) (nodecount : Int) (skipped : Bool),
      UCTNode.link_loop new_min_psa old_min_psa l (children, nodecount, skipped)
        = (children ++ (l.filter (fun p =>
              decide (¬ p.1 < new_min_psa ∧ p.1 < old_min_psa))).map
              (fun p => UCTNode.create p.2 p.1),
            nodecount + ((l.filter (fun p =>
              decide (¬ p.1 < new_min_psa ∧ p.1 < old_min_psa))).length : Int),
            skipped || l.any (fun p => decide (p.1 < new_min_psa))) := by
  induction l with
  | nil => intro c n k; simp [UCTNode.link_loop]
  | cons a t ih =>
    intro c n k
    unfold UCTNode.link_loop
    by_cases h1 : a.1 < new_min_psa
    · have hf : (a :: t).filter (fun p => decide (¬ p.1 < new_min_psa ∧ p.1 < old_min_psa))
          = t.filter (fun p => decide (¬ p.1 < new_min_psa ∧ p.1 < old_min_psa)) :=
        List.filter_cons_of_neg (by simp [h1])
      have ha : (a :: t).any (fun p => decide (p.1 < new_min_psa)) = true := by simp [h1]
      rw [hf, ha]
      simp only [h1, if_true, ih, Bool.or_true, Bool.true_or]
    · have ha : (a :: t).any (fun p => decide (p.1 < new_min_psa))
          = t.any (fun p => decide (p.1 < new_min_psa)) := by simp [h1]
      by_cases h2 : a.1 < old_min_psa
      · have hf : (a :: t).filter (fun p => decide (¬ p.1 < new_min_psa ∧ p.1 < old_min_psa))
            = a :: t.filter (fun p => decide (¬ p.1 < new_min_psa ∧ p.1 < old_min_psa)) :=
          List.filter_cons_of_pos (by simp [h1, h2])
        rw [hf, ha]
        simp only [h1, h2, if_true, if_false, ih, List.map_cons, List.append_assoc,
          List.singleton_append, List.length_cons, Nat.cast_add, Nat.cast_one]
        rw [add_assoc, add_comm (1 : Int)]
      · have hf : (a :: t).filter (fun p => decide (¬ p.1 < new_min_psa ∧ p.1 < old_min_psa))
            = t.filter (fun p => decide (¬ p.1 < new_min_psa ∧ p.1 < old_min_psa)) :=
          List.filter_cons_of_neg (by simp [h2])
        rw [hf, ha]
        simp only [h1, h2, if_false, ih]

/-- The children after `link_nodelist`, for a non-empty sorted node list with
first candidate `best`: the old children followed by a new child for every
candidate whose prior is at least `best.1 * min_psa_ratio` and below
`best.1 * min_psa_ratio_children`. -/
theorem link_nodelist_children (n : UCTNode) (nodecount : Int) (nodelist : List (ℚ × Int))
    (min_psa_ratio : ℚ) (best : ℚ × Int) (rest : List (ℚ × Int))
    (hs : stable_sort_reversed pair_less nodelist = best :: rest) :
    (n.link_nodelist nodecount nodelist min_psa_ratio).1.m_children
      = n.m_children ++ ((best :: rest).filter (fun p =>
          decide (¬ p.1 < best.1 * min_psa_ratio
            ∧ p.1 < best.1 * n.m_min_psa_ratio_children))).map
          (fun p => UCTNode.create p.2 p.1) := by
  unfold UCTNode.link_nodelist
  rw [hs]
  simp only [link_loop_eq]

/-- The vertex of a board point determines the index of the point. -/
theorem get_vertex_index_inj (state : GameState) (i j : Nat)
    (h : state.get_vertex (i % state.boardsize) (i / state.boardsize)
      = state.get_vertex (j % state.boardsize) (j / state.boardsize)) : i = j := by
  unfold GameState.get_vertex at h
  have h2 : (i / state.boardsize + 1) * (state.boardsize + 2) + (i % state.boardsize + 1)
      = (j / state.boardsize + 1) * (state.boardsize + 2) + (j % state.boardsize + 1) := by
    exact_mod_cast h
  rcases Nat.eq_zero_or_pos state.boardsize with h0 | hpos
  · simp only [h0, Nat.mod_zero, Nat.div_zero] at h2
    omega
  · have hi := Nat.mod_lt i hpos
    have hj := Nat.mod_lt j hpos
    have hdi := Nat.div_add_mod i state.boardsize
    have hdj := Nat.div_add_mod j state.boardsize
    have hq : i / state.boardsize = j / state.boardsize := by
      rcases Nat.lt_trichotomy (i / state.boardsize) (j / state.boardsize) with hlt | heq | hgt
      · exfalso
        have hm : (i / state.boardsize + 1 + 1) * (state.boardsize + 2)
            ≤ (j / state.boardsize + 1) * (state.boardsize + 2) :=
          Nat.mul_le_mul_right _ (by omega)
        rw [Nat.add_mul (i / state.boardsize + 1) 1] at hm
        omega
      · exact heq
      · exfalso
        have hm : (j / state.boardsize + 1 + 1) * (state.boardsize + 2)
            ≤ (i / state.boardsize + 1) * (state.boardsize + 2) :=
          Nat.mul_le_mul_right _ (by omega)
        rw [Nat.add_mul (j / state.boardsize + 1) 1] at hm
        omega
    rw [hq] at h2 hdi
    have hr : i % state.boardsize = j % state.boardsize := by omega
    rw [hr] at hdi
    omega

/-- The moves of the node list before normalisation: the vertices of the
legal board points, then the pass. -/
theorem raw_nodelist_moves (state : GameState) (raw : Netresult) :
    (UCTNode.raw_nodelist state raw).1.map Prod.snd
      = (List.range (state.boardsize * state.boardsize)).filterMap
          (fun i => (UCTNode.board_candidate state raw i).map Prod.snd) ++ [FastBoard.PASS] := by
  rw [(raw_nodelist_eq state raw).1]
  simp [List.map_filterMap]

/-- A move is the vertex of a legal board point in the node list exactly when
it is the vertex of a point `(x, y)` of the board that is legal for the side
to move. -/
theorem mem_board_moves (state : GameState) (raw : Netresult) (m : Int) :
    m ∈ (List.range (state.boardsize * state.boardsize)).filterMap
        (fun i => (UCTNode.board_candidate state raw i).map Prod.snd)
      ↔ ∃ x y, x < state.boardsize ∧ y < state.boardsize ∧ m = state.get_vertex x y
          ∧ state.is_move_legal state.to_move m = true := by
  simp only [List.mem_filterMap, List.mem_range, Option.map_eq_some']
  constructor
  · rintro ⟨i, hi, p, hp, hm⟩
    unfold UCTNode.board_candidate at hp
    have hpos : 0 < state.boardsize := by
      rcases Nat.eq_zero_or_pos state.boardsize with h0 | h
      · rw [h0] at hi
        exact absurd hi (by simp)
      · exact h
    split_ifs at hp with hl
    have hp2 := Option.some.inj hp
    subst hp2
    simp only at hm
    subst hm
    exact ⟨i % state.boardsize, i / state.boardsize, Nat.mod_lt i hpos,
      (Nat.div_lt_iff_lt_mul hpos).mpr hi, rfl, hl⟩
  · rintro ⟨x, y, hx, hy, hm, hl⟩
    have hmod : (y * state.boardsize + x) % state.boardsize = x := by
      rw [Nat.mul_add_mod_of_lt hx]
    have hdiv : (y * state.boardsize + x) / state.boardsize = y := by
      rw [Nat.add_comm, Nat.add_mul_div_right _ _ (Nat.lt_of_le_of_lt (Nat.zero_le x) hx),
        Nat.div_eq_of_lt hx, Nat.zero_add]
    refine ⟨y * state.boardsize + x, ?_, (raw.policy (y * state.boardsize + x), m), ?_, rfl⟩
    · calc y * state.boardsize + x < y * state.boardsize + state.boardsize := by omega
        _ = (y + 1) * state.boardsize := by ring
        _ ≤ state.boardsize * state.boardsize := Nat.mul_le_mul_right _ hy
    · unfold UCTNode.board_candidate
      rw [hmod, hdiv, ← hm]
      simp [hl]

/-- The moves of the node list before normalisation are pairwise different. -/
theorem raw_nodelist_moves_nodup (state : GameState) (raw : Netresult) :
    ((UCTNode.raw_nodelist state raw).1.map Prod.snd).Nodup := by
  rw [raw_nodelist_moves]
  apply List.Nodup.append
  · apply List.Nodup.filterMap _ (List.nodup_range _)
    intro i j b hi hj
    unfold UCTNode.board_candidate at hi hj
    split_ifs at hi hj <;>
      simp only [Option.map_some', Option.map_none', Option.mem_def, Option.some.injEq] at hi hj
    · exact get_vertex_index_inj state i j (hi.trans hj.symm)
    · exact absurd hj (by simp)
    · exact absurd hi (by simp)
    · exact absurd hi (by simp)
  · simp
  · intro a hmem hpass
    rw [List.mem_singleton] at hpass
    subst hpass
    obtain ⟨x, y, _, _, hm, _⟩ := (mem_board_moves state raw FastBoard.PASS).mp hmem
    unfold GameState.get_vertex FastBoard.PASS at hm
    omega

/-- With a non-negative policy the normalised priors are non-negative. -/
theorem normalized_nonneg (state : GameState) (raw : Netresult)
    (hpol : ∀ i, 0 ≤ raw.policy i) (hpass : 0 ≤ raw.policy_pass) :
    ∀ p ∈ UCTNode.normalized_nodelist state raw, 0 ≤ p.1 := by
  have hraw : ∀ q ∈ (UCTNode.raw_nodelist state raw).1, 0 ≤ q.1 := by
    intro q hq
    rw [(raw_nodelist_eq state raw).1, List.mem_append] at hq
    rcases hq with hq | hq
    · obtain ⟨i, _, hi⟩ := List.mem_filterMap.mp hq
      unfold UCTNode.board_candidate at hi
      split_ifs at hi
      rw [← Option.some.inj hi]
      exact hpol i
    · rw [List.mem_singleton] at hq
      rw [hq]
      exact hpass
  intro p hp
  unfold UCTNode.normalized_nodelist at hp
  by_cases hs : (UCTNode.raw_nodelist state raw).2 > FLT_MIN
  · simp only [hs, if_true, List.mem_map] at hp
    obtain ⟨q, hq, rfl⟩ := hp
    exact div_nonneg (hraw q hq) (le_of_lt (lt_trans FLT_MIN_pos hs))
  · simp only [hs, if_false, List.mem_map] at hp
    obtain ⟨q, _, rfl⟩ := hp
    positivity

/-- A successful `create_children` has passed the three guards. -/
theorem create_children_success_guards (ext : External) (cfg : Config) (n : UCTNode)
    (nodecount : Int) (state : GameState) (min_psa_ratio : ℚ)
    (h : (n.create_children ext cfg nodecount state min_psa_ratio).success = true) :
    min_psa_ratio < n.m_min_psa_ratio_children ∧ state.passes < 2
      ∧ n.m_is_expanding = false := by
  by_contra hc
  have hor : n.m_min_psa_ratio_children ≤ min_psa_ratio ∨ 2 ≤ state.passes
      ∨ n.m_is_expanding = true := by
    by_contra hno
    apply hc
    simp only [not_or, not_le, Bool.not_eq_true] at hno
    exact hno
  have key : n.create_children ext cfg nodecount state min_psa_ratio
      = { success := false, node := n, nodecount := nodecount, out := none, netcalls := 0 } := by
    unfold UCTNode.create_children
    by_cases h1 : n.expandable min_psa_ratio = true
    · by_cases h2 : state.passes ≥ 2
      · simp [h1, h2]
      · by_cases h3 : n.m_is_expanding = true
        · simp [h1, h2, h3]
        · exfalso
          rcases hor with h | h | h
          · unfold UCTNode.expandable at h1
            exact absurd (of_decide_eq_true h1) (not_lt.mpr h)
          · exact h2 h
          · exact h3 h
    · simp [h1]
  rw [key] at h
  exact absurd h (by simp)

/-- The children after a successful `create_children`, with `best :: rest` the
sorted normalised node list: the old children followed by a new child for
every candidate whose prior is at least `best.1 * min_psa_ratio` and below
`best.1 * min_psa_ratio_children`. -/
theorem create_children_children (ext : External) (cfg : Config) (n : UCTNode)
    (nodecount : Int) (state : GameState) (min_psa_ratio : ℚ)
    (h : (n.create_children ext cfg nodecount state min_psa_ratio).success = true)
    (best : ℚ × Int) (rest : List (ℚ × Int))
    (hs : stable_sort_reversed pair_less
      (UCTNode.normalized_nodelist state (ext.get_scored_moves state)) = best :: rest) :
    (n.create_children ext cfg nodecount state min_psa_ratio).node.m_children
      = n.m_children ++ ((best :: rest).filter (fun p =>
          decide (¬ p.1 < best.1 * min_psa_ratio
            ∧ p.1 < best.1 * n.m_min_psa_ratio_children))).map
          (fun p => UCTNode.create p.2 p.1) := by
  obtain ⟨g1, g2, g3⟩ := create_children_success_guards ext cfg n nodecount state min_psa_ratio h
  have e1 : n.expandable min_psa_ratio = true := by
    unfold UCTNode.expandable
    exact decide_eq_true g1
  have e2 : ¬ state.passes ≥ 2 := not_le.mpr g2
  unfold UCTNode.create_children
  simp only [e1, e2, g3, Bool.not_true, Bool.false_eq_true, if_false]
  cases cfg.is_mult_komi_net
  · exact link_nodelist_children _ _ _ _ _ _ hs
  · exact link_nodelist_children _ _ _ _ _ _ hs

/-- The sorted node list of an expansion is not empty. -/
theorem sorted_nodelist_ne_nil (state : GameState) (raw : Netresult) :
    stable_sort_reversed pair_less (UCTNode.normalized_nodelist state raw) ≠ [] := by
  intro h
  have hlen := (stable_sort_reversed_perm pair_less
    (UCTNode.normalized_nodelist state raw)).length_eq
  have hm := congrArg List.length (normalized_moves state raw)
  simp only [List.length_map] at hm
  rw [h, hm] at hlen
  have := raw_nodelist_length_pos state raw
  simp only [List.length_nil] at hlen
  omega

/-- On a node without children, with a ratio that is not positive and a
non-negative policy, a successful `create_children` makes one child out of
every candidate of the sorted normalised node list. -/
theorem create_children_first_full (ext : External) (cfg : Config) (n : UCTNode)
    (nodecount : Int) (state : GameState) (min_psa_ratio : ℚ)
    (h : (n.create_children ext cfg nodecount state min_psa_ratio).success = true)
    (hchildren : n.m_children = []) (hunexpanded : n.has_children = false)
    (hratio : min_psa_ratio ≤ 0)
    (hpol : ∀ i, 0 ≤ (ext.get_scored_moves state).policy i)
    (hpass : 0 ≤ (ext.get_scored_moves state).policy_pass) :
    (n.create_children ext cfg nodecount state min_psa_ratio).node.m_children
      = (stable_sort_reversed pair_less
          (UCTNode.normalized_nodelist state (ext.get_scored_moves state))).map
          (fun p => UCTNode.create p.2 p.1) := by
  cases hs : stable_sort_reversed pair_less
      (UCTNode.normalized_nodelist state (ext.get_scored_moves state)) with
  | nil => exact absurd hs (sorted_nodelist_ne_nil state _)
  | cons best rest =>
    rw [create_children_children ext cfg n nodecount state min_psa_ratio h best rest hs, hchildren,
      List.nil_append]
    have hperm := stable_sort_reversed_perm pair_less
      (UCTNode.normalized_nodelist state (ext.get_scored_moves state))
    rw [hs] at hperm
    have hmax := sorted_head_max _ best rest hs
    have hnonneg : ∀ p ∈ best :: rest, 0 ≤ p.1 := fun p hp =>
      normalized_nonneg state _ hpol hpass p (hperm.mem_iff.mp hp)
    have hsum : ((best :: rest).map Prod.fst).sum = 1 := by
      rw [(hperm.map Prod.fst).sum_eq]
      exact normalized_sum_one state _
    have hbest : 0 < best.1 := by
      by_contra hnot
      have hle : ((best :: rest).map Prod.fst).sum ≤ ((best :: rest).map Prod.fst).length • (0 : ℚ) :=
        List.sum_le_card_nsmul _ _ (by
          intro x hx
          obtain ⟨p, hp, rfl⟩ := List.mem_map.mp hx
          exact le_trans (hmax p hp) (not_lt.mp hnot))
      rw [hsum, smul_zero] at hle
      exact absurd hle (by norm_num)
    have hmprc : 1 < n.m_min_psa_ratio_children := by
      unfold UCTNode.has_children at hunexpanded
      exact not_le.mp (of_decide_eq_false hunexpanded)
    congr 1
    apply List.filter_eq_self.mpr
    intro p hp
    have h1 : ¬ p.1 < best.1 * min_psa_ratio :=
      not_lt.mpr (le_trans (mul_nonpos_of_nonneg_of_nonpos hbest.le hratio) (hnonneg p hp))
    have h2 : p.1 < best.1 * n.m_min_psa_ratio_children :=
      lt_of_le_of_lt (hmax p hp) (by nlinarith)
    simp [h1, h2]

/-- C9 (amended): after a successful expansion with a `min_psa_ratio` that is
not positive (`create_children` returns true on a node that had no children,
the network policy being non-negative), the node's children are exactly one
child per legal on-board move for the side to move plus exactly one `PASS`
child, with no other moves and no move repeated. -/
theorem create_children_one_child_per_move (ext : External) (cfg : Config) (n : UCTNode)
    (nodecount : Int) (state : GameState) (min_psa_ratio : ℚ)
    (h : (n.create_children ext cfg nodecount state min_psa_ratio).success = true)
    (hchildren : n.m_children = []) (hunexpanded : n.has_children = false)
    (hratio : min_psa_ratio ≤ 0)
    (hpol : ∀ i, 0 ≤ (ext.get_scored_moves state).policy i)
    (hpass : 0 ≤ (ext.get_scored_moves state).policy_pass) :
    ((n.create_children ext cfg nodecount state min_psa_ratio).node.m_children.map
        UCTNode.get_move).Nodup
      ∧ ∀ m : Int,
          m ∈ (n.create_children ext cfg nodecount state min_psa_ratio).node.m_children.map
              UCTNode.get_move
            ↔ (m = FastBoard.PASS
              ∨ ∃ x y, x < state.boardsize ∧ y < state.boardsize ∧ m = state.get_vertex x y
                ∧ state.is_move_legal state.to_move m = true) := by
  have hmoves : (n.create_children ext cfg nodecount state min_psa_ratio).node.m_children.map
      UCTNode.get_move
      = (stable_sort_reversed pair_less
          (UCTNode.normalized_nodelist state (ext.get_scored_moves state))).map Prod.snd := by
    rw [create_children_first_full ext cfg n nodecount state min_psa_ratio h hchildren hunexpanded
      hratio hpol hpass, List.map_map]
    rfl
  have hperm : ((stable_sort_reversed pair_less
      (UCTNode.normalized_nodelist state (ext.get_scored_moves state))).map Prod.snd).Perm
      ((UCTNode.raw_nodelist state (ext.get_scored_moves state)).1.map Prod.snd) := by
    rw [← normalized_moves]
    exact (stable_sort_reversed_perm pair_less _).map Prod.snd
  rw [hmoves]
  refine ⟨hperm.nodup_iff.mpr (raw_nodelist_moves_nodup state _), ?_⟩
  intro m
  rw [hperm.mem_iff, raw_nodelist_moves, List.mem_append, mem_board_moves, List.mem_singleton]
  exact or_comm

/-- Witness of C9: the expansion of a new node on the empty 9x9 board with
ratio 0. -/
theorem create_children_one_child_per_move_witness :
    ((UCTNode.create FastBoard.PASS 0).create_children Sample.peaked_net Sample.config 0
        Sample.state9 0).success = true
      ∧ (((UCTNode.create FastBoard.PASS 0).create_children Sample.peaked_net Sample.config 0
          Sample.state9 0).node.m_children.map UCTNode.get_move).Nodup :=
  ⟨by decide!,
    (create_children_one_child_per_move Sample.peaked_net Sample.config
      (UCTNode.create FastBoard.PASS 0) 0 Sample.state9 0 (by decide!) rfl (by decide!)
      (le_refl 0)
      (by
        intro i
        show (0 : ℚ) ≤ if i = 0 then 1 / 2 else 1 / 1000
        split_ifs <;> norm_num)
      (by
        show (0 : ℚ) ≤ 42 / 100
        norm_num)).1⟩

/-- C10 (amended): for every network output with non-negative policy entries,
the priors `create_children` assigns to the candidate list (legal on-board
moves plus `PASS`) sum to 1 in exact arithmetic: each prior is its policy
value divided by the sum over the candidates when that sum exceeds `FLT_MIN`
(`2^-126`), and when the sum is at most `FLT_MIN` (in particular when it is
zero) every one of the `n` candidates gets the uniform prior `1/n`; so after
a successful expansion of a node without children with `min_psa_ratio = 0`
the priors of the created children sum to 1. -/
theorem create_children_priors_sum (ext : External) (cfg : Config) (n : UCTNode)
    (nodecount : Int) (state : GameState)
    (hpol : ∀ i, 0 ≤ (ext.get_scored_moves state).policy i)
    (hpass : 0 ≤ (ext.get_scored_moves state).policy_pass) :
    ((UCTNode.normalized_nodelist state (ext.get_scored_moves state)).map Prod.fst).sum = 1
      ∧ (UCTNode.raw_nodelist state (ext.get_scored_moves state)).2
        = ((UCTNode.raw_nodelist state (ext.get_scored_moves state)).1.map Prod.fst).sum
      ∧ (FLT_MIN < (UCTNode.raw_nodelist state (ext.get_scored_moves state)).2 →
          UCTNode.normalized_nodelist state (ext.get_scored_moves state)
            = (UCTNode.raw_nodelist state (ext.get_scored_moves state)).1.map (fun node =>
                (node.1 / (UCTNode.raw_nodelist state (ext.get_scored_moves state)).2, node.2)))
      ∧ ((UCTNode.raw_nodelist state (ext.get_scored_moves state)).2 ≤ FLT_MIN →
          UCTNode.normalized_nodelist state (ext.get_scored_moves state)
            = (UCTNode.raw_nodelist state (ext.get_scored_moves state)).1.map (fun node =>
                (1 / ((UCTNode.raw_nodelist state (ext.get_scored_moves state)).1.length : ℚ),
                  node.2)))
      ∧ ((n.create_children ext cfg nodecount state 0).success = true →
          n.m_children = [] → n.has_children = false →
          ((n.create_children ext cfg nodecount state 0).node.m_children.map
            UCTNode.get_score).sum = 1) := by
  refine ⟨normalized_sum_one state _, (raw_nodelist_eq state _).2, ?_, ?_, ?_⟩
  · intro hs
    unfold UCTNode.normalized_nodelist
    simp only [gt_iff_lt, hs, if_true]
  · intro hs
    unfold UCTNode.normalized_nodelist
    simp only [gt_iff_lt, not_lt.mpr hs, if_false]
  · intro h hchildren hunexpanded
    rw [create_children_first_full ext cfg n nodecount state 0 h hchildren hunexpanded
      (le_refl 0) hpol hpass, List.map_map]
    have hperm := (stable_sort_reversed_perm pair_less
      (UCTNode.normalized_nodelist state (ext.get_scored_moves state))).map Prod.fst
    have hfun : (UCTNode.get_score ∘ fun p : ℚ × Int => UCTNode.create p.2 p.1) = Prod.fst := rfl
    rw [hfun, hperm.sum_eq]
    exact normalized_sum_one state _

/-- Witness of C10: the priors of the children of a new node expanded on the
empty 9x9 board sum to 1. -/
theorem create_children_priors_sum_witness :
    (((UCTNode.create FastBoard.PASS 0).create_children Sample.peaked_net Sample.config 0
        Sample.state9 0).node.m_children.map UCTNode.get_score).sum = 1 :=
  (create_children_priors_sum Sample.peaked_net Sample.config (UCTNode.create FastBoard.PASS 0) 0
    Sample.state9
    (by
      intro i
      show (0 : ℚ) ≤ if i = 0 then 1 / 2 else 1 / 1000
      split_ifs <;> norm_num)
    (by
      show (0 : ℚ) ≤ 42 / 100
      norm_num)).2.2.2.2 (by decide!) rfl (by decide!)

/-- C10 (counterexample): on the empty 9x9 board a policy that is 0 on the
board and the denormal `2^-127` on the pass has a candidate sum that is not
zero, yet the pass gets the uniform prior `1/82` and not its policy value
divided by the sum, which is 1. -/
theorem create_children_uniform_for_tiny_sum :
    (UCTNode.raw_nodelist Sample.state9 (Sample.tiny_net.get_scored_moves Sample.state9)).2
        = 1 / 2 ^ 127
      ∧ (UCTNode.raw_nodelist Sample.state9 (Sample.tiny_net.get_scored_moves Sample.state9)).2 ≠ 0
      ∧ (Sample.tiny_net.get_scored_moves Sample.state9).policy_pass
          / (UCTNode.raw_nodelist Sample.state9 (Sample.tiny_net.get_scored_moves Sample.state9)).2
        = 1
      ∧ ((UCTNode.normalized_nodelist Sample.state9
            (Sample.tiny_net.get_scored_moves Sample.state9)).find?
          (fun p => p.2 == FastBoard.PASS)).map Prod.fst = some (1 / 82) := by
  decide!

/-! ### Tree-size budget -/

/-- The `float` constants of `get_min_psa_ratio`: `0.5f` is exact, `0.95f`,
`0.001f` and `0.01f` are the nearest binary32 numbers. -/
theorem get_min_psa_ratio_constants :
    f32 (5 / 10) = 1 / 2 ∧ f32 (95 / 100) = 15938355 / 16777216
      ∧ f32 (1 / 1000) = 8589935 / 8589934592
      ∧ f32 (1 / 100) = 5368709 / 536870912 := by
  decide!

/-- The share `mem_full` does not decrease when the node count grows. -/
theorem mem_full_mono (s : UCTSearch) (more : Int) (hmax : 0 < s.cfg.MAX_TREE_SIZE)
    (hnodes : 0 ≤ s.m_nodes) (hmore : s.m_nodes ≤ more) :
    s.mem_full ≤ ({ s with m_nodes := more } : UCTSearch).mem_full := by
  unfold UCTSearch.mem_full
  have hm : (0 : ℚ) ≤ (s.m_nodes : ℚ) := by exact_mod_cast hnodes
  have hmm : (s.m_nodes : ℚ) ≤ (more : ℚ) := by exact_mod_cast hmore
  have hM : (0 : ℚ) ≤ (s.cfg.MAX_TREE_SIZE : ℚ) := by exact_mod_cast le_of_lt hmax
  have h1 : f32 (s.m_nodes : ℚ) ≤ f32 (more : ℚ) := round_to_mono 24 _ _ _ (by norm_num) hm hmm
  have h2 : 0 ≤ f32 (s.cfg.MAX_TREE_SIZE : ℚ) := round_to_nonneg 24 _ _ hM
  have h3 : 0 ≤ f32 (s.m_nodes : ℚ) := round_to_nonneg 24 _ _ hm
  exact round_to_mono 24 _ _ _ (by norm_num) (div_nonneg h3 h2)
    (div_le_div_of_nonneg_right h1 h2)

/-- A node count of at most half the budget gives a share `mem_full` of at
most `0.5f`. -/
theorem mem_full_le_half (s : UCTSearch) (hmax : 0 < s.cfg.MAX_TREE_SIZE)
    (hnodes : 0 ≤ s.m_nodes)
    (h : (s.m_nodes : ℚ) ≤ 50 / 100 * (s.cfg.MAX_TREE_SIZE : ℚ)) :
    s.mem_full ≤ 1 / 2 := by
  unfold UCTSearch.mem_full
  have hm : (0 : ℚ) ≤ (s.m_nodes : ℚ) := by exact_mod_cast hnodes
  have hM1 : (1 : ℚ) ≤ (s.cfg.MAX_TREE_SIZE : ℚ) := by
    have : (1 : Int) ≤ s.cfg.MAX_TREE_SIZE := hmax
    exact_mod_cast this
  have hM : (0 : ℚ) ≤ (s.cfg.MAX_TREE_SIZE : ℚ) := by linarith
  have hb : (0 : Int) ≤ binade (s.cfg.MAX_TREE_SIZE : ℚ) := by
    apply le_binade
    rw [abs_of_nonneg hM]
    simpa using hM1
  have hhalf : f32 ((s.cfg.MAX_TREE_SIZE : ℚ) / 2) = f32 (s.cfg.MAX_TREE_SIZE : ℚ) / 2 :=
    round_to_half 24 _ _ (by omega)
  have h1 : f32 (s.m_nodes : ℚ) ≤ f32 (s.cfg.MAX_TREE_SIZE : ℚ) / 2 := by
    rw [← hhalf]
    exact round_to_mono 24 _ _ _ (by norm_num) hm (by linarith)
  have h2 : 0 ≤ f32 (s.cfg.MAX_TREE_SIZE : ℚ) := round_to_nonneg 24 _ _ hM
  have h3 : 0 ≤ f32 (s.m_nodes : ℚ) := round_to_nonneg 24 _ _ hm
  have h4 : f32 (s.m_nodes : ℚ) / f32 (s.cfg.MAX_TREE_SIZE : ℚ) ≤ 1 / 2 := by
    rcases eq_or_lt_of_le h2 with h0 | hpos
    · rw [← h0, div_zero]
      norm_num
    · rw [div_le_iff₀ hpos]
      linarith
  have h5 := round_to_mono 24 (-126) _ _ (by norm_num) (div_nonneg h3 h2) h4
  have h6 : f32 (1 / 2) = 1 / 2 := by decide!
  unfold f32 at h6 ⊢
  rw [h6] at h5
  exact h5

/-- C11 (amended): `get_min_psa_ratio` returns 0 when the node count is at
most 50% of `MAX_TREE_SIZE`; in general it returns 0, `0.001f` or `0.01f`
according to whether the `float` quotient `mem_full = float(m_nodes) /
float(MAX_TREE_SIZE)` is at most `0.5f`, above `0.5f` and at most `0.95f`, or
above `0.95f`; the result is non-decreasing in the node count; and for a
budget below `2^31` it is `0.001f` when the node count is at least `50% * (1
+ 2^-22)` and at most `95% * (1 - 2^-22)` of the budget, and `0.01f` when it
is at least `95% * (1 + 2^-22)` of the budget. -/
theorem get_min_psa_ratio_steps (s : UCTSearch) (hmax : 0 < s.cfg.MAX_TREE_SIZE)
    (hnodes : 0 ≤ s.m_nodes) :
    ((s.m_nodes : ℚ) ≤ 50 / 100 * (s.cfg.MAX_TREE_SIZE : ℚ) → s.get_min_psa_ratio = 0)
      ∧ (s.mem_full ≤ f32 (5 / 10) → s.get_min_psa_ratio = 0)
      ∧ (f32 (5 / 10) < s.mem_full → s.mem_full ≤ f32 (95 / 100)
          → s.get_min_psa_ratio = f32 (1 / 1000))
      ∧ (f32 (95 / 100) < s.mem_full → s.get_min_psa_ratio = f32 (1 / 100))
      ∧ (∀ more : Int, s.m_nodes ≤ more →
          s.get_min_psa_ratio ≤ ({ s with m_nodes := more } : UCTSearch).get_min_psa_ratio)
      ∧ (s.cfg.MAX_TREE_SIZE < 2 ^ 31 →
          (50 / 100 * (1 + 1 / 2 ^ 22) * (s.cfg.MAX_TREE_SIZE : ℚ) ≤ (s.m_nodes : ℚ) →
              (s.m_nodes : ℚ) ≤ 95 / 100 * (1 - 1 / 2 ^ 22) * (s.cfg.MAX_TREE_SIZE : ℚ) →
              s.get_min_psa_ratio = f32 (1 / 1000))
            ∧ (95 / 100 * (1 + 1 / 2 ^ 22) * (s.cfg.MAX_TREE_SIZE : ℚ) ≤ (s.m_nodes : ℚ) →
              s.get_min_psa_ratio = f32 (1 / 100))) := by
  obtain ⟨c1, c2, c3, c4⟩ := get_min_psa_ratio_constants
  have hdef : ∀ t : UCTSearch, t.get_min_psa_ratio
      = if t.mem_full > f32 (5 / 10) then
          (if t.mem_full > f32 (95 / 100) then f32 (1 / 100) else f32 (1 / 1000))
        else 0 := fun t => rfl
  have hpos : ∀ c : ℚ, 0 < c → c * (s.cfg.MAX_TREE_SIZE : ℚ) ≤ (s.m_nodes : ℚ) →
      0 < s.m_nodes := by
    intro c hc h
    have hM : (0 : ℚ) < (s.cfg.MAX_TREE_SIZE : ℚ) := by exact_mod_cast hmax
    have : (0 : ℚ) < (s.m_nodes : ℚ) := lt_of_lt_of_le (mul_pos hc hM) h
    exact_mod_cast this
  refine ⟨?_, ?_, ?_, ?_, ?_, ?_⟩
  · intro h
    have := mem_full_le_half s hmax hnodes h
    rw [hdef, if_neg]
    rw [c1]
    exact not_lt.mpr this
  · intro h
    rw [hdef, if_neg (not_lt.mpr h)]
  · intro h1 h2
    rw [hdef, if_pos h1, if_neg (not_lt.mpr h2)]
  · intro h
    have h1 : f32 (5 / 10) < s.mem_full := by
      rw [c1]
      rw [c2] at h
      exact lt_trans (by norm_num) h
    rw [hdef, if_pos h1, if_pos h]
  · intro more hmore
    have hm := mem_full_mono s more hmax hnodes hmore
    rw [hdef, hdef]
    rw [c1, c2, c3, c4]
    rw [c1, c2] at *
    split_ifs <;> first | (exfalso; linarith) | norm_num
  · intro h31
    constructor
    · intro h1 h2
      obtain ⟨b1, b2, _⟩ := f32_quotient_bands s.m_nodes s.cfg.MAX_TREE_SIZE
        (hpos _ (by norm_num) h1) hmax h31
      have e1 : f32 (5 / 10) < s.mem_full := by
        rw [c1]
        exact b1 h1
      have e2 : ¬ s.mem_full > f32 (95 / 100) := by
        rw [c2]
        exact not_lt.mpr (b2 h2)
      rw [hdef, if_pos e1, if_neg e2]
    · intro h1
      obtain ⟨_, _, b3⟩ := f32_quotient_bands s.m_nodes s.cfg.MAX_TREE_SIZE
        (hpos _ (by norm_num) h1) hmax h31
      have e2 : s.mem_full > f32 (95 / 100) := by
        rw [c2]
        exact b3 h1
      have e1 : f32 (5 / 10) < s.mem_full := by
        rw [c1]
        rw [c2] at e2
        exact lt_trans (by norm_num) e2
      rw [hdef, if_pos e1, if_pos e2]

/-- Witness of C11 (amended): with a budget of 40 million nodes, 1000 nodes
give the ratio 0, and 30 million nodes the ratio `0.001f`. -/
theorem get_min_psa_ratio_steps_witness :
    (0 : Int) < Sample.config.MAX_TREE_SIZE
      ∧ (0 : Int) ≤ (Sample.search Sample.config Sample.state []).m_nodes
      ∧ (Sample.search Sample.config Sample.state []).get_min_psa_ratio = 0
      ∧ (Sample.search Sample.config Sample.state []).get_min_psa_ratio
        ≤ ({ Sample.search Sample.config Sample.state [] with
              m_nodes := 30000000 } : UCTSearch).get_min_psa_ratio
      ∧ ({ Sample.search Sample.config Sample.state [] with
              m_nodes := 30000000 } : UCTSearch).get_min_psa_ratio = f32 (1 / 1000) :=
  ⟨by decide, by decide,
    (get_min_psa_ratio_steps (Sample.search Sample.config Sample.state []) (by decide)
      (by decide)).1 (by decide!),
    (get_min_psa_ratio_steps (Sample.search Sample.config Sample.state []) (by decide)
      (by decide)).2.2.2.2.1 30000000 (by decide),
    by decide!⟩

/-- C11 (counterexample): with a budget of 40 million nodes, 20000001 nodes
are above 50% of the budget and at most 95% of it, and the ratio is 0, not
0.001: the `float` nearest to 20000001 is 20000000, so the share computed is
exactly `0.5f`.  At 38000001 nodes, above 95%, the ratio is `0.001f`, not
0.01. -/
theorem get_min_psa_ratio_zero_above_half :
    Sample.config.MAX_TREE_SIZE = 40000000
      ∧ 50 / 100 * (Sample.config.MAX_TREE_SIZE : ℚ) < ((20000001 : Int) : ℚ)
      ∧ ((20000001 : Int) : ℚ) ≤ 95 / 100 * (Sample.config.MAX_TREE_SIZE : ℚ)
      ∧ f32 ((20000001 : Int) : ℚ) = 20000000
      ∧ ({ Sample.search Sample.config Sample.state [] with
            m_nodes := 20000001 } : UCTSearch).get_min_psa_ratio = 0
      ∧ ({ Sample.search Sample.config Sample.state [] with
            m_nodes := 20000001 } : UCTSearch).get_min_psa_ratio ≠ 1 / 1000
      ∧ 95 / 100 * (Sample.config.MAX_TREE_SIZE : ℚ) < ((38000001 : Int) : ℚ)
      ∧ ({ Sample.search Sample.config Sample.state [] with
            m_nodes := 38000001 } : UCTSearch).get_min_psa_ratio = f32 (1 / 1000)
      ∧ ({ Sample.search Sample.config Sample.state [] with
            m_nodes := 38000001 } : UCTSearch).get_min_psa_ratio ≠ 1 / 100 := by
  decide!

/-! ### Expansion: the children created -/

/-- The sorted node list is descending in the prior. -/
theorem sorted_nodelist_descending (nodelist : List (ℚ × Int)) :
    (stable_sort_reversed pair_less nodelist).Pairwise (fun a b => b.1 ≤ a.1) := by
  have h := stable_sort_reversed_sorted pair_less (fun a b => pair_less_total a b)
    (fun a b c => pair_less_trans a b c) nodelist
  refine h.imp ?_
  intro a b hab
  rcases (pair_less_eq_false_iff a b).mp hab with h1 | ⟨h1, _⟩
  · exact h1.le
  · exact h1.le

/-- C20: immediately after a successful expansion of a node that had no
children, the children are sorted descending by prior: for every two
consecutive children (and for every two children at all) the earlier one's
prior is at least the later one's, so the first child has the maximal
prior. -/
theorem create_children_sorted (ext : External) (cfg : Config) (n : UCTNode)
    (nodecount : Int) (state : GameState) (r : ℚ)
    (h : (n.create_children ext cfg nodecount state r).success = true)
    (hchildren : n.m_children = []) :
    (n.create_children ext cfg nodecount state r).node.m_children.Chain'
        (fun a b => b.get_score ≤ a.get_score)
      ∧ (n.create_children ext cfg nodecount state r).node.m_children.Pairwise
        (fun a b => b.get_score ≤ a.get_score) := by
  have hp : (n.create_children ext cfg nodecount state r).node.m_children.Pairwise
      (fun a b => b.get_score ≤ a.get_score) := by
    cases hs : stable_sort_reversed pair_less
        (UCTNode.normalized_nodelist state (ext.get_scored_moves state)) with
    | nil => exact absurd hs (sorted_nodelist_ne_nil state _)
    | cons best rest =>
      rw [create_children_children ext cfg n nodecount state r h best rest hs, hchildren,
        List.nil_append, List.pairwise_map]
      have hd := sorted_nodelist_descending
        (UCTNode.normalized_nodelist state (ext.get_scored_moves state))
      rw [hs] at hd
      exact (hd.filter _).imp (fun {a b} hab => hab)
  exact ⟨hp.chain', hp⟩

/-- Witness of C20: the children of a new node expanded on the empty 9x9 board
are sorted descending by prior. -/
theorem create_children_sorted_witness :
    ((UCTNode.create FastBoard.PASS 0).create_children Sample.peaked_net Sample.config 0
        Sample.state9 0).node.m_children.Chain' (fun a b => b.get_score ≤ a.get_score) :=
  (create_children_sorted Sample.peaked_net Sample.config (UCTNode.create FastBoard.PASS 0) 0
    Sample.state9 0 (by decide!) rfl).1

/-- The first loop of `uct_select_child` adds up the visits of the valid
children. -/
theorem visit_totals_snd (l : List UCTNode) :
    ∀ acc : ℚ × Int,
      (UCTNode.visit_totals l acc).2
        = acc.2 + ((l.filter (fun c => c.valid)).map (fun c => c.m_visits)).sum := by
  induction l with
  | nil => intro acc; simp [UCTNode.visit_totals]
  | cons c rest ih =>
    intro acc
    unfold UCTNode.visit_totals
    by_cases hv : c.valid = true
    · rw [if_pos hv, ih, List.filter_cons_of_pos hv]
      simp only [List.map_cons, List.sum_cons, UCTNode.get_visits]
      ring
    · rw [if_neg hv, ih, List.filter_cons_of_neg hv]

/-- The selection loop either keeps `best`, and then no active child of the
list has a larger value, or moves to the first active child of the list whose
value is the largest and strictly above that of `best`. -/
theorem select_loop_spec (value : UCTNode → ℚ) :
    ∀ (l : List UCTNode) (i : Nat) (best : Option (Nat × ℚ)),
      (UCTNode.select_loop value l i best = best
          ∧ (∀ c ∈ l, c.active = true → ∀ b, best = some b → value c ≤ b.2)
          ∧ (best = none → ∀ c ∈ l, c.active = false))
        ∨ ∃ k c, l[k]? = some c ∧ c.active = true
            ∧ UCTNode.select_loop value l i best = some (i + k, value c)
            ∧ (∀ b, best = some b → b.2 < value c)
            ∧ (∀ k' c', k' < k → l[k']? = some c' → c'.active = true → value c' < value c)
            ∧ (∀ c' ∈ l, c'.active = true → value c' ≤ value c) := by
  intro l
  induction l with
  | nil =>
    intro i best
    left
    exact ⟨rfl, by simp, by simp⟩
  | cons child rest ih =>
    intro i best
    by_cases hact : child.active = true
    · -- the child is active: it replaces `best` or not
      have replaced : (∀ b, best = some b → b.2 < value child) →
          UCTNode.select_loop value (child :: rest) i best
            = UCTNode.select_loop value rest (i + 1) (some (i, value child)) →
          ∃ k c, (child :: rest)[k]? = some c ∧ c.active = true
            ∧ UCTNode.select_loop value (child :: rest) i best = some (i + k, value c)
            ∧ (∀ b, best = some b → b.2 < value c)
            ∧ (∀ k' c', k' < k → (child :: rest)[k']? = some c' → c'.active = true
                → value c' < value c)
            ∧ (∀ c' ∈ child :: rest, c'.active = true → value c' ≤ value c) := by
        intro hbest hsel
        rcases ih (i + 1) (some (i, value child)) with
          ⟨h1, h2, _⟩ | ⟨k, c, hk, hcact, hres, hb, hearlier, hall⟩
        · refine ⟨0, child, List.getElem?_cons_zero, hact, ?_, hbest, ?_, ?_⟩
          · rw [hsel, h1]
            rfl
          · intro k' c' hk'
            exact absurd hk' (Nat.not_lt_zero _)
          · intro c' hc' hcact'
            rcases List.mem_cons.mp hc' with rfl | hc'
            · exact le_refl _
            · exact h2 c' hc' hcact' _ rfl
        · have hvc : value child < value c := hb _ rfl
          refine ⟨k + 1, c, by simpa using hk, hcact, ?_, ?_, ?_, ?_⟩
          · rw [hsel, hres]
            congr 2
            omega
          · intro b hbb
            exact lt_trans (hbest b hbb) hvc
          · intro k' c' hk' hget hcact'
            cases k' with
            | zero =>
              simp only [List.getElem?_cons_zero, Option.some.injEq] at hget
              rw [← hget]
              exact hvc
            | succ k'' =>
              simp only [List.getElem?_cons_succ] at hget
              exact hearlier k'' c' (by omega) hget hcact'
          · intro c' hc' hcact'
            rcases List.mem_cons.mp hc' with rfl | hc'
            · exact hvc.le
            · exact hall c' hc' hcact'
      cases hbest : best with
      | none =>
        right
        have hsel : UCTNode.select_loop value (child :: rest) i none
            = UCTNode.select_loop value rest (i + 1) (some (i, value child)) := by
          simp [UCTNode.select_loop, hact]
        have := replaced (by intro b hb; rw [hbest] at hb; exact absurd hb (by simp))
          (by rw [hbest]; exact hsel)
        rw [hbest] at this
        exact this
      | some b =>
        by_cases hgt : value child > b.2
        · right
          have hsel : UCTNode.select_loop value (child :: rest) i (some b)
              = UCTNode.select_loop value rest (i + 1) (some (i, value child)) := by
            simp [UCTNode.select_loop, hact, hgt]
          have := replaced
            (by intro b' hb'; rw [hbest] at hb'; rw [← Option.some.inj hb']; exact hgt)
            (by rw [hbest]; exact hsel)
          rw [hbest] at this
          exact this
        · have hsel : UCTNode.select_loop value (child :: rest) i (some b)
              = UCTNode.select_loop value rest (i + 1) (some b) := by
            simp [UCTNode.select_loop, hact, hgt]
          have hle : value child ≤ b.2 := not_lt.mp hgt
          rcases ih (i + 1) (some b) with
            ⟨h1, h2, _⟩ | ⟨k, c, hk, hcact, hres, hb, hearlier, hall⟩
          · left
            refine ⟨by rw [hsel, h1], ?_, by simp⟩
            intro c' hc' hcact' b' hb'
            rw [← Option.some.inj hb']
            rcases List.mem_cons.mp hc' with rfl | hc'
            · exact hle
            · exact h2 c' hc' hcact' b rfl
          · right
            have hvc : value child < value c := lt_of_le_of_lt hle (hb b rfl)
            refine ⟨k + 1, c, by simpa using hk, hcact, ?_, ?_, ?_, ?_⟩
            · rw [hsel, hres]
              congr 2
              omega
            · intro b' hb'
              rw [← Option.some.inj hb']
              exact hb b rfl
            · intro k' c' hk' hget hcact'
              cases k' with
              | zero =>
                simp only [List.getElem?_cons_zero, Option.some.injEq] at hget
                rw [← hget]
                exact hvc
              | succ k'' =>
                simp only [List.getElem?_cons_succ] at hget
                exact hearlier k'' c' (by omega) hget hcact'
            · intro c' hc' hcact'
              rcases List.mem_cons.mp hc' with rfl | hc'
              · exact hvc.le
              · exact hall c' hc' hcact'
    · -- the child is not active: it is skipped
      have hina : child.active = false := by simpa using hact
      have hsel : UCTNode.select_loop value (child :: rest) i best
          = UCTNode.select_loop value rest (i + 1) best := by
        simp [UCTNode.select_loop, hina]
      rcases ih (i + 1) best with
        ⟨h1, h2, h3⟩ | ⟨k, c, hk, hcact, hres, hb, hearlier, hall⟩
      · left
        refine ⟨by rw [hsel, h1], ?_, ?_⟩
        · intro c' hc' hcact'
          rcases List.mem_cons.mp hc' with rfl | hc'
          · exact absurd hcact' hact
          · exact h2 c' hc' hcact'
        · intro hnone c' hc'
          rcases List.mem_cons.mp hc' with rfl | hc'
          · exact hina
          · exact h3 hnone c' hc'
      · right
        refine ⟨k + 1, c, by simpa using hk, hcact, ?_, hb, ?_, ?_⟩
        · rw [hsel, hres]
          congr 2
          omega
        · intro k' c' hk' hget hcact'
          cases k' with
          | zero =>
            simp only [List.getElem?_cons_zero, Option.some.injEq] at hget
            rw [← hget] at hcact'
            exact absurd hcact' hact
          | succ k'' =>
            simp only [List.getElem?_cons_succ] at hget
            exact hearlier k'' c' (by omega) hget hcact'
        · intro c' hc' hcact'
          rcases List.mem_cons.mp hc' with rfl | hc'
          · exact absurd hcact' hact
          · exact hall c' hc' hcact'

/-- C14 (amended): `uct_select_child`, for every node with at least one
`ACTIVE` child, returns an `ACTIVE` child (never a `PRUNED` or `INVALID` one)
whose value `winrate + puct`, as the code computes it in floating point
(`child_value`), is maximal among the `ACTIVE` children; among children with
equal maximal computed value it returns the one earliest in the children
order. -/
theorem uct_select_child_argmax (num : Numerics) (cfg : Config) (n : UCTNode) (color : Int)
    (is_root : Bool) (hactive : ∃ c ∈ n.m_children, c.active = true) :
    ∃ i child, n.uct_select_child num cfg color is_root = some (i, child)
      ∧ n.m_children[i]? = some child
      ∧ child.m_status = Status.ACTIVE
      ∧ (∀ c ∈ n.m_children, c.active = true →
          UCTNode.child_value num cfg n color is_root c
            ≤ UCTNode.child_value num cfg n color is_root child)
      ∧ (∀ j c, j < i → n.m_children[j]? = some c → c.active = true →
          UCTNode.child_value num cfg n color is_root c
            < UCTNode.child_value num cfg n color is_root child) := by
  rcases select_loop_spec (UCTNode.child_value num cfg n color is_root) n.m_children 0 none with
    ⟨_, _, h3⟩ | ⟨k, c, hk, hcact, hres, _, hearlier, hall⟩
  · obtain ⟨c, hc, hcact⟩ := hactive
    rw [h3 rfl c hc] at hcact
    exact absurd hcact (by simp)
  · refine ⟨k, c, ?_, hk, ?_, ?_, ?_⟩
    · unfold UCTNode.uct_select_child
      rw [hres]
      simp [hk]
    · unfold UCTNode.active at hcact
      simpa using hcact
    · intro c' hc' hcact'
      exact hall c' hc' hcact'
    · intro j c' hj hget hcact'
      exact hearlier j c' hj hget hcact'

/-- Witness of C14 (amended): a root with an active child has a selected
child. -/
theorem uct_select_child_argmax_witness :
    (∃ c ∈ (Sample.root Sample.one_contender).m_children, c.active = true)
      ∧ ∃ i child, (Sample.root Sample.one_contender).uct_select_child Sample.numerics
          Sample.config FastBoard.BLACK true = some (i, child)
        ∧ child.m_status = Status.ACTIVE :=
  ⟨by decide!,
    (uct_select_child_argmax Sample.numerics Sample.config (Sample.root Sample.one_contender)
      FastBoard.BLACK true (by decide!)).imp fun _ h => h.imp fun _ h' => ⟨h'.1, h'.2.2.1⟩⟩

/-- C14 (counterexample): Black to move, `cfg_puct = 1`, three `ACTIVE`
children sorted by prior with 25 visits in all: move 72 (prior 1/2, 9 visits,
mean 0), move 73 (prior 25/64, 14 visits, mean 1/2) and move 74 (prior 5/64,
2 visits, mean 1/2).  The scores `q + u` of 73 and 74 are equal,
`1/2 + 25/192`, and maximal, so the claim has 73, the earlier one, selected.
The code computes `0.5 + 0.390625 * (5.0 / 15.0)` and `0.5 + 0.078125 * (5.0 /
3.0)` in `double`, which differ in the last bit, and selects 74. -/
theorem uct_select_child_tie_broken_by_rounding :
    (Sample.root Sample.tied_children).m_children.map
        (fun c => (c.m_move, c.m_score, c.m_visits, c.active))
        = [(72, 1 / 2, 9, true), (73, 25 / 64, 14, true), (74, 5 / 64, 2, true)]
      ∧ (Sample.root Sample.tied_children).m_children.map
          (UCTNode.spec_puct_score Sample.numerics Sample.config_puct1
            (Sample.root Sample.tied_children) FastBoard.BLACK false)
        = [1 / 4, 1 / 2 + 25 / 192, 1 / 2 + 25 / 192]
      ∧ (Sample.root Sample.tied_children).m_children.map
          (UCTNode.child_value Sample.numerics Sample.config_puct1
            (Sample.root Sample.tied_children) FastBoard.BLACK false)
        = [1 / 4, 2838206015165781 / 4503599627370496, 5676412030331563 / 9007199254740992]
      ∧ ((Sample.root Sample.tied_children).uct_select_child Sample.numerics
          Sample.config_puct1 FastBoard.BLACK false).map (fun r => (r.1, r.2.m_move))
        = some (2, 74) := by
  decide!

/-- C15 (amended): at the root with Dirichlet noise enabled (`is_root` and
`cfg_noise` both true) the fpu reduction is 0, so the first-play-urgency value
`uct_select_child` uses for unvisited children is the root's agent eval for
the side to move, for every value of that eval; it is 0.5 only with
`cfg_fpuzero`. -/
theorem fpu_eval_noisy_root (num : Numerics) (cfg : Config) (n : UCTNode) (color : Int)
    (hnoise : cfg.cfg_noise = true) :
    UCTNode.fpu_eval num cfg n color true
      = if cfg.cfg_fpuzero = true then 5 / 10 else n.get_agent_eval color := by
  unfold UCTNode.fpu_eval
  cases hz : cfg.cfg_fpuzero <;> simp [hnoise, float_sub]

/-- Witness of C15: the root with agent eval `0.8` and noise enabled. -/
theorem fpu_eval_noisy_root_witness :
    Sample.config_noise.cfg_noise = true
      ∧ UCTNode.fpu_eval Sample.numerics Sample.config_noise Sample.confident_root
          FastBoard.BLACK true
        = if Sample.config_noise.cfg_fpuzero = true then 5 / 10
          else Sample.confident_root.get_agent_eval FastBoard.BLACK :=
  ⟨rfl, fpu_eval_noisy_root Sample.numerics Sample.config_noise Sample.confident_root
    FastBoard.BLACK rfl⟩

/-- C15 (counterexample): at a root with noise enabled, `cfg_fpuzero` false
and agent eval `0.8` for Black to move, the fpu value is `0.8`, not `0.5`. -/
theorem fpu_eval_noisy_root_not_half :
    Sample.config_noise.cfg_noise = true
      ∧ Sample.confident_root.m_agent_eval = 8 / 10
      ∧ UCTNode.fpu_eval Sample.numerics Sample.config_noise Sample.confident_root
          FastBoard.BLACK true = 8 / 10
      ∧ UCTNode.fpu_eval Sample.numerics Sample.config_noise Sample.confident_root
          FastBoard.BLACK true ≠ 5 / 10 := by
  decide!

/-! ### Root management -/

/-- A new node counts no nodes below it. -/
theorem count_nodes_create (vertex : Int) (score : ℚ) :
    (UCTNode.create vertex score).count_nodes = 0 := by
  simp [UCTNode.create, UCTNode.count_nodes, UCTNode.count_nodes.count_below]

/-- C13: `update_root` discards the tree and installs a fresh root (move
`PASS`, prior 0, no children, node count 0, playout count 0) whenever
advancing fails; and `advance_to_new_rootstate` returns false if there is no
remembered last root state, if the komi differs from the last root state's
komi, if the new position has fewer moves than the last root (negative
depth), if the rolled-back position's hash differs from the last root's hash,
or if some replayed move has no matching child. -/
theorem update_root_fresh (rules : Rules) (s : UCTSearch) :
    ((UCTSearch.advance_to_new_rootstate rules s).1 = false →
        (UCTSearch.update_root rules s).m_root = UCTNode.create FastBoard.PASS 0
          ∧ (UCTSearch.update_root rules s).m_root.m_move = FastBoard.PASS
          ∧ (UCTSearch.update_root rules s).m_root.m_score = 0
          ∧ (UCTSearch.update_root rules s).m_root.m_children = []
          ∧ (UCTSearch.update_root rules s).m_nodes = 0
          ∧ (UCTSearch.update_root rules s).m_playouts = 0)
      ∧ (s.m_last_rootstate = none → (UCTSearch.advance_to_new_rootstate rules s).1 = false)
      ∧ (∀ last, s.m_last_rootstate = some last →
          (s.m_rootstate.komi ≠ last.komi
            ∨ s.m_rootstate.movenum < last.movenum
            ∨ last.hash
              ≠ (rules.undo_move^[s.m_rootstate.movenum - last.movenum] s.m_rootstate).hash
            ∨ (UCTSearch.replay_moves rules (s.m_rootstate.movenum - last.movenum)
                (rules.undo_move^[s.m_rootstate.movenum - last.movenum] s.m_rootstate)
                s.m_root last).1 = none) →
          (UCTSearch.advance_to_new_rootstate rules s).1 = false) := by
  refine ⟨?_, ?_, ?_⟩
  · intro hfail
    have hroot : (UCTSearch.update_root rules s).m_root = UCTNode.create FastBoard.PASS 0 := by
      unfold UCTSearch.update_root
      simp only [hfail]
    have hnodes : (UCTSearch.update_root rules s).m_nodes
        = ((UCTSearch.update_root rules s).m_root.count_nodes : Int) := rfl
    refine ⟨hroot, ?_, ?_, ?_, ?_, rfl⟩
    · rw [hroot]; rfl
    · rw [hroot]; rfl
    · rw [hroot]; rfl
    · rw [hnodes, hroot, count_nodes_create]
      rfl
  · intro hnone
    unfold UCTSearch.advance_to_new_rootstate
    rw [hnone]
  · intro last hlast hcases
    unfold UCTSearch.advance_to_new_rootstate
    rw [hlast]
    simp only
    by_cases hkomi : s.m_rootstate.komi ≠ last.komi
    · rw [if_pos hkomi]
    · rw [if_neg hkomi]
      by_cases hdepth : (s.m_rootstate.movenum : Int) - (last.movenum : Int) < 0
      · rw [if_pos hdepth]
      · rw [if_neg hdepth]
        have hge : last.movenum ≤ s.m_rootstate.movenum := by omega
        have htonat : ((s.m_rootstate.movenum : Int) - (last.movenum : Int)).toNat
            = s.m_rootstate.movenum - last.movenum := by omega
        rw [htonat]
        by_cases hhash : last.hash
            ≠ (rules.undo_move^[s.m_rootstate.movenum - last.movenum] s.m_rootstate).hash
        · rw [if_pos hhash]
        · rw [if_neg hhash]
          rcases hcases with h | h | h | h
          · exact absurd h hkomi
          · exact absurd h (by omega)
          · exact absurd h hhash
          · rw [h]

/-- Witness of C13: a search whose remembered last root state has another
komi gets a fresh root. -/
theorem update_root_fresh_witness :
    (UCTSearch.advance_to_new_rootstate Sample.rules Sample.search_other_komi).1 = false
      ∧ (UCTSearch.update_root Sample.rules Sample.search_other_komi).m_root.m_children = []
      ∧ (UCTSearch.update_root Sample.rules Sample.search_other_komi).m_nodes = 0 :=
  ⟨by decide!,
    ((update_root_fresh Sample.rules Sample.search_other_komi).1 (by decide!)).2.2.2.1,
    ((update_root_fresh Sample.rules Sample.search_other_komi).1 (by decide!)).2.2.2.2.1⟩

/-! ### Simulation: the steps of `play_simulation` -/

/-- The statistics, the move and the status of a node are not touched by
`link_nodelist`. -/
theorem link_nodelist_keeps (n : UCTNode) (nodecount : Int) (nodelist : List (ℚ × Int))
    (min_psa_ratio : ℚ) :
    (n.link_nodelist nodecount nodelist min_psa_ratio).1.m_visits = n.m_visits
      ∧ (n.link_nodelist nodecount nodelist min_psa_ratio).1.m_blackevals = n.m_blackevals
      ∧ (n.link_nodelist nodecount nodelist min_psa_ratio).1.m_virtual_loss = n.m_virtual_loss
      ∧ (n.link_nodelist nodecount nodelist min_psa_ratio).1.m_move = n.m_move
      ∧ (n.link_nodelist nodecount nodelist min_psa_ratio).1.m_status = n.m_status := by
  unfold UCTNode.link_nodelist
  cases stable_sort_reversed pair_less nodelist with
  | nil => exact ⟨rfl, rfl, rfl, rfl, rfl⟩
  | cons best rest => exact ⟨rfl, rfl, rfl, rfl, rfl⟩

/-- A `create_children` stopped by one of its guards returns the refusal. -/
theorem create_children_of_refused (ext : External) (cfg : Config) (n : UCTNode)
    (nodecount : Int) (state : GameState) (min_psa_ratio : ℚ)
    (h : n.m_min_psa_ratio_children ≤ min_psa_ratio ∨ 2 ≤ state.passes
      ∨ n.m_is_expanding = true) :
    n.create_children ext cfg nodecount state min_psa_ratio
      = { success := false, node := n, nodecount := nodecount, out := none, netcalls := 0 } := by
  unfold UCTNode.create_children
  by_cases h1 : n.expandable min_psa_ratio = true
  · by_cases h2 : state.passes ≥ 2
    · simp [h1, h2]
    · by_cases h3 : n.m_is_expanding = true
      · simp [h1, h2, h3]
      · exfalso
        rcases h with h | h | h
        · unfold UCTNode.expandable at h1
          exact absurd (of_decide_eq_true h1) (not_lt.mpr h)
        · exact h2 h
        · exact h3 h
  · simp [h1]

/-- A `create_children` that passes its guards succeeds. -/
theorem create_children_of_guards (ext : External) (cfg : Config) (n : UCTNode)
    (nodecount : Int) (state : GameState) (min_psa_ratio : ℚ)
    (g1 : min_psa_ratio < n.m_min_psa_ratio_children) (g2 : state.passes < 2)
    (g3 : n.m_is_expanding = false) :
    (n.create_children ext cfg nodecount state min_psa_ratio).success = true := by
  have e1 : n.expandable min_psa_ratio = true := by
    unfold UCTNode.expandable
    exact decide_eq_true g1
  have e2 : ¬ state.passes ≥ 2 := not_le.mpr g2
  unfold UCTNode.create_children
  simp only [e1, e2, g3, Bool.not_true, Bool.false_eq_true, if_false]

/-- A `create_children` that does not succeed leaves the node and the node
count as they are. -/
theorem create_children_not_success (ext : External) (cfg : Config) (n : UCTNode)
    (nodecount : Int) (state : GameState) (min_psa_ratio : ℚ)
    (h : (n.create_children ext cfg nodecount state min_psa_ratio).success = false) :
    (n.create_children ext cfg nodecount state min_psa_ratio).node = n
      ∧ (n.create_children ext cfg nodecount state min_psa_ratio).nodecount = nodecount := by
  have hor : n.m_min_psa_ratio_children ≤ min_psa_ratio ∨ 2 ≤ state.passes
      ∨ n.m_is_expanding = true := by
    by_contra hno
    simp only [not_or, not_le, Bool.not_eq_true] at hno
    rw [create_children_of_guards ext cfg n nodecount state min_psa_ratio hno.1 hno.2.1
      hno.2.2] at h
    exact absurd h (by simp)
  rw [create_children_of_refused ext cfg n nodecount state min_psa_ratio hor]
  exact ⟨rfl, rfl⟩

/-- The statistics, the move and the status of a node are not touched by
`create_children`. -/
theorem create_children_keeps (ext : External) (cfg : Config) (n : UCTNode)
    (nodecount : Int) (state : GameState) (min_psa_ratio : ℚ) :
    (n.create_children ext cfg nodecount state min_psa_ratio).node.m_visits = n.m_visits
      ∧ (n.create_children ext cfg nodecount state min_psa_ratio).node.m_blackevals
        = n.m_blackevals
      ∧ (n.create_children ext cfg nodecount state min_psa_ratio).node.m_virtual_loss
        = n.m_virtual_loss
      ∧ (n.create_children ext cfg nodecount state min_psa_ratio).node.m_move = n.m_move
      ∧ (n.create_children ext cfg nodecount state min_psa_ratio).node.m_status = n.m_status := by
  cases hsucc : (n.create_children ext cfg nodecount state min_psa_ratio).success with
  | false =>
    rw [(create_children_not_success ext cfg n nodecount state min_psa_ratio hsucc).1]
    exact ⟨rfl, rfl, rfl, rfl, rfl⟩
  | true =>
    obtain ⟨g1, g2, g3⟩ :=
      create_children_success_guards ext cfg n nodecount state min_psa_ratio hsucc
    have e1 : n.expandable min_psa_ratio = true := by
      unfold UCTNode.expandable
      exact decide_eq_true g1
    have e2 : ¬ state.passes ≥ 2 := not_le.mpr g2
    unfold UCTNode.create_children
    simp only [e1, e2, g3, Bool.not_true, Bool.false_eq_true, if_false]
    cases cfg.is_mult_komi_net
    · exact link_nodelist_keeps _ _ _ _
    · exact link_nodelist_keeps _ _ _ _

/-- The children after `create_children`: the old children, followed by new
nodes made by the constructor. -/
theorem create_children_appends (ext : External) (cfg : Config) (n : UCTNode)
    (nodecount : Int) (state : GameState) (min_psa_ratio : ℚ) :
    ∃ added : List UCTNode,
      (n.create_children ext cfg nodecount state min_psa_ratio).node.m_children
          = n.m_children ++ added
        ∧ ∀ c ∈ added, ∃ vertex score, c = UCTNode.create vertex score := by
  cases hsucc : (n.create_children ext cfg nodecount state min_psa_ratio).success with
  | false =>
    refine ⟨[], ?_, by simp⟩
    rw [(create_children_not_success ext cfg n nodecount state min_psa_ratio hsucc).1,
      List.append_nil]
  | true =>
    cases hs : stable_sort_reversed pair_less
        (UCTNode.normalized_nodelist state (ext.get_scored_moves state)) with
    | nil => exact absurd hs (sorted_nodelist_ne_nil state _)
    | cons best rest =>
      refine ⟨_, create_children_children ext cfg n nodecount state min_psa_ratio hsucc best
        rest hs, ?_⟩
      intro c hc
      obtain ⟨p, _, rfl⟩ := List.mem_map.mp hc
      exact ⟨p.2, p.1, rfl⟩

/-- The expansion step of `play_simulation` keeps the statistics, the move
and the status of the node, and appends new nodes made by the constructor to
its children. -/
theorem expand_phase_keeps (env : SimEnv) (s : UCTSearch) (currstate : GameState)
    (node : UCTNode) :
    (UCTSearch.expand_phase env s currstate node).2.1.m_visits = node.m_visits
      ∧ (UCTSearch.expand_phase env s currstate node).2.1.m_blackevals = node.m_blackevals
      ∧ (UCTSearch.expand_phase env s currstate node).2.1.m_virtual_loss = node.m_virtual_loss
      ∧ (UCTSearch.expand_phase env s currstate node).2.1.m_move = node.m_move
      ∧ (UCTSearch.expand_phase env s currstate node).2.1.m_status = node.m_status
      ∧ ∃ added : List UCTNode,
          (UCTSearch.expand_phase env s currstate node).2.1.m_children
              = node.m_children ++ added
            ∧ ∀ c ∈ added, ∃ vertex score, c = UCTNode.create vertex score := by
  have hsame : node.m_visits = node.m_visits ∧ node.m_blackevals = node.m_blackevals
      ∧ node.m_virtual_loss = node.m_virtual_loss ∧ node.m_move = node.m_move
      ∧ node.m_status = node.m_status
      ∧ ∃ added : List UCTNode, node.m_children = node.m_children ++ added
        ∧ ∀ c ∈ added, ∃ vertex score, c = UCTNode.create vertex score :=
    ⟨rfl, rfl, rfl, rfl, rfl, [], by simp, by simp⟩
  have hcreate := create_children_keeps env.ext s.cfg node s.m_nodes currstate
    s.get_min_psa_ratio
  have happ := create_children_appends env.ext s.cfg node s.m_nodes currstate
    s.get_min_psa_ratio
  unfold UCTSearch.expand_phase
  by_cases h1 : node.expandable 0 = true
  · rw [if_pos h1]
    by_cases h2 : currstate.passes ≥ 2
    · rw [if_pos h2]
      exact hsame
    · rw [if_neg h2]
      by_cases h3 : s.m_nodes < s.cfg.MAX_TREE_SIZE
      · rw [if_pos h3]
        simp only
        split_ifs
        · exact ⟨hcreate.1, hcreate.2.1, hcreate.2.2.1, hcreate.2.2.2.1, hcreate.2.2.2.2, happ⟩
        · exact ⟨hcreate.1, hcreate.2.1, hcreate.2.2.1, hcreate.2.2.2.1, hcreate.2.2.2.2, happ⟩
      · rw [if_neg h3]
        exact hsame
  · rw [if_neg h1]
    exact hsame

/-- What the end of `play_simulation` does to a node: it keeps the children,
the move, the status and `eval_bonus`, takes the virtual loss back, and adds
one visit and the backup value exactly when the result is valid. -/
theorem backup_phase_spec (env : SimEnv) (s : UCTSearch) (result : SearchResult)
    (node : UCTNode) :
    (UCTSearch.backup_phase env s result node).m_children = node.m_children
      ∧ (UCTSearch.backup_phase env s result node).m_move = node.m_move
      ∧ (UCTSearch.backup_phase env s result node).m_status = node.m_status
      ∧ (UCTSearch.backup_phase env s result node).m_virtual_loss
        = node.m_virtual_loss - VIRTUAL_LOSS_COUNT
      ∧ (UCTSearch.backup_phase env s result node).m_visits
        = node.m_visits + (if result.valid = true then 1 else 0)
      ∧ (UCTSearch.backup_phase env s result node).m_blackevals
        = node.m_blackevals
          + (if result.valid = true
              then UCTSearch.backup_value env s result (UCTSearch.backup_phase env s result node)
              else 0) := by
  unfold UCTSearch.backup_phase
  cases hv : result.valid
  · simp [UCTNode.virtual_loss_undo]
  · simp [UCTNode.virtual_loss_undo, UCTNode.update, UCTSearch.backup_value,
      UCTNode.get_eval_bonus]

/-- The child `uct_select_child` returns is the child at the returned
index, and it is active. -/
theorem uct_select_child_some (num : Numerics) (cfg : Config) (n : UCTNode) (color : Int)
    (is_root : Bool) (i : Nat) (next : UCTNode)
    (h : n.uct_select_child num cfg color is_root = some (i, next)) :
    n.m_children[i]? = some next := by
  unfold UCTNode.uct_select_child at h
  cases hsel : UCTNode.select_loop (UCTNode.child_value num cfg n color is_root)
      n.m_children 0 none with
  | none => rw [hsel] at h; exact absurd h (by simp)
  | some b =>
    rw [hsel] at h
    simp only at h
    cases hget : n.m_children[b.1]? with
    | none => rw [hget] at h; exact absurd h (by simp)
    | some child =>
      rw [hget] at h
      simp only [Option.some.injEq, Prod.mk.injEq] at h
      rw [← h.1, ← h.2]
      exact hget

/-- The three ways a call of `play_simulation` with fuel ends with a result:
without a descent; with a descent stopped by superko, which invalidates the
selected child; or with a descent into the selected child. -/
theorem play_simulation_done_cases (env : SimEnv) (fuel : Nat) (s : UCTSearch)
    (currstate : GameState) (node : UCTNode) (is_root : Bool) (r : SearchResult)
    (node' : UCTNode) (nodes : Int)
    (h : UCTSearch.play_simulation env (fuel + 1) s currstate node is_root
      = Simulation.done r node' nodes) :
    (¬ ((UCTSearch.expand_phase env s currstate node.virtual_loss).2.1.has_children = true
          ∧ (UCTSearch.expand_phase env s currstate node.virtual_loss).1.valid = false)
        ∧ r = (UCTSearch.expand_phase env s currstate node.virtual_loss).1
        ∧ node' = UCTSearch.backup_phase env s r
            (UCTSearch.expand_phase env s currstate node.virtual_loss).2.1
        ∧ nodes = (UCTSearch.expand_phase env s currstate node.virtual_loss).2.2)
      ∨ ∃ i next,
          (UCTSearch.expand_phase env s currstate node.virtual_loss).2.1.has_children = true
          ∧ (UCTSearch.expand_phase env s currstate node.virtual_loss).1.valid = false
          ∧ (UCTSearch.expand_phase env s currstate node.virtual_loss).2.1.uct_select_child
              env.num s.cfg currstate.to_move is_root = some (i, next)
          ∧ ((next.get_move ≠ FastBoard.PASS
                ∧ env.rules.superko (env.rules.play_move currstate next.get_move) = true
                ∧ r = (UCTSearch.expand_phase env s currstate node.virtual_loss).1
                ∧ node' = UCTSearch.backup_phase env s r
                    { (UCTSearch.expand_phase env s currstate node.virtual_loss).2.1 with
                      m_children :=
                        (UCTSearch.expand_phase env s currstate
                          node.virtual_loss).2.1.m_children.set i next.invalidate }
                ∧ nodes = (UCTSearch.expand_phase env s currstate node.virtual_loss).2.2)
              ∨ (¬ (next.get_move ≠ FastBoard.PASS
                    ∧ env.rules.superko (env.rules.play_move currstate next.get_move) = true)
                ∧ ∃ next',
                    UCTSearch.play_simulation env fuel
                        { s with m_nodes :=
                            (UCTSearch.expand_phase env s currstate node.virtual_loss).2.2 }
                        (env.rules.play_move currstate next.get_move) next false
                      = Simulation.done r next' nodes
                    ∧ node' = UCTSearch.backup_phase env s r
                        { (UCTSearch.expand_phase env s currstate node.virtual_loss).2.1 with
                          m_children :=
                            (UCTSearch.expand_phase env s currstate
                              node.virtual_loss).2.1.m_children.set i next' })) := by
  unfold UCTSearch.play_simulation at h
  simp only at h
  by_cases hd : (UCTSearch.expand_phase env s currstate node.virtual_loss).2.1.has_children = true
      ∧ (UCTSearch.expand_phase env s currstate node.virtual_loss).1.valid = false
  · right
    have hcond : ((UCTSearch.expand_phase env s currstate node.virtual_loss).2.1.has_children
        && !(UCTSearch.expand_phase env s currstate node.virtual_loss).1.valid) = true := by
      simp [hd.1, hd.2]
    rw [if_pos hcond] at h
    cases hsel : (UCTSearch.expand_phase env s currstate node.virtual_loss).2.1.uct_select_child
        env.num s.cfg currstate.to_move is_root with
    | none => rw [hsel] at h; exact absurd h (by simp)
    | some b =>
      obtain ⟨i, next⟩ := b
      rw [hsel] at h
      simp only at h
      refine ⟨i, next, hd.1, hd.2, rfl, ?_⟩
      by_cases hko : next.get_move ≠ FastBoard.PASS
          ∧ env.rules.superko (env.rules.play_move currstate next.get_move) = true
      · left
        rw [if_pos hko] at h
        injection h with h1 h2 h3
        exact ⟨hko.1, hko.2, h1.symm, by rw [← h2, ← h1], h3.symm⟩
      · right
        rw [if_neg hko] at h
        refine ⟨hko, ?_⟩
        cases hrec : UCTSearch.play_simulation env fuel
            { s with m_nodes :=
                (UCTSearch.expand_phase env s currstate node.virtual_loss).2.2 }
            (env.rules.play_move currstate next.get_move) next false with
        | done r2 next2 nodes2 =>
          rw [hrec] at h
          simp only at h
          injection h with h1 h2 h3
          exact ⟨next2, by rw [h1, h3], by rw [← h2, ← h1]⟩
        | no_active_child => rw [hrec] at h; exact absurd h (by simp)
        | out_of_fuel => rw [hrec] at h; exact absurd h (by simp)
  · left
    have hcond : ¬ ((UCTSearch.expand_phase env s currstate node.virtual_loss).2.1.has_children
        && !(UCTSearch.expand_phase env s currstate node.virtual_loss).1.valid) = true := by
      intro hc
      apply hd
      simpa using hc
    rw [if_neg hcond] at h
    injection h with h1 h2 h3
    exact ⟨hd, h1.symm, by rw [← h2, ← h1], h3.symm⟩

/-! ### Simulation: the tree before and after -/

/-- The node under a path that starts with the child index `i`. -/
theorem subnode_cons (n : UCTNode) (i : Nat) (rest : List Nat) :
    n.subnode (i :: rest)
      = match n.m_children[i]? with
        | none => none
        | some child => child.subnode rest := rfl

/-- The only node below a node without children is the node itself. -/
theorem subnode_of_no_children (c : UCTNode) (hc : c.m_children = []) (path : List Nat)
    (n : UCTNode) (h : c.subnode path = some n) : path = [] ∧ n = c := by
  cases path with
  | nil =>
    simp only [UCTNode.subnode, Option.some.injEq] at h
    exact ⟨rfl, h.symm⟩
  | cons i rest =>
    rw [subnode_cons, hc] at h
    simp at h

/-- The root lies on every descent of a valid result. -/
theorem on_descent_nil (valid : Bool) (descent : List Nat) :
    on_descent valid descent [] = valid := by
  simp [on_descent, List.isPrefixOf]

/-- A path through the child the descent goes through lies on the descent
when its rest lies on the rest of the descent. -/
theorem on_descent_cons_same (valid : Bool) (i : Nat) (descent path : List Nat) :
    on_descent valid (i :: descent) (i :: path) = on_descent valid descent path := by
  simp [on_descent]

/-- A path through another child than the one the descent goes through does
not lie on the descent. -/
theorem on_descent_cons_ne (valid : Bool) (i j : Nat) (descent path : List Nat) (h : j ≠ i) :
    on_descent valid (i :: descent) (j :: path) = false := by
  unfold on_descent
  rw [List.isPrefixOf_cons₂]
  simp [h]

/-- Below the end of the descent nothing lies on the descent. -/
theorem on_descent_end (valid : Bool) (j : Nat) (path : List Nat) :
    on_descent valid [] (j :: path) = false := by
  simp [on_descent, List.isPrefixOf]

/-- Nothing lies on the descent of a result that is not valid. -/
theorem on_descent_invalid (descent path : List Nat) :
    on_descent false descent path = false := by
  simp [on_descent]

/-- A node made by the constructor has no children and empty statistics. -/
theorem create_is_fresh (c : UCTNode) (h : ∃ vertex score, c = UCTNode.create vertex score) :
    c.m_children = [] ∧ c.m_visits = 0 ∧ c.m_blackevals = 0 ∧ c.m_virtual_loss = 0 := by
  obtain ⟨vertex, score, rfl⟩ := h
  exact ⟨rfl, rfl, rfl, rfl⟩

/-- The frame of a call that ends without a descent: the node gets new
children appended, and its own statistics are backed up. -/
theorem frame_leaf (w : UCTNode → ℚ) (valid : Bool) (old new : UCTNode) (added : List UCTNode)
    (hfresh : ∀ c ∈ added, ∃ vertex score, c = UCTNode.create vertex score)
    (hkids : new.m_children = old.m_children ++ added)
    (hmove : new.m_move = old.m_move) (hstatus : new.m_status = old.m_status)
    (hvl : new.m_virtual_loss = old.m_virtual_loss)
    (hvis : new.m_visits = old.m_visits + (if valid = true then 1 else 0))
    (hbe : new.m_blackevals = old.m_blackevals + (if valid = true then w new else 0)) :
    BackupFrame w valid [] old new := by
  constructor
  · intro path n0 h0
    cases path with
    | nil =>
      simp only [UCTNode.subnode, Option.some.injEq] at h0
      subst h0
      refine ⟨new, rfl, hmove, fun _ => hstatus, hvl, ?_, ?_⟩
      · rw [on_descent_nil]; exact hvis
      · rw [on_descent_nil]; exact hbe
    | cons j p =>
      rw [subnode_cons] at h0
      cases hj : old.m_children[j]? with
      | none => rw [hj] at h0; exact absurd h0 (by simp)
      | some c =>
        rw [hj] at h0
        have hjlt : j < old.m_children.length := (List.getElem?_eq_some.mp hj).1
        have hnew : new.m_children[j]? = some c := by
          rw [hkids, List.getElem?_append_left hjlt, hj]
        refine ⟨n0, ?_, rfl, fun _ => rfl, rfl, ?_, ?_⟩
        · rw [subnode_cons, hnew]; exact h0
        · rw [on_descent_end]; simp
        · rw [on_descent_end]; simp
  · intro path n1 hnone h1
    cases path with
    | nil => simp [UCTNode.subnode] at hnone
    | cons j p =>
      rw [on_descent_end]
      rw [subnode_cons] at hnone h1
      cases hj : new.m_children[j]? with
      | none => rw [hj] at h1; exact absurd h1 (by simp)
      | some c =>
        rw [hj] at h1
        simp only at h1
        rw [hkids] at hj
        by_cases hjlt : j < old.m_children.length
        · rw [List.getElem?_append_left hjlt] at hj
          rw [hj] at hnone
          simp only at hnone
          rw [hnone] at h1
          exact absurd h1 (by simp)
        · rw [List.getElem?_append_right (not_lt.mp hjlt)] at hj
          obtain ⟨hc, hv, hb, hl⟩ := create_is_fresh c (hfresh c (List.getElem?_mem hj))
          obtain ⟨_, rfl⟩ := subnode_of_no_children c hc p n1 h1
          simp [hv, hb, hl]

/-- The frame of a call that descends into the child with index `i`: the
node gets new children appended, the selected child `next` becomes `next'`
with a frame of its own, and the node's own statistics are backed up. -/
theorem frame_build (w : UCTNode → ℚ) (valid : Bool) (descent : List Nat)
    (old new next next' : UCTNode) (added : List UCTNode) (i : Nat)
    (hfresh : ∀ c ∈ added, ∃ vertex score, c = UCTNode.create vertex score)
    (hnext : (old.m_children ++ added)[i]? = some next)
    (hkids : new.m_children = (old.m_children ++ added).set i next')
    (hframe : BackupFrame w valid descent next next')
    (hmove : new.m_move = old.m_move) (hstatus : new.m_status = old.m_status)
    (hvl : new.m_virtual_loss = old.m_virtual_loss)
    (hvis : new.m_visits = old.m_visits + (if valid = true then 1 else 0))
    (hbe : new.m_blackevals = old.m_blackevals + (if valid = true then w new else 0)) :
    BackupFrame w valid (i :: descent) old new := by
  have hilt : i < (old.m_children ++ added).length := (List.getElem?_eq_some.mp hnext).1
  have hnewi : new.m_children[i]? = some next' := by
    rw [hkids, List.getElem?_set_self hilt]
  have hnewj : ∀ j, j ≠ i → new.m_children[j]? = (old.m_children ++ added)[j]? := by
    intro j hj
    rw [hkids, List.getElem?_set_ne (Ne.symm hj)]
  constructor
  · intro path n0 h0
    cases path with
    | nil =>
      simp only [UCTNode.subnode, Option.some.injEq] at h0
      subst h0
      refine ⟨new, rfl, hmove, fun _ => hstatus, hvl, ?_, ?_⟩
      · rw [on_descent_nil]; exact hvis
      · rw [on_descent_nil]; exact hbe
    | cons j p =>
      rw [subnode_cons] at h0
      cases hj : old.m_children[j]? with
      | none => rw [hj] at h0; exact absurd h0 (by simp)
      | some c =>
        rw [hj] at h0
        simp only at h0
        have hjlt : j < old.m_children.length := (List.getElem?_eq_some.mp hj).1
        by_cases hji : j = i
        · subst hji
          rw [List.getElem?_append_left hjlt, hj] at hnext
          have hcn : c = next := Option.some.inj hnext
          rw [hcn] at h0
          obtain ⟨n1, h1, hm, hs, hl, hv, hb⟩ := hframe.1 p n0 h0
          refine ⟨n1, ?_, hm, hs, hl, ?_, ?_⟩
          · rw [subnode_cons, hnewi]; exact h1
          · rw [on_descent_cons_same]; exact hv
          · rw [on_descent_cons_same]; exact hb
        · refine ⟨n0, ?_, rfl, fun _ => rfl, rfl, ?_, ?_⟩
          · rw [subnode_cons, hnewj j hji, List.getElem?_append_left hjlt, hj]; exact h0
          · rw [on_descent_cons_ne valid i j descent p hji]; simp
          · rw [on_descent_cons_ne valid i j descent p hji]; simp
  · intro path n1 hnone h1
    cases path with
    | nil => simp [UCTNode.subnode] at hnone
    | cons j p =>
      rw [subnode_cons] at hnone h1
      by_cases hji : j = i
      · subst hji
        rw [on_descent_cons_same]
        rw [hnewi] at h1
        simp only at h1
        cases hnp : next.subnode p with
        | none => exact hframe.2 p n1 hnp h1
        | some n0 =>
          obtain ⟨n1', h1', _, _, hl, hv, hb⟩ := hframe.1 p n0 hnp
          rw [h1] at h1'
          have hn : n1 = n1' := Option.some.inj h1'
          subst hn
          by_cases hjlt : j < old.m_children.length
          · rw [List.getElem?_append_left hjlt] at hnext
            rw [hnext] at hnone
            simp only at hnone
            rw [hnone] at hnp
            exact absurd hnp (by simp)
          · rw [List.getElem?_append_right (not_lt.mp hjlt)] at hnext
            obtain ⟨hc, hv0, hb0, hl0⟩ :=
              create_is_fresh next (hfresh next (List.getElem?_mem hnext))
            obtain ⟨_, rfl⟩ := subnode_of_no_children next hc p n0 hnp
            rw [hv0] at hv
            rw [hb0] at hb
            rw [hl0] at hl
            exact ⟨hl, by rw [hv, zero_add], by rw [hb, zero_add]⟩
      · rw [on_descent_cons_ne valid i j descent p hji]
        rw [hnewj j hji] at h1
        cases hj : (old.m_children ++ added)[j]? with
        | none => rw [hj] at h1; exact absurd h1 (by simp)
        | some c =>
          rw [hj] at h1
          simp only at h1
          by_cases hjlt : j < old.m_children.length
          · rw [List.getElem?_append_left hjlt] at hj
            rw [hj] at hnone
            simp only at hnone
            rw [hnone] at h1
            exact absurd h1 (by simp)
          · rw [List.getElem?_append_right (not_lt.mp hjlt)] at hj
            obtain ⟨hc, hv, hb, hl⟩ := create_is_fresh c (hfresh c (List.getElem?_mem hj))
            obtain ⟨_, rfl⟩ := subnode_of_no_children c hc p n1 h1
            simp [hv, hb, hl]

/-- Invalidating a node changes neither its move, nor its statistics, nor the
tree below it; it changes the status of a node that is not a pass only. -/
theorem frame_invalidate (w : UCTNode → ℚ) (descent : List Nat) (next : UCTNode)
    (hmove : next.m_move ≠ FastBoard.PASS) :
    BackupFrame w false descent next next.invalidate := by
  constructor
  · intro path n0 h0
    cases path with
    | nil =>
      simp only [UCTNode.subnode, Option.some.injEq] at h0
      subst h0
      refine ⟨next.invalidate, rfl, rfl, fun h => absurd h hmove, rfl, ?_, ?_⟩
      · rw [on_descent_invalid]; simp [UCTNode.invalidate]
      · rw [on_descent_invalid]; simp [UCTNode.invalidate]
    | cons j p =>
      refine ⟨n0, ?_, rfl, fun _ => rfl, rfl, ?_, ?_⟩
      · rw [subnode_cons] at h0 ⊢
        exact h0
      · rw [on_descent_invalid]; simp
      · rw [on_descent_invalid]; simp
  · intro path n1 hnone h1
    cases path with
    | nil => simp [UCTNode.subnode] at hnone
    | cons j p =>
      rw [subnode_cons] at hnone h1
      have : (next.invalidate).m_children = next.m_children := rfl
      rw [this, hnone] at h1
      exact absurd h1 (by simp)

/-- The frame of `play_simulation`: whenever a call ends with a result, there
is a descent path such that the tree below the node before and after the call
are related by `BackupFrame` for the backup value of the result, and the
descent ends at a node of the tree after the call. -/
theorem play_simulation_frame (env : SimEnv) :
    ∀ (fuel : Nat) (s : UCTSearch) (currstate : GameState) (node : UCTNode) (is_root : Bool)
      (r : SearchResult) (node' : UCTNode) (nodes : Int),
      UCTSearch.play_simulation env fuel s currstate node is_root
          = Simulation.done r node' nodes →
        ∃ descent : List Nat,
          BackupFrame (UCTSearch.backup_value env s r) r.valid descent node node'
            ∧ (node'.subnode descent).isSome = true := by
  intro fuel
  induction fuel with
  | zero =>
    intro s currstate node is_root r node' nodes h
    simp [UCTSearch.play_simulation] at h
  | succ fuel ih =>
    intro s currstate node is_root r node' nodes h
    obtain ⟨kv, kb, kl, km, ks, added, hadd, hfresh⟩ :=
      expand_phase_keeps env s currstate node.virtual_loss
    have hadd' : (UCTSearch.expand_phase env s currstate node.virtual_loss).2.1.m_children
        = node.m_children ++ added := hadd
    have kv' : (UCTSearch.expand_phase env s currstate node.virtual_loss).2.1.m_visits
        = node.m_visits := kv
    have kb' : (UCTSearch.expand_phase env s currstate node.virtual_loss).2.1.m_blackevals
        = node.m_blackevals := kb
    have kl' : (UCTSearch.expand_phase env s currstate node.virtual_loss).2.1.m_virtual_loss
        = node.m_virtual_loss + VIRTUAL_LOSS_COUNT := kl
    have km' : (UCTSearch.expand_phase env s currstate node.virtual_loss).2.1.m_move
        = node.m_move := km
    have ks' : (UCTSearch.expand_phase env s currstate node.virtual_loss).2.1.m_status
        = node.m_status := ks
    rcases play_simulation_done_cases env fuel s currstate node is_root r node' nodes h with
      ⟨_, _, hnode, _⟩ | ⟨i, next, _, hinv, hsel, hko | hrec⟩
    · -- no descent
      obtain ⟨bc, bm, bs, bl, bv, bb⟩ := backup_phase_spec env s r
        (UCTSearch.expand_phase env s currstate node.virtual_loss).2.1
      rw [← hnode] at bc bm bs bl bv bb
      refine ⟨[], frame_leaf _ _ node node' added hfresh (by rw [bc, hadd'])
        (by rw [bm, km']) (by rw [bs, ks']) (by rw [bl, kl']; ring) (by rw [bv, kv'])
        (by rw [bb, kb']), rfl⟩
    · -- superko
      obtain ⟨hmove, _, hr, hnode, _⟩ := hko
      have hvalid : r.valid = false := by rw [hr]; exact hinv
      obtain ⟨bc, bm, bs, bl, bv, bb⟩ := backup_phase_spec env s r
        { (UCTSearch.expand_phase env s currstate node.virtual_loss).2.1 with
          m_children := (UCTSearch.expand_phase env s currstate
            node.virtual_loss).2.1.m_children.set i next.invalidate }
      rw [← hnode] at bc bm bs bl bv bb
      have hnext := uct_select_child_some _ _ _ _ _ _ _ hsel
      rw [hadd'] at hnext
      have hilt : i < (node.m_children ++ added).length := (List.getElem?_eq_some.mp hnext).1
      have hframe := frame_build (UCTSearch.backup_value env s r) r.valid [] node node' next
        next.invalidate added i hfresh hnext (by rw [bc]; simp only; rw [hadd'])
        (by rw [hvalid]; exact frame_invalidate _ _ next hmove)
        (by rw [bm]; exact km') (by rw [bs]; exact ks')
        (by rw [bl]; simp only; rw [kl']; ring) (by rw [bv]; simp only; rw [kv'])
        (by rw [bb]; simp only; rw [kb'])
      refine ⟨[i], hframe, ?_⟩
      rw [subnode_cons, bc]
      simp only
      rw [hadd', List.getElem?_set_self hilt]
      rfl
    · -- descent into the selected child
      obtain ⟨_, next', hcall, hnode⟩ := hrec
      obtain ⟨descent, hsub, hend⟩ := ih _ _ _ _ _ _ _ hcall
      obtain ⟨bc, bm, bs, bl, bv, bb⟩ := backup_phase_spec env s r
        { (UCTSearch.expand_phase env s currstate node.virtual_loss).2.1 with
          m_children := (UCTSearch.expand_phase env s currstate
            node.virtual_loss).2.1.m_children.set i next' }
      rw [← hnode] at bc bm bs bl bv bb
      have hnext := uct_select_child_some _ _ _ _ _ _ _ hsel
      rw [hadd'] at hnext
      have hilt : i < (node.m_children ++ added).length := (List.getElem?_eq_some.mp hnext).1
      have hframe := frame_build (UCTSearch.backup_value env s r) r.valid descent node node'
        next next' added i hfresh hnext (by rw [bc]; simp only; rw [hadd'])
        hsub
        (by rw [bm]; exact km') (by rw [bs]; exact ks')
        (by rw [bl]; simp only; rw [kl']; ring) (by rw [bv]; simp only; rw [kv'])
        (by rw [bb]; simp only; rw [kb'])
      refine ⟨i :: descent, hframe, ?_⟩
      rw [subnode_cons, bc]
      simp only
      rw [hadd', List.getElem?_set_self hilt]
      exact hend

/-! ### Simulation: the visits invariant -/

/-- The visits invariant holds below a node exactly when it holds at the node
and below each of its children. -/
theorem visits_invariant_iff (n : UCTNode) :
    visits_invariant n ↔
      ((n.m_children.map (fun c => c.m_visits)).sum ≤ n.m_visits
        ∧ ∀ c ∈ n.m_children, visits_invariant c) := by
  constructor
  · intro h
    refine ⟨h [] n rfl, ?_⟩
    intro c hc path m hm
    obtain ⟨j, hj⟩ := List.mem_iff_getElem?.mp hc
    apply h (j :: path) m
    rw [subnode_cons, hj]
    exact hm
  · rintro ⟨hlocal, hchildren⟩ path m hm
    cases path with
    | nil =>
      simp only [UCTNode.subnode, Option.some.injEq] at hm
      rw [← hm]
      exact hlocal
    | cons j p =>
      rw [subnode_cons] at hm
      cases hj : n.m_children[j]? with
      | none => rw [hj] at hm; exact absurd hm (by simp)
      | some c =>
        rw [hj] at hm
        exact hchildren c (List.getElem?_mem hj) p m hm

/-- Replacing the element `c` at index `i` of a list by `c'` changes the sum
of `f` over the list by `f c' - f c`. -/
theorem sum_map_set (f : UCTNode → Int) (l : List UCTNode) :
    ∀ (i : Nat) (c c' : UCTNode), l[i]? = some c →
      ((l.set i c').map f).sum = (l.map f).sum - f c + f c' := by
  induction l with
  | nil => intro i c c' h; simp at h
  | cons a t ih =>
    intro i c c' h
    cases i with
    | zero =>
      simp only [List.getElem?_cons_zero, Option.some.injEq] at h
      subst h
      simp only [List.set_cons_zero, List.map_cons, List.sum_cons]
      ring
    | succ k =>
      simp only [List.getElem?_cons_succ] at h
      simp only [List.set_cons_succ, List.map_cons, List.sum_cons, ih k c c' h]
      ring

/-- New nodes add nothing to the sum of the visits of the children. -/
theorem sum_visits_append_fresh (l added : List UCTNode)
    (hfresh : ∀ c ∈ added, ∃ vertex score, c = UCTNode.create vertex score) :
    ((l ++ added).map (fun c => c.m_visits)).sum = (l.map (fun c => c.m_visits)).sum := by
  rw [List.map_append, List.sum_append]
  have hz : (added.map (fun c => c.m_visits)).sum = 0 := by
    apply List.sum_eq_zero
    intro x hx
    obtain ⟨c, hc, rfl⟩ := List.mem_map.mp hx
    exact (create_is_fresh c (hfresh c hc)).2.1
  rw [hz, add_zero]

/-- The visits invariant holds below a node made by the constructor. -/
theorem visits_invariant_fresh (c : UCTNode)
    (h : ∃ vertex score, c = UCTNode.create vertex score) : visits_invariant c := by
  obtain ⟨hc, hv, _, _⟩ := create_is_fresh c h
  rw [visits_invariant_iff, hc, hv]
  simp

/-- A call of `play_simulation` that ends with a result keeps the visits
invariant of the tree below the node, and gives the node itself one more
visit exactly when the result is valid. -/
theorem play_simulation_invariant (env : SimEnv) :
    ∀ (fuel : Nat) (s : UCTSearch) (currstate : GameState) (node : UCTNode) (is_root : Bool)
      (r : SearchResult) (node' : UCTNode) (nodes : Int),
      UCTSearch.play_simulation env fuel s currstate node is_root
          = Simulation.done r node' nodes →
        visits_invariant node →
        visits_invariant node'
          ∧ node'.m_visits = node.m_visits + (if r.valid = true then 1 else 0) := by
  intro fuel
  induction fuel with
  | zero =>
    intro s currstate node is_root r node' nodes h
    simp [UCTSearch.play_simulation] at h
  | succ fuel ih =>
    intro s currstate node is_root r node' nodes h hinv
    obtain ⟨hlocal, hchildren⟩ := (visits_invariant_iff node).mp hinv
    obtain ⟨kv, _, _, _, _, added, hadd, hfresh⟩ :=
      expand_phase_keeps env s currstate node.virtual_loss
    have hadd' : (UCTSearch.expand_phase env s currstate node.virtual_loss).2.1.m_children
        = node.m_children ++ added := hadd
    have kv' : (UCTSearch.expand_phase env s currstate node.virtual_loss).2.1.m_visits
        = node.m_visits := kv
    have hsum := sum_visits_append_fresh node.m_children added hfresh
    have hall : ∀ c ∈ node.m_children ++ added, visits_invariant c := by
      intro c hc
      rcases List.mem_append.mp hc with hc | hc
      · exact hchildren c hc
      · exact visits_invariant_fresh c (hfresh c hc)
    have hdelta : (0 : Int) ≤ (if r.valid = true then 1 else 0) := by
      split_ifs <;> norm_num
    rcases play_simulation_done_cases env fuel s currstate node is_root r node' nodes h with
      ⟨_, _, hnode, _⟩ | ⟨i, next, _, hinvalid, hsel, hko | hrec⟩
    · obtain ⟨bc, _, _, _, bv, _⟩ := backup_phase_spec env s r
        (UCTSearch.expand_phase env s currstate node.virtual_loss).2.1
      rw [← hnode] at bc bv
      refine ⟨?_, by rw [bv, kv']⟩
      rw [visits_invariant_iff, bc, hadd', hsum, bv, kv']
      exact ⟨by linarith, hall⟩
    · obtain ⟨_, _, hr, hnode, _⟩ := hko
      have hvalid : r.valid = false := by rw [hr]; exact hinvalid
      obtain ⟨bc, _, _, _, bv, _⟩ := backup_phase_spec env s r
        { (UCTSearch.expand_phase env s currstate node.virtual_loss).2.1 with
          m_children := (UCTSearch.expand_phase env s currstate
            node.virtual_loss).2.1.m_children.set i next.invalidate }
      rw [← hnode] at bc bv
      simp only at bc bv
      rw [hadd'] at bc
      rw [kv'] at bv
      have hnext := uct_select_child_some _ _ _ _ _ _ _ hsel
      rw [hadd'] at hnext
      refine ⟨?_, bv⟩
      rw [visits_invariant_iff, bc,
        sum_map_set (fun c => c.m_visits) _ i next next.invalidate hnext, hsum, bv]
      refine ⟨?_, ?_⟩
      · have : next.invalidate.m_visits = next.m_visits := rfl
        rw [this]
        linarith
      · intro c hc
        rcases List.mem_or_eq_of_mem_set hc with hc | rfl
        · exact hall c hc
        · have hn := (visits_invariant_iff next).mp (hall next (List.getElem?_mem hnext))
          exact (visits_invariant_iff next.invalidate).mpr hn
    · obtain ⟨_, next', hcall, hnode⟩ := hrec
      have hnext := uct_select_child_some _ _ _ _ _ _ _ hsel
      rw [hadd'] at hnext
      obtain ⟨hinv', hvis'⟩ := ih _ _ _ _ _ _ _ hcall (hall next (List.getElem?_mem hnext))
      obtain ⟨bc, _, _, _, bv, _⟩ := backup_phase_spec env s r
        { (UCTSearch.expand_phase env s currstate node.virtual_loss).2.1 with
          m_children := (UCTSearch.expand_phase env s currstate
            node.virtual_loss).2.1.m_children.set i next' }
      rw [← hnode] at bc bv
      simp only at bc bv
      rw [hadd'] at bc
      rw [kv'] at bv
      refine ⟨?_, bv⟩
      rw [visits_invariant_iff, bc,
        sum_map_set (fun c => c.m_visits) _ i next next' hnext, hsum, bv]
      refine ⟨?_, ?_⟩
      · simp only [hvis']
        linarith
      · intro c hc
        rcases List.mem_or_eq_of_mem_set hc with hc | rfl
        · exact hall c hc
        · exact hinv'

/-! ### Simulation: enough fuel -/

/-- The depth of a node is computed from its children. -/
theorem depth_eq (n : UCTNode) : n.depth = UCTNode.depth.depth_below n.m_children := by
  cases n
  simp [UCTNode.depth]

/-- A child is less deep than its parent. -/
theorem depth_child_lt (n c : UCTNode) (hc : c ∈ n.m_children) : c.depth + 1 ≤ n.depth := by
  rw [depth_eq n]
  generalize n.m_children = l at hc
  induction l with
  | nil => simp at hc
  | cons a t ih =>
    simp only [UCTNode.depth.depth_below]
    rcases List.mem_cons.mp hc with rfl | hc
    · exact le_max_left _ _
    · exact le_trans (ih hc) (le_max_right _ _)

/-- The ratio of the tree-size budget is at most `1/100`. -/
theorem get_min_psa_ratio_le (s : UCTSearch) : s.get_min_psa_ratio ≤ 1 / 100 := by
  have c3 : f32 (1 / 1000) ≤ 1 / 100 := by decide!
  have c4 : f32 (1 / 100) ≤ 1 / 100 := by decide!
  unfold UCTSearch.get_min_psa_ratio
  simp only
  split_ifs
  · exact c4
  · exact c3
  · norm_num

/-- A result made by `from_score` is valid. -/
theorem from_score_valid (score : ℚ) (head : ℚ × ℚ) :
    (SearchResult.from_score score head).valid = true := by
  unfold SearchResult.from_score
  split_ifs <;> rfl

/-- The simulation of a node made by the constructor does not descend: after
the expansion step there is a valid result, or the node is still without
children. -/
theorem fresh_no_descent (env : SimEnv) (s : UCTSearch) (currstate : GameState)
    (vertex : Int) (score : ℚ) :
    ¬ ((UCTSearch.expand_phase env s currstate
          (UCTNode.create vertex score).virtual_loss).2.1.has_children = true
      ∧ (UCTSearch.expand_phase env s currstate
          (UCTNode.create vertex score).virtual_loss).1.valid = false) := by
  have hexp : (UCTNode.create vertex score).virtual_loss.expandable 0 = true := by
    simp [UCTNode.expandable, UCTNode.virtual_loss, UCTNode.create]
  have hnot : (UCTNode.create vertex score).virtual_loss.has_children = false := by
    simp [UCTNode.has_children, UCTNode.virtual_loss, UCTNode.create]
  unfold UCTSearch.expand_phase
  rw [if_pos hexp]
  by_cases h2 : currstate.passes ≥ 2
  · rw [if_pos h2]
    simp only
    rw [from_score_valid]
    simp
  · rw [if_neg h2]
    by_cases h3 : s.m_nodes < s.cfg.MAX_TREE_SIZE
    · rw [if_pos h3]
      have hsucc : ((UCTNode.create vertex score).virtual_loss.create_children env.ext s.cfg
          s.m_nodes currstate s.get_min_psa_ratio).success = true := by
        apply create_children_of_guards
        · have := get_min_psa_ratio_le s
          have h2' : (UCTNode.create vertex score).virtual_loss.m_min_psa_ratio_children = 2 := rfl
          rw [h2']
          linarith
        · exact not_le.mp h2
        · rfl
      simp only [hnot, hsucc, Bool.not_false, Bool.and_self, if_true]
      intro h
      exact absurd h.2 (by simp [SearchResult.from_eval, SearchResult.valid])
    · rw [if_neg h3]
      simp only [hnot]
      intro h
      exact absurd h.1 (by simp)

/-- The simulation of a node made by the constructor needs one unit of
fuel. -/
theorem play_simulation_fresh_fuel (env : SimEnv) (fuel : Nat) (s : UCTSearch)
    (currstate : GameState) (vertex : Int) (score : ℚ) (is_root : Bool) :
    UCTSearch.play_simulation env (fuel + 1) s currstate (UCTNode.create vertex score) is_root
      ≠ Simulation.out_of_fuel := by
  have hno := fresh_no_descent env s currstate vertex score
  have hcond : ¬ ((UCTSearch.expand_phase env s currstate
        (UCTNode.create vertex score).virtual_loss).2.1.has_children
      && !(UCTSearch.expand_phase env s currstate
        (UCTNode.create vertex score).virtual_loss).1.valid) = true := by
    intro hc
    apply hno
    simpa using hc
  unfold UCTSearch.play_simulation
  simp only
  rw [if_neg hcond]
  simp

/-- Enough fuel: a call of `play_simulation` with at least `depth + 2` units
of fuel, `depth` the depth of the tree below the node, does not run out of
fuel. -/
theorem play_simulation_fuel (env : SimEnv) :
    ∀ (fuel : Nat) (s : UCTSearch) (currstate : GameState) (node : UCTNode) (is_root : Bool),
      node.depth + 2 ≤ fuel →
        UCTSearch.play_simulation env fuel s currstate node is_root
          ≠ Simulation.out_of_fuel := by
  intro fuel
  induction fuel with
  | zero =>
    intro s currstate node is_root h
    omega
  | succ fuel ih =>
    intro s currstate node is_root hfuel
    obtain ⟨_, _, _, _, _, added, hadd, hfresh⟩ :=
      expand_phase_keeps env s currstate node.virtual_loss
    have hadd' : (UCTSearch.expand_phase env s currstate node.virtual_loss).2.1.m_children
        = node.m_children ++ added := hadd
    unfold UCTSearch.play_simulation
    simp only
    split_ifs with hcond
    · cases hsel : (UCTSearch.expand_phase env s currstate
          node.virtual_loss).2.1.uct_select_child env.num s.cfg currstate.to_move is_root with
      | none => simp
      | some b =>
        obtain ⟨i, next⟩ := b
        simp only
        split_ifs with hko
        · simp
        · have hnext := uct_select_child_some _ _ _ _ _ _ _ hsel
          rw [hadd'] at hnext
          have hrec : UCTSearch.play_simulation env fuel
              { s with m_nodes :=
                  (UCTSearch.expand_phase env s currstate node.virtual_loss).2.2 }
              (env.rules.play_move currstate next.get_move) next false
              ≠ Simulation.out_of_fuel := by
            rcases List.mem_append.mp (List.getElem?_mem hnext) with hold | hnew
            · have := depth_child_lt node next hold
              exact ih _ _ _ _ (by omega)
            · obtain ⟨vertex, score, rfl⟩ := hfresh next hnew
              cases fuel with
              | zero => omega
              | succ k => exact play_simulation_fresh_fuel env k _ _ vertex score false
          cases hcall : UCTSearch.play_simulation env fuel
              { s with m_nodes :=
                  (UCTSearch.expand_phase env s currstate node.virtual_loss).2.2 }
              (env.rules.play_move currstate next.get_move) next false with
          | done r2 n2 k2 => simp
          | no_active_child => simp
          | out_of_fuel => exact absurd hcall hrec
    · simp

/-! ### Simulation: the call returns -/

/-- A node with an active child has a selected child. -/
theorem uct_select_child_of_active (num : Numerics) (cfg : Config) (n : UCTNode) (color : Int)
    (is_root : Bool) (hactive : ∃ c ∈ n.m_children, c.active = true) :
    ∃ i next, n.uct_select_child num cfg color is_root = some (i, next) := by
  rcases select_loop_spec (UCTNode.child_value num cfg n color is_root) n.m_children 0 none with
    ⟨_, _, h3⟩ | ⟨k, c, hk, _, hres, _, _, _⟩
  · obtain ⟨c, hc, hcact⟩ := hactive
    rw [h3 rfl c hc] at hcact
    exact absurd hcact (by simp)
  · refine ⟨k, c, ?_⟩
    unfold UCTNode.uct_select_child
    rw [hres]
    simp [hk]

/-- A descent happens only at a node that had children before the expansion
step: a first expansion that succeeds gives a valid result. -/
theorem expand_phase_descends_old (env : SimEnv) (s : UCTSearch) (currstate : GameState)
    (node : UCTNode)
    (h1 : (UCTSearch.expand_phase env s currstate node).2.1.has_children = true)
    (h2 : (UCTSearch.expand_phase env s currstate node).1.valid = false) :
    node.has_children = true := by
  unfold UCTSearch.expand_phase at h1 h2
  by_cases e1 : node.expandable 0 = true
  · rw [if_pos e1] at h1 h2
    by_cases e2 : currstate.passes ≥ 2
    · rw [if_pos e2] at h1
      exact h1
    · rw [if_neg e2] at h1 h2
      by_cases e3 : s.m_nodes < s.cfg.MAX_TREE_SIZE
      · rw [if_pos e3] at h1 h2
        simp only at h1 h2
        cases hh : node.has_children with
        | true => rfl
        | false =>
          exfalso
          cases hs : (node.create_children env.ext s.cfg s.m_nodes currstate
              s.get_min_psa_ratio).success with
          | true =>
            rw [hh, hs] at h2
            simp [SearchResult.from_eval, SearchResult.valid] at h2
          | false =>
            rw [hh, hs] at h1
            simp only [Bool.not_false, Bool.and_false, Bool.false_eq_true, if_false] at h1
            rw [(create_children_not_success env.ext s.cfg node s.m_nodes currstate
              s.get_min_psa_ratio hs).1, hh] at h1
            exact absurd h1 (by simp)
      · rw [if_neg e3] at h1
        exact h1
  · rw [if_neg e1] at h1
    exact h1

/-- The simulation of a node made by the constructor ends with a result. -/
theorem play_simulation_fresh_done (env : SimEnv) (fuel : Nat) (s : UCTSearch)
    (currstate : GameState) (vertex : Int) (score : ℚ) (is_root : Bool) :
    ∃ r node' nodes,
      UCTSearch.play_simulation env (fuel + 1) s currstate (UCTNode.create vertex score) is_root
        = Simulation.done r node' nodes := by
  have hno := fresh_no_descent env s currstate vertex score
  have hcond : ¬ ((UCTSearch.expand_phase env s currstate
        (UCTNode.create vertex score).virtual_loss).2.1.has_children
      && !(UCTSearch.expand_phase env s currstate
        (UCTNode.create vertex score).virtual_loss).1.valid) = true := by
    intro hc
    apply hno
    simpa using hc
  unfold UCTSearch.play_simulation
  simp only
  rw [if_neg hcond]
  exact ⟨_, _, _, rfl⟩

/-- The tree below a child satisfies `has_active_children` when the tree
below its parent does. -/
theorem has_active_children_child (n c : UCTNode) (h : has_active_children n)
    (hc : c ∈ n.m_children) : has_active_children c := by
  intro path m hm
  obtain ⟨j, hj⟩ := List.mem_iff_getElem?.mp hc
  apply h (j :: path) m
  rw [subnode_cons, hj]
  exact hm

/-- The call returns: with at least `depth + 2` units of fuel, on a tree whose
nodes with children all have an active child, `play_simulation` ends with a
result. -/
theorem play_simulation_returns (env : SimEnv) :
    ∀ (fuel : Nat) (s : UCTSearch) (currstate : GameState) (node : UCTNode) (is_root : Bool),
      has_active_children node → node.depth + 2 ≤ fuel →
        ∃ r node' nodes,
          UCTSearch.play_simulation env fuel s currstate node is_root
            = Simulation.done r node' nodes := by
  intro fuel
  induction fuel with
  | zero =>
    intro s currstate node is_root _ h
    omega
  | succ fuel ih =>
    intro s currstate node is_root hact hfuel
    obtain ⟨_, _, _, _, _, added, hadd, hfresh⟩ :=
      expand_phase_keeps env s currstate node.virtual_loss
    have hadd' : (UCTSearch.expand_phase env s currstate node.virtual_loss).2.1.m_children
        = node.m_children ++ added := hadd
    unfold UCTSearch.play_simulation
    simp only
    split_ifs with hcond
    · have hc2 : (UCTSearch.expand_phase env s currstate node.virtual_loss).2.1.has_children
            = true
          ∧ (UCTSearch.expand_phase env s currstate node.virtual_loss).1.valid = false := by
        simpa using hcond
      have hold : node.has_children = true :=
        expand_phase_descends_old env s currstate node.virtual_loss hc2.1 hc2.2
      obtain ⟨c, hc, hcact⟩ := hact [] node rfl hold
      have hactive : ∃ c ∈ (UCTSearch.expand_phase env s currstate
          node.virtual_loss).2.1.m_children, c.active = true := by
        rw [hadd']
        exact ⟨c, List.mem_append_left _ hc, hcact⟩
      obtain ⟨i, next, hsel⟩ := uct_select_child_of_active env.num s.cfg _ currstate.to_move
        is_root hactive
      rw [hsel]
      simp only
      split_ifs with hko
      · exact ⟨_, _, _, rfl⟩
      · have hnext := uct_select_child_some _ _ _ _ _ _ _ hsel
        rw [hadd'] at hnext
        have hrec : ∃ r next' nodes, UCTSearch.play_simulation env fuel
            { s with m_nodes :=
                (UCTSearch.expand_phase env s currstate node.virtual_loss).2.2 }
            (env.rules.play_move currstate next.get_move) next false
            = Simulation.done r next' nodes := by
          rcases List.mem_append.mp (List.getElem?_mem hnext) with hold | hnew
          · have := depth_child_lt node next hold
            exact ih _ _ _ _ (has_active_children_child node next hact hold) (by omega)
          · obtain ⟨vertex, score, rfl⟩ := hfresh next hnew
            cases fuel with
            | zero => omega
            | succ k => exact play_simulation_fresh_done env k _ _ vertex score false
        obtain ⟨r, next', nodes, hcall⟩ := hrec
        rw [hcall]
        exact ⟨_, _, _, rfl⟩
    · exact ⟨_, _, _, rfl⟩

/-- A call in which no assertion fails does not end at the failed assertion
`best != nullptr` of `uct_select_child`. -/
theorem play_simulation_asserts_select (env : SimEnv) :
    ∀ (fuel : Nat) (s : UCTSearch) (currstate : GameState) (node : UCTNode) (is_root : Bool),
      UCTSearch.play_simulation_asserts env fuel s currstate node is_root = true →
        UCTSearch.play_simulation env fuel s currstate node is_root
          ≠ Simulation.no_active_child := by
  intro fuel
  induction fuel with
  | zero =>
    intro s currstate node is_root _
    simp [UCTSearch.play_simulation]
  | succ fuel ih =>
    intro s currstate node is_root h
    unfold UCTSearch.play_simulation_asserts at h
    unfold UCTSearch.play_simulation
    simp only at h
    obtain ⟨_, h3⟩ := (Bool.and_eq_true _ _).mp h
    simp only
    generalize UCTSearch.expand_phase env s currstate node.virtual_loss = x at h3 ⊢
    by_cases hcond : (x.2.1.has_children && !x.1.valid) = true
    · rw [if_pos hcond] at h3 ⊢
      cases hsel : x.2.1.uct_select_child env.num s.cfg currstate.to_move is_root with
      | none =>
        rw [hsel] at h3
        exact absurd h3 (by simp)
      | some b =>
        obtain ⟨i, next⟩ := b
        rw [hsel] at h3
        simp only at h3 ⊢
        by_cases hko : next.get_move ≠ FastBoard.PASS
            ∧ env.rules.superko (env.rules.play_move currstate next.get_move) = true
        · rw [if_pos hko]
          simp
        · rw [if_neg hko] at h3 ⊢
          have hrec := ih _ _ _ _ ((Bool.and_eq_true _ _).mp h3).1
          cases hcall : UCTSearch.play_simulation env fuel { s with m_nodes := x.2.2 }
              (env.rules.play_move currstate next.get_move) next false with
          | done r2 next2 nodes2 => simp
          | no_active_child => exact absurd hcall hrec
          | out_of_fuel => simp
    · rw [if_neg hcond]
      simp

/-- The call returns: with at least `depth + 2` units of fuel, a call in which
no assertion fails ends with a result. -/
theorem play_simulation_asserts_returns (env : SimEnv) (fuel : Nat) (s : UCTSearch)
    (currstate : GameState) (node : UCTNode) (is_root : Bool)
    (hfuel : node.depth + 2 ≤ fuel)
    (h : UCTSearch.play_simulation_asserts env fuel s currstate node is_root = true) :
    ∃ r node' nodes,
      UCTSearch.play_simulation env fuel s currstate node is_root
        = Simulation.done r node' nodes := by
  have h1 := play_simulation_fuel env fuel s currstate node is_root hfuel
  have h2 := play_simulation_asserts_select env fuel s currstate node is_root h
  cases hcall : UCTSearch.play_simulation env fuel s currstate node is_root with
  | done r node' nodes => exact ⟨r, node', nodes, rfl⟩
  | no_active_child => exact absurd hcall h2
  | out_of_fuel => exact absurd hcall h1

/-- The nodes below a child of an expanded node have non-negative visits and
virtual losses, when the nodes below the node before the expansion have. -/
theorem nonneg_below_child (node next : UCTNode) (added : List UCTNode) (i : Nat)
    (hnn : ∀ path n, node.subnode path = some n → 0 ≤ n.m_visits ∧ 0 ≤ n.m_virtual_loss)
    (hfresh : ∀ c ∈ added, ∃ vertex score, c = UCTNode.create vertex score)
    (hget : (node.m_children ++ added)[i]? = some next) :
    ∀ path n, next.subnode path = some n → 0 ≤ n.m_visits ∧ 0 ≤ n.m_virtual_loss := by
  intro path n hn
  by_cases hi : i < node.m_children.length
  · rw [List.getElem?_append_left hi] at hget
    apply hnn (i :: path) n
    rw [subnode_cons, hget]
    exact hn
  · rw [List.getElem?_append_right (not_lt.mp hi)] at hget
    obtain ⟨vertex, score, rfl⟩ := hfresh next (List.getElem?_mem hget)
    obtain ⟨_, rfl⟩ := subnode_of_no_children (UCTNode.create vertex score) rfl path n hn
    exact ⟨le_refl _, le_refl _⟩

/-- A call that ends with a valid result, on a tree whose nodes have
non-negative visits and virtual losses, meets no failing assertion: every
node on the descent has a positive `visits + virtual_loss` where `get_eval`
reads it, at the end because of the visit the backup adds. -/
theorem play_simulation_asserts_of_valid (env : SimEnv) :
    ∀ (fuel : Nat) (s : UCTSearch) (currstate : GameState) (node : UCTNode) (is_root : Bool)
      (r : SearchResult) (node' : UCTNode) (nodes : Int),
      (∀ path n, node.subnode path = some n → 0 ≤ n.m_visits ∧ 0 ≤ n.m_virtual_loss) →
      UCTSearch.play_simulation env fuel s currstate node is_root
          = Simulation.done r node' nodes →
      r.valid = true →
        UCTSearch.play_simulation_asserts env fuel s currstate node is_root = true := by
  intro fuel
  induction fuel with
  | zero =>
    intro s currstate node is_root r node' nodes _ _ _
    rfl
  | succ fuel ih =>
    intro s currstate node is_root r node' nodes hnn h hvalid
    obtain ⟨hv0, hvl0⟩ := hnn [] node rfl
    obtain ⟨kv, _, kvl, _, _, added, hadd, hfresh⟩ :=
      expand_phase_keeps env s currstate node.virtual_loss
    have hvlc : (0 : Int) < VIRTUAL_LOSS_COUNT := by decide
    have hbegin : node.virtual_loss.get_eval_assertion = true := by
      unfold UCTNode.get_eval_assertion UCTNode.get_visits UCTNode.virtual_loss
      simp only [decide_eq_true_eq]
      omega
    have hcreated : (UCTSearch.expand_phase env s currstate
        node.virtual_loss).2.1.get_eval_assertion = true := by
      unfold UCTNode.get_eval_assertion UCTNode.get_visits
      rw [kv, kvl]
      exact hbegin
    have hcreated2 : (if node.virtual_loss.expandable 0 = true ∧ ¬ currstate.passes ≥ 2
          ∧ s.m_nodes < s.cfg.MAX_TREE_SIZE then
        (UCTSearch.expand_phase env s currstate node.virtual_loss).2.1.get_eval_assertion
        else true) = true := by
      split_ifs
      · exact hcreated
      · rfl
    have hclose : ∀ n : UCTNode,
        n.m_visits = (UCTSearch.expand_phase env s currstate node.virtual_loss).2.1.m_visits →
        n.m_virtual_loss
          = (UCTSearch.expand_phase env s currstate node.virtual_loss).2.1.m_virtual_loss →
        (UCTSearch.backup_phase env s r n).get_eval_assertion = true := by
      intro n h1 h2
      obtain ⟨_, _, _, bvl, bv, _⟩ := backup_phase_spec env s r n
      unfold UCTNode.get_eval_assertion UCTNode.get_visits
      rw [bv, bvl, h1, h2, kv, kvl, if_pos hvalid]
      unfold UCTNode.virtual_loss
      simp only [decide_eq_true_eq]
      omega
    rcases play_simulation_done_cases env fuel s currstate node is_root r node' nodes h with
      ⟨hd, hr, _, _⟩ | ⟨i, next, hc1, hc2, hsel, hcase⟩
    · have hcond : ¬ ((UCTSearch.expand_phase env s currstate node.virtual_loss).2.1.has_children
          && !(UCTSearch.expand_phase env s currstate node.virtual_loss).1.valid) = true := by
        intro hc
        apply hd
        simpa using hc
      unfold UCTSearch.play_simulation_asserts
      simp only
      rw [if_neg hcond, hbegin, hcreated2, ← hr, hclose _ rfl rfl]
      rfl
    · rcases hcase with ⟨_, _, hr, _, _⟩ | ⟨hko, next', hrec, _⟩
      · rw [hr, hc2] at hvalid
        exact absurd hvalid (by simp)
      · have hcond : ((UCTSearch.expand_phase env s currstate node.virtual_loss).2.1.has_children
            && !(UCTSearch.expand_phase env s currstate node.virtual_loss).1.valid) = true := by
          simp [hc1, hc2]
        have hnext := uct_select_child_some _ _ _ _ _ _ _ hsel
        have hadd' : (UCTSearch.expand_phase env s currstate node.virtual_loss).2.1.m_children
            = node.m_children ++ added := hadd
        rw [hadd'] at hnext
        have hbelow := nonneg_below_child node next added i hnn hfresh hnext
        have hih := ih _ _ _ _ r next' nodes hbelow hrec hvalid
        unfold UCTSearch.play_simulation_asserts
        simp only
        rw [if_pos hcond, hbegin, hcreated2, hsel]
        simp only
        rw [if_neg hko, hih, hrec]
        simp only
        rw [hclose
          { (UCTSearch.expand_phase env s currstate node.virtual_loss).2.1 with
            m_children := (UCTSearch.expand_phase env s currstate
              node.virtual_loss).2.1.m_children.set i next' } rfl rfl]
        rfl

/-! ### Simulation: backup and invariant -/

/-- A node whose children are leaves, one of them active, satisfies
`has_active_children`. -/
theorem has_active_children_of_leaves (n : UCTNode)
    (hroot : ∃ c ∈ n.m_children, c.active = true)
    (hleaves : ∀ c ∈ n.m_children, c.m_children.length = 0 ∧ c.has_children = false) :
    has_active_children n := by
  intro path m hm hhas
  cases path with
  | nil =>
    simp only [UCTNode.subnode, Option.some.injEq] at hm
    rw [← hm]
    exact hroot
  | cons j p =>
    rw [subnode_cons] at hm
    cases hj : n.m_children[j]? with
    | none => rw [hj] at hm; exact absurd hm (by simp)
    | some c =>
      rw [hj] at hm
      obtain ⟨hlen, hno⟩ := hleaves c (List.getElem?_mem hj)
      obtain ⟨_, rfl⟩ := subnode_of_no_children c (List.length_eq_zero.mp hlen) p m hm
      rw [hno] at hhas
      exact absurd hhas (by simp)

/-- A node whose children are leaves with non-negative visits, summing up to
at most its own visits, satisfies the visits invariant. -/
theorem visits_invariant_of_leaves (n : UCTNode)
    (hroot : (n.m_children.map (fun c => c.m_visits)).sum ≤ n.m_visits)
    (hleaves : ∀ c ∈ n.m_children, c.m_children.length = 0 ∧ 0 ≤ c.m_visits) :
    visits_invariant n := by
  rw [visits_invariant_iff]
  refine ⟨hroot, ?_⟩
  intro c hc
  obtain ⟨hlen, hv⟩ := hleaves c hc
  rw [visits_invariant_iff, List.length_eq_zero.mp hlen]
  simpa using hv

/-- An instance of the assertions: on a full tree (`m_nodes = MAX_TREE_SIZE`)
the descent from the sample root reaches the unvisited move 73, which cannot
be expanded; the result is invalid, no visit is added, and the log line at
the end of the call on that child fails the assertion of `get_eval`. -/
theorem play_simulation_asserts_full_tree :
    ({ Sample.search9 with m_nodes := 40000000 } : UCTSearch).m_nodes
        = Sample.search9.cfg.MAX_TREE_SIZE
      ∧ ((Sample.root Sample.one_contender).uct_select_child Sample.numerics Sample.config
          Sample.state9.to_move true).map (fun r => (r.1, r.2.m_move, r.2.m_visits))
        = some (1, 73, 0)
      ∧ UCTSearch.play_simulation_asserts Sample.sim_env 3
          { Sample.search9 with m_nodes := 40000000 } Sample.state9
          (Sample.root Sample.one_contender) true = false
      ∧ UCTSearch.play_simulation_asserts Sample.sim_env 3 Sample.search9 Sample.state9
          (Sample.root Sample.one_contender) true = true := by
  decide!

/-- C17: the invariant "for every node, visits >= sum of its children's
visits" is preserved by `play_simulation`.  If it holds for every node of the
tree below `node` before the call, then, for every result the call returns
(valid or invalid, so also a terminal one and one aborted by superko), it
holds for every node of the tree after the call, and the node itself has one
more visit exactly when the result is valid.  With `depth + 2` units of fuel
the call does not run out of fuel, and it returns a result when no assertion
on the way fails (`play_simulation_asserts`: those of `get_eval` in the log
lines and `best != nullptr` of the selection); none fails when the counts of
the tree are non-negative and the result is valid. -/
theorem play_simulation_keeps_visits_invariant (env : SimEnv) (fuel : Nat) (s : UCTSearch)
    (currstate : GameState) (node : UCTNode) (is_root : Bool)
    (hinv : visits_invariant node) (hfuel : node.depth + 2 ≤ fuel) :
    UCTSearch.play_simulation env fuel s currstate node is_root ≠ Simulation.out_of_fuel
      ∧ (UCTSearch.play_simulation_asserts env fuel s currstate node is_root = true →
          ∃ r node' nodes, UCTSearch.play_simulation env fuel s currstate node is_root
            = Simulation.done r node' nodes)
      ∧ ((∀ path n, node.subnode path = some n → 0 ≤ n.m_visits ∧ 0 ≤ n.m_virtual_loss) →
          ∀ r node' nodes,
            UCTSearch.play_simulation env fuel s currstate node is_root
                = Simulation.done r node' nodes →
              r.valid = true →
                UCTSearch.play_simulation_asserts env fuel s currstate node is_root = true)
      ∧ ∀ r node' nodes,
          UCTSearch.play_simulation env fuel s currstate node is_root
              = Simulation.done r node' nodes →
            (∀ path n, node'.subnode path = some n →
                (n.m_children.map (fun c => c.m_visits)).sum ≤ n.m_visits)
              ∧ node'.m_visits = node.m_visits + (if r.valid = true then 1 else 0) := by
  refine ⟨play_simulation_fuel env fuel s currstate node is_root hfuel, ?_, ?_, ?_⟩
  · intro hasserts
    exact play_simulation_asserts_returns env fuel s currstate node is_root hfuel hasserts
  · intro hnn r node' nodes h hvalid
    exact play_simulation_asserts_of_valid env fuel s currstate node is_root r node' nodes hnn h
      hvalid
  · intro r node' nodes h
    obtain ⟨hafter, hvisits⟩ :=
      play_simulation_invariant env fuel s currstate node is_root r node' nodes h hinv
    refine ⟨?_, hvisits⟩
    intro path n hn
    exact hafter path n hn

/-- Witness of C17: a simulation with 3 units of fuel from the sample root
(100 visits, children with 50 and 0 visits) meets no failing assertion and
returns a result, and the invariant holds below the root it leaves. -/
theorem play_simulation_keeps_visits_invariant_witness :
    visits_invariant (Sample.root Sample.one_contender)
      ∧ (Sample.root Sample.one_contender).depth + 2 ≤ 3
      ∧ UCTSearch.play_simulation_asserts Sample.sim_env 3 Sample.search9 Sample.state9
          (Sample.root Sample.one_contender) true = true
      ∧ ∃ r node' nodes,
          UCTSearch.play_simulation Sample.sim_env 3 Sample.search9 Sample.state9
              (Sample.root Sample.one_contender) true = Simulation.done r node' nodes
            ∧ visits_invariant node' := by
  have hinv : visits_invariant (Sample.root Sample.one_contender) :=
    visits_invariant_of_leaves _ (by decide!) (by decide!)
  have hfuel : (Sample.root Sample.one_contender).depth + 2 ≤ 3 := by decide!
  have hasserts : UCTSearch.play_simulation_asserts Sample.sim_env 3 Sample.search9
      Sample.state9 (Sample.root Sample.one_contender) true = true := by decide!
  obtain ⟨_, hret, _, hkeep⟩ := play_simulation_keeps_visits_invariant Sample.sim_env 3
    Sample.search9 Sample.state9 (Sample.root Sample.one_contender) true hinv hfuel
  obtain ⟨r, node', nodes, hcall⟩ := hret hasserts
  exact ⟨hinv, hfuel, hasserts, r, node', nodes, hcall, (hkeep r node' nodes hcall).1⟩

/-- C12: when `play_simulation` selects a child `next` whose move is not
`PASS` and the position after playing it violates superko, the call ends,
with one unit of fuel already (so without a recursive call), with an invalid
result; the selected child is `INVALID` afterwards; every node of the tree has
the visits, `black_evals` and virtual loss it had before, and the nodes
created by the call have none; a worker whose call this is leaves the playout
counter as it is.  A selected child whose move is `PASS` is not invalidated:
the simulation recurses into it and it keeps its status.  For the calls
around it: every call that returns leaves the status of every node with the
move `PASS` as it was, and every call that returns an invalid result leaves
the visits and `black_evals` of every node, and the playout counter of its
worker, as they were. -/
theorem play_simulation_superko_abort (env : SimEnv) :
    (∀ (s : UCTSearch) (currstate : GameState) (node : UCTNode) (is_root : Bool) (i : Nat)
        (next : UCTNode),
        (UCTSearch.expand_phase env s currstate node.virtual_loss).2.1.has_children = true →
        (UCTSearch.expand_phase env s currstate node.virtual_loss).1.valid = false →
        (UCTSearch.expand_phase env s currstate node.virtual_loss).2.1.uct_select_child
            env.num s.cfg currstate.to_move is_root = some (i, next) →
        (next.get_move ≠ FastBoard.PASS →
          env.rules.superko (env.rules.play_move currstate next.get_move) = true →
          ∃ r node' nodes,
            (∀ fuel, UCTSearch.play_simulation env (fuel + 1) s currstate node is_root
                = Simulation.done r node' nodes)
              ∧ r.valid = false
              ∧ (∃ c, node'.m_children[i]? = some c ∧ c.m_move = next.m_move
                  ∧ c.m_status = Status.INVALID)
              ∧ (∀ path n0, node.subnode path = some n0 →
                  ∃ n1, node'.subnode path = some n1 ∧ n1.m_visits = n0.m_visits
                    ∧ n1.m_blackevals = n0.m_blackevals
                    ∧ n1.m_virtual_loss = n0.m_virtual_loss)
              ∧ (∀ path n1, node.subnode path = none → node'.subnode path = some n1 →
                  n1.m_visits = 0 ∧ n1.m_blackevals = 0 ∧ n1.m_virtual_loss = 0)
              ∧ (node = s.m_root → currstate = s.m_rootstate → is_root = true →
                  ∀ fuel, ∃ s', UCTSearch.worker_iteration env (fuel + 1) s = some s'
                    ∧ s'.m_playouts = s.m_playouts))
          ∧ (next.get_move = FastBoard.PASS →
              ∀ fuel r node' nodes,
                UCTSearch.play_simulation env (fuel + 1) s currstate node is_root
                    = Simulation.done r node' nodes →
                  ∃ next',
                    UCTSearch.play_simulation env fuel
                        { s with m_nodes :=
                            (UCTSearch.expand_phase env s currstate node.virtual_loss).2.2 }
                        (env.rules.play_move currstate next.get_move) next false
                      = Simulation.done r next' nodes
                    ∧ node'.m_children[i]? = some next'
                    ∧ next'.m_status = next.m_status))
      ∧ ∀ (fuel : Nat) (s : UCTSearch) (currstate : GameState) (node : UCTNode) (is_root : Bool)
          (r : SearchResult) (node' : UCTNode) (nodes : Int),
          UCTSearch.play_simulation env fuel s currstate node is_root
              = Simulation.done r node' nodes →
            (∀ path n0, node.subnode path = some n0 → n0.m_move = FastBoard.PASS →
                ∃ n1, node'.subnode path = some n1 ∧ n1.m_status = n0.m_status)
              ∧ (r.valid = false →
                  (∀ path n0, node.subnode path = some n0 →
                      ∃ n1, node'.subnode path = some n1 ∧ n1.m_visits = n0.m_visits
                        ∧ n1.m_blackevals = n0.m_blackevals
                        ∧ n1.m_virtual_loss = n0.m_virtual_loss)
                    ∧ (node = s.m_root → currstate = s.m_rootstate → is_root = true →
                        ∃ s', UCTSearch.worker_iteration env fuel s = some s'
                          ∧ s'.m_playouts = s.m_playouts)) := by
  -- what a call with an invalid result leaves of the old nodes
  have unchanged : ∀ (fuel : Nat) (s : UCTSearch) (currstate : GameState) (node : UCTNode)
      (is_root : Bool) (r : SearchResult) (node' : UCTNode) (nodes : Int),
      UCTSearch.play_simulation env fuel s currstate node is_root
          = Simulation.done r node' nodes → r.valid = false →
        (∀ path n0, node.subnode path = some n0 →
            ∃ n1, node'.subnode path = some n1 ∧ n1.m_visits = n0.m_visits
              ∧ n1.m_blackevals = n0.m_blackevals ∧ n1.m_virtual_loss = n0.m_virtual_loss)
          ∧ (∀ path n1, node.subnode path = none → node'.subnode path = some n1 →
              n1.m_visits = 0 ∧ n1.m_blackevals = 0 ∧ n1.m_virtual_loss = 0) := by
    intro fuel s currstate node is_root r node' nodes h hr
    obtain ⟨descent, ⟨hold, hnew⟩, _⟩ :=
      play_simulation_frame env fuel s currstate node is_root r node' nodes h
    rw [hr] at hold hnew
    constructor
    · intro path n0 hn0
      obtain ⟨n1, h1, _, _, hvl, hv, hb⟩ := hold path n0 hn0
      rw [on_descent_invalid] at hv hb
      exact ⟨n1, h1, by simpa using hv, by simpa using hb, hvl⟩
    · intro path n1 hnone hsome
      obtain ⟨hvl, hv, hb⟩ := hnew path n1 hnone hsome
      rw [on_descent_invalid] at hv hb
      exact ⟨by simpa using hv, by simpa using hb, hvl⟩
  -- the playout counter of the worker after an invalid result
  have counter : ∀ (fuel : Nat) (s : UCTSearch) (r : SearchResult) (node' : UCTNode)
      (nodes : Int),
      UCTSearch.play_simulation env fuel s s.m_rootstate s.m_root true
          = Simulation.done r node' nodes → r.valid = false →
        ∃ s', UCTSearch.worker_iteration env fuel s = some s'
          ∧ s'.m_playouts = s.m_playouts := by
    intro fuel s r node' nodes h hr
    unfold UCTSearch.worker_iteration
    rw [h]
    exact ⟨_, rfl, by simp [hr]⟩
  refine ⟨?_, ?_⟩
  · intro s currstate node is_root i next hch hres hsel
    have hcond : ((UCTSearch.expand_phase env s currstate node.virtual_loss).2.1.has_children
        && !(UCTSearch.expand_phase env s currstate node.virtual_loss).1.valid) = true := by
      simp [hch, hres]
    have hi := uct_select_child_some _ _ _ _ _ _ _ hsel
    have hlt : i < (UCTSearch.expand_phase env s currstate
        node.virtual_loss).2.1.m_children.length := by
      obtain ⟨hlt, _⟩ := List.getElem?_eq_some.mp hi
      exact hlt
    constructor
    · intro hmove hko
      have hcall : ∀ fuel, UCTSearch.play_simulation env (fuel + 1) s currstate node is_root
          = Simulation.done (UCTSearch.expand_phase env s currstate node.virtual_loss).1
              (UCTSearch.backup_phase env s
                (UCTSearch.expand_phase env s currstate node.virtual_loss).1
                { (UCTSearch.expand_phase env s currstate node.virtual_loss).2.1 with
                  m_children :=
                    (UCTSearch.expand_phase env s currstate
                      node.virtual_loss).2.1.m_children.set i next.invalidate })
              (UCTSearch.expand_phase env s currstate node.virtual_loss).2.2 := by
        intro fuel
        unfold UCTSearch.play_simulation
        simp only
        rw [if_pos hcond, hsel]
        simp only
        rw [if_pos ⟨hmove, hko⟩]
      obtain ⟨hold, hnew⟩ := unchanged 1 s currstate node is_root _ _ _ (hcall 0) hres
      refine ⟨_, _, _, hcall, hres, ?_, hold, hnew, ?_⟩
      · refine ⟨next.invalidate, ?_, rfl, rfl⟩
        rw [(backup_phase_spec env s _ _).1]
        simp only
        exact List.getElem?_set_self hlt
      · intro hroot hstate hflag fuel
        subst hroot hstate hflag
        exact counter (fuel + 1) s _ _ _ (hcall fuel) hres
    · intro hpass fuel r node' nodes h
      rcases play_simulation_done_cases env fuel s currstate node is_root r node' nodes h with
        ⟨hno, _⟩ | ⟨i', next', _, _, hsel', hcase⟩
      · exact absurd ⟨hch, hres⟩ hno
      · rw [hsel] at hsel'
        simp only [Option.some.injEq, Prod.mk.injEq] at hsel'
        obtain ⟨hi', hnext'⟩ := hsel'
        subst hi' hnext'
        rcases hcase with ⟨hmove, _⟩ | ⟨_, next2, hrec, hnode'⟩
        · exact absurd hpass hmove
        · refine ⟨next2, hrec, ?_, ?_⟩
          · rw [hnode', (backup_phase_spec env s _ _).1]
            simp only
            exact List.getElem?_set_self hlt
          · obtain ⟨_, ⟨hold, _⟩, _⟩ := play_simulation_frame env fuel _ _ next false r next2
              nodes hrec
            obtain ⟨n1, h1, _, hstatus, _⟩ := hold [] next rfl
            simp only [UCTNode.subnode, Option.some.injEq] at h1
            subst h1
            exact hstatus hpass
  · intro fuel s currstate node is_root r node' nodes h
    constructor
    · intro path n0 hn0 hpass
      obtain ⟨_, ⟨hold, _⟩, _⟩ :=
        play_simulation_frame env fuel s currstate node is_root r node' nodes h
      obtain ⟨n1, h1, _, hstatus, _⟩ := hold path n0 hn0
      exact ⟨n1, h1, hstatus hpass⟩
    · intro hr
      refine ⟨(unchanged fuel s currstate node is_root r node' nodes h hr).1, ?_⟩
      intro hroot hstate hflag
      subst hroot hstate hflag
      exact counter fuel s r node' nodes h hr

/-- Witness of C12: at the sample root, whose children are the moves 72 and
73, with rules under which every position repeats, the simulation ends after
one step with an invalid result, and the worker keeps its 90 playouts. -/
theorem play_simulation_superko_abort_witness :
    (UCTSearch.expand_phase Sample.sim_env_superko Sample.search9 Sample.state9
        (Sample.root Sample.one_contender).virtual_loss).2.1.has_children = true
      ∧ (UCTSearch.expand_phase Sample.sim_env_superko Sample.search9 Sample.state9
          (Sample.root Sample.one_contender).virtual_loss).1.valid = false
      ∧ (∀ c ∈ (UCTSearch.expand_phase Sample.sim_env_superko Sample.search9 Sample.state9
          (Sample.root Sample.one_contender).virtual_loss).2.1.m_children,
          c.get_move ≠ FastBoard.PASS)
      ∧ ∃ r node' nodes,
          (∀ fuel, UCTSearch.play_simulation Sample.sim_env_superko (fuel + 1) Sample.search9
              Sample.state9 (Sample.root Sample.one_contender) true
            = Simulation.done r node' nodes)
            ∧ r.valid = false
            ∧ ∀ fuel, ∃ s', UCTSearch.worker_iteration Sample.sim_env_superko (fuel + 1)
                Sample.search9 = some s' ∧ s'.m_playouts = 90 := by
  have hch : (UCTSearch.expand_phase Sample.sim_env_superko Sample.search9 Sample.state9
      (Sample.root Sample.one_contender).virtual_loss).2.1.has_children = true := by decide!
  have hres : (UCTSearch.expand_phase Sample.sim_env_superko Sample.search9 Sample.state9
      (Sample.root Sample.one_contender).virtual_loss).1.valid = false := by decide!
  have hall : ∀ c ∈ (UCTSearch.expand_phase Sample.sim_env_superko Sample.search9 Sample.state9
      (Sample.root Sample.one_contender).virtual_loss).2.1.m_children,
      c.get_move ≠ FastBoard.PASS := by decide!
  obtain ⟨i, next, hsel⟩ := uct_select_child_of_active Sample.sim_env_superko.num
    Sample.search9.cfg
    (UCTSearch.expand_phase Sample.sim_env_superko Sample.search9 Sample.state9
      (Sample.root Sample.one_contender).virtual_loss).2.1
    Sample.state9.to_move true (by decide!)
  have hmove := hall next (List.getElem?_mem (uct_select_child_some _ _ _ _ _ _ _ hsel))
  obtain ⟨r, node', nodes, hcall, hinvalid, _, _, _, hworker⟩ :=
    ((play_simulation_superko_abort Sample.sim_env_superko).1 Sample.search9 Sample.state9
      (Sample.root Sample.one_contender) true i next hch hres hsel).1 hmove rfl
  exact ⟨hch, hres, hall, r, node', nodes, hcall, hinvalid, hworker rfl rfl rfl⟩

/-! ### Virtual loss in the mean value -/

/-- An integer in the range of `int` is cast to itself. -/
theorem static_cast_int_of_range (z : Int) (h1 : -(2 : Int) ^ 31 ≤ z) (h2 : z < (2 : Int) ^ 31) :
    static_cast_int (z : ℚ) = z := by
  unfold static_cast_int
  simp only [Int.floor_intCast, Int.ceil_intCast, ite_self]
  rw [if_pos ⟨h1, h2⟩]

/-- An `int` subtraction whose result is in the range of `int` is exact. -/
theorem wrap_int_of_range (z : Int) (h1 : -(2 : Int) ^ 31 ≤ z) (h2 : z < (2 : Int) ^ 31) :
    wrap_int z = z := by
  unfold wrap_int
  norm_num at h1 h2 ⊢
  omega

/-- The value `est_playouts_left` casts to `int` is never negative. -/
theorem est_playouts_ceil_nonneg (s : UCTSearch) (elapsed_centis time_for_move : Int)
    (hp : 0 ≤ s.m_playouts) (he : 0 ≤ elapsed_centis) :
    0 ≤ s.est_playouts_ceil elapsed_centis time_for_move := by
  unfold UCTSearch.est_playouts_ceil
  simp only
  have hpq : (0 : ℚ) ≤ (s.m_playouts : ℚ) := by exact_mod_cast hp
  have heq : (0 : ℚ) ≤ (elapsed_centis : ℚ) := by exact_mod_cast he
  have ht : (0 : ℚ) ≤ ((max 0 (time_for_move - elapsed_centis) : Int) : ℚ) := by
    exact_mod_cast le_max_left (0 : Int) _
  have h1 : 0 ≤ f32 (s.m_playouts : ℚ) := round_to_nonneg _ _ _ hpq
  have h2 : 0 ≤ f32 (1 * f32 (s.m_playouts : ℚ)) := round_to_nonneg _ _ _ (by linarith)
  have h3 : 0 ≤ f32 (elapsed_centis : ℚ) := round_to_nonneg _ _ _ heq
  have h4 : 0 ≤ f32 (f32 (1 * f32 (s.m_playouts : ℚ)) / f32 (elapsed_centis : ℚ)) :=
    round_to_nonneg _ _ _ (div_nonneg h2 h3)
  have h5 : 0 ≤ f32 ((max 0 (time_for_move - elapsed_centis) : Int) : ℚ) :=
    round_to_nonneg _ _ _ ht
  apply Int.ceil_nonneg
  exact round_to_nonneg _ _ _ (mul_nonneg h4 h5)

/-- The estimate of the playouts left is not negative when the value it casts
to `int` is below `2^31`, and it is below `2^31` when the playout limit
is. -/
theorem est_playouts_left_in_range (s : UCTSearch) (elapsed_centis time_for_move : Int)
    (hp : 0 ≤ s.m_playouts) (hmax : s.m_maxplayouts < 2 ^ 31)
    (hrange : elapsed_centis < 100 ∨ s.m_playouts < 100
      ∨ s.est_playouts_ceil elapsed_centis time_for_move < 2 ^ 31) :
    0 ≤ s.est_playouts_left elapsed_centis time_for_move
      ∧ s.est_playouts_left elapsed_centis time_for_move < 2 ^ 31 := by
  have hleft : max 0 (min (s.m_maxplayouts - s.m_playouts)
      (s.m_maxvisits - s.m_root.get_visits)) < (2 : Int) ^ 31 := by
    apply max_lt (by norm_num)
    exact lt_of_le_of_lt (min_le_left _ _) (by omega)
  unfold UCTSearch.est_playouts_left
  simp only
  split_ifs with h
  · exact ⟨le_max_left _ _, hleft⟩
  · have h100 : ¬ elapsed_centis < 100 ∧ ¬ s.m_playouts < 100 := not_or.mp h
    have hr : s.est_playouts_ceil elapsed_centis time_for_move < 2 ^ 31 := by
      rcases hrange with h1 | h1 | h1
      · exact absurd h1 h100.1
      · exact absurd h1 h100.2
      · exact h1
    have h0 := est_playouts_ceil_nonneg s elapsed_centis time_for_move hp (by omega)
    unfold UCTSearch.est_playouts_ceil at hr h0
    simp only at hr h0
    rw [static_cast_int_of_range _ (by norm_num at h0 ⊢; omega) hr]
    exact ⟨le_min (le_max_left _ _) h0, lt_of_le_of_lt (min_le_left _ _) hleft⟩

/-- An instance of the rounding in the estimate: with 102 playouts in 170
centiseconds and 100 centiseconds left, the `float` rate `0.6f` times 100 is
the `float` just above 60, so the estimate is 61, where the exact product
`102 / 170 * 100` is 60. -/
theorem est_playouts_left_rounds_up :
    ({ Sample.search_unlimited with m_playouts := 102 } : UCTSearch).est_playouts_left 170 270
        = 61
      ∧ ⌈(102 : ℚ) / 170 * 100⌉ = 60 := by
  decide!

/-- The largest visit count of the first loop is at most `x` exactly when its
start value and the visits of every valid child are. -/
theorem max_valid_visits_le_iff (x : Int) :
    ∀ (l : List UCTNode) (Nfirst : Int),
      UCTSearch.max_valid_visits Nfirst l ≤ x
        ↔ (Nfirst ≤ x ∧ ∀ d ∈ l, d.valid = true → d.m_visits ≤ x) := by
  intro l
  induction l with
  | nil =>
    intro Nfirst
    simp [UCTSearch.max_valid_visits]
  | cons a t ih =>
    intro Nfirst
    unfold UCTSearch.max_valid_visits
    by_cases ha : a.valid = true
    · rw [if_pos ha, ih]
      simp only [max_le_iff, List.mem_cons, forall_eq_or_imp, UCTNode.get_visits]
      constructor
      · rintro ⟨⟨h1, h2⟩, h3⟩
        exact ⟨h1, fun _ => h2, h3⟩
      · rintro ⟨h1, h2, h3⟩
        exact ⟨⟨h1, h2 ha⟩, h3⟩
    · rw [if_neg ha, ih]
      simp only [List.mem_cons, forall_eq_or_imp]
      constructor
      · rintro ⟨h1, h3⟩
        exact ⟨h1, fun h => absurd h ha, h3⟩
      · rintro ⟨h1, _, h3⟩
        exact ⟨h1, h3⟩

/-- The second loop in closed form: every valid child gets the status of the
test, the others are kept, and the pruned ones are counted. -/
theorem prune_loop_eq (min_required_visits : Int) :
    ∀ (l : List UCTNode) (pruned_nodes : Nat),
      UCTSearch.prune_loop min_required_visits pruned_nodes l
        = (l.map (fun node =>
              if node.valid = true
              then node.set_active (decide (node.get_visits ≥ min_required_visits))
              else node),
            pruned_nodes
              + l.countP (fun node =>
                  node.valid && !decide (node.get_visits ≥ min_required_visits))) := by
  intro l
  induction l with
  | nil =>
    intro k
    simp [UCTSearch.prune_loop]
  | cons a t ih =>
    intro k
    unfold UCTSearch.prune_loop
    by_cases ha : a.valid = true
    · rw [if_pos ha]
      simp only [ih, List.map_cons, if_pos ha, List.countP_cons, ha, Bool.true_and]
      by_cases hen : a.get_visits ≥ min_required_visits
      · simp [hen]
      · simp [hen]
        omega
    · rw [if_neg ha]
      simp only [ih, List.map_cons, if_neg ha, List.countP_cons]
      simp [ha]

/-- The status `set_active` leaves: of the flag on a valid node, the old one
on an `INVALID` node; nothing else changes. -/
theorem set_active_spec (n : UCTNode) (flag : Bool) :
    (n.set_active flag).m_status
        = (if n.m_status = Status.INVALID then Status.INVALID
           else if flag = true then Status.ACTIVE else Status.PRUNED)
      ∧ (n.set_active flag).m_move = n.m_move
      ∧ (n.set_active flag).m_visits = n.m_visits
      ∧ (n.set_active flag).m_blackevals = n.m_blackevals := by
  unfold UCTNode.set_active UCTNode.valid
  cases hs : n.m_status <;> cases flag <;> simp [hs]

/-- The pruning in closed form: the children after it and the returned
count. -/
theorem prune_noncontenders_eq (s : UCTSearch) (elapsed_centis time_for_move : Int) :
    (s.prune_noncontenders elapsed_centis time_for_move).2.m_root.m_children
        = s.m_root.m_children.map (fun node =>
            if node.valid = true
            then node.set_active (decide (node.get_visits
              ≥ s.min_required_visits elapsed_centis time_for_move))
            else node)
      ∧ (s.prune_noncontenders elapsed_centis time_for_move).1
        = s.m_root.m_children.countP (fun node =>
            node.valid && !decide (node.get_visits
              ≥ s.min_required_visits elapsed_centis time_for_move)) := by
  unfold UCTSearch.prune_noncontenders UCTSearch.min_required_visits
  simp only [prune_loop_eq, Nat.zero_add, and_self]

/-- The largest visit count among valid children with visits in the range of
`int` is in that range. -/
theorem max_valid_visits_in_range (s : UCTSearch)
    (hvisits : ∀ c ∈ s.m_root.m_children, c.valid = true →
      0 ≤ c.m_visits ∧ c.m_visits < 2 ^ 31) :
    0 ≤ UCTSearch.max_valid_visits 0 s.m_root.m_children
      ∧ UCTSearch.max_valid_visits 0 s.m_root.m_children < 2 ^ 31 := by
  have hlow : ∀ (l : List UCTNode) (Nfirst : Int), Nfirst ≤ UCTSearch.max_valid_visits Nfirst l := by
    intro l
    induction l with
    | nil => intro N; simp [UCTSearch.max_valid_visits]
    | cons a t ih =>
      intro N
      unfold UCTSearch.max_valid_visits
      split_ifs
      · exact le_trans (le_max_left _ _) (ih _)
      · exact ih _
  refine ⟨hlow _ _, ?_⟩
  have h := (max_valid_visits_le_iff (2 ^ 31 - 1) s.m_root.m_children 0).mpr
    ⟨by norm_num, fun d hd hv => by have := (hvisits d hd hv).2; omega⟩
  omega

/-- The threshold `min_required_visits`, when the `int` computations stay in
range: the subtraction does not wrap around. -/
theorem min_required_visits_in_range (s : UCTSearch) (elapsed_centis time_for_move : Int)
    (h : s.prune_in_range elapsed_centis time_for_move) :
    s.min_required_visits elapsed_centis time_for_move
      = UCTSearch.max_valid_visits 0 s.m_root.m_children
        - s.est_playouts_left elapsed_centis time_for_move := by
  obtain ⟨hvisits, hp, hmax, hrange⟩ := h
  obtain ⟨e1, e2⟩ := est_playouts_left_in_range s elapsed_centis time_for_move hp hmax hrange
  obtain ⟨m1, m2⟩ := max_valid_visits_in_range s hvisits
  unfold UCTSearch.min_required_visits
  apply wrap_int_of_range
  · norm_num at e2 m2 ⊢
    omega
  · norm_num at e2 m2 ⊢
    omega

/-- The test of the second loop, when the `int` computations stay in range:
the visits of the child plus the estimate reach the visits of every valid
child. -/
theorem has_enough_visits_iff (s : UCTSearch) (elapsed_centis time_for_move : Int)
    (h : s.prune_in_range elapsed_centis time_for_move)
    (c : UCTNode) (hc : 0 ≤ c.m_visits) :
    c.get_visits ≥ s.min_required_visits elapsed_centis time_for_move
      ↔ ∀ d ∈ s.m_root.m_children, d.valid = true →
          d.m_visits ≤ c.m_visits + s.est_playouts_left elapsed_centis time_for_move := by
  rw [min_required_visits_in_range s elapsed_centis time_for_move h]
  have hest := (est_playouts_left_in_range s elapsed_centis time_for_move h.2.1 h.2.2.1
    h.2.2.2).1
  have hiff := max_valid_visits_le_iff
    (c.m_visits + s.est_playouts_left elapsed_centis time_for_move) s.m_root.m_children 0
  unfold UCTNode.get_visits
  constructor
  · intro h
    exact (hiff.mp (by omega)).2
  · intro h
    have := hiff.mpr ⟨by omega, h⟩
    omega

/-- The pruning when the `int` computations stay in range (`prune_in_range`):
every valid (non-`INVALID`) root child is `ACTIVE` if and only if its visits
plus `est_playouts_left(elapsed, time_for_move)` reach the visits of every
valid root child (that is, their maximum), and `PRUNED` otherwise; a child
that is `INVALID` stays so, and no child changes its move or its visits; the
returned number is exactly the count of children with status `PRUNED`
afterwards. -/
theorem prune_noncontenders_in_range (s : UCTSearch) (elapsed_centis time_for_move : Int)
    (hrange : s.prune_in_range elapsed_centis time_for_move) :
    (∀ (i : Nat) (c : UCTNode), s.m_root.m_children[i]? = some c →
        ∃ c' : UCTNode,
          (s.prune_noncontenders elapsed_centis time_for_move).2.m_root.m_children[i]?
              = some c'
          ∧ c'.m_move = c.m_move ∧ c'.m_visits = c.m_visits
          ∧ (c.valid = true →
              (c'.m_status = Status.ACTIVE
                ↔ ∀ d ∈ s.m_root.m_children, d.valid = true →
                    d.m_visits
                      ≤ c.m_visits + s.est_playouts_left elapsed_centis time_for_move)
              ∧ (c'.m_status = Status.PRUNED
                ↔ ¬ ∀ d ∈ s.m_root.m_children, d.valid = true →
                    d.m_visits
                      ≤ c.m_visits + s.est_playouts_left elapsed_centis time_for_move))
          ∧ (c.valid = false → c'.m_status = Status.INVALID))
      ∧ (s.prune_noncontenders elapsed_centis time_for_move).2.m_root.m_children.length
        = s.m_root.m_children.length
      ∧ (s.prune_noncontenders elapsed_centis time_for_move).1
        = (s.prune_noncontenders elapsed_centis time_for_move).2.m_root.m_children.countP
            (fun c => c.m_status == Status.PRUNED) := by
  obtain ⟨hkids, hcount⟩ := prune_noncontenders_eq s elapsed_centis time_for_move
  refine ⟨?_, ?_, ?_⟩
  · intro i c hi
    have hmem : c ∈ s.m_root.m_children := List.getElem?_mem hi
    rw [hkids, List.getElem?_map, hi]
    by_cases hv : c.valid = true
    · have hne : c.m_status ≠ Status.INVALID := by
        unfold UCTNode.valid at hv
        simpa using hv
      have henough := has_enough_visits_iff s elapsed_centis time_for_move hrange c
        (hrange.1 c hmem hv).1
      refine ⟨_, by rw [Option.map_some', if_pos hv], ?_, ?_, ?_, ?_⟩
      · exact (set_active_spec c _).2.1
      · exact (set_active_spec c _).2.2.1
      · intro _
        rw [(set_active_spec c _).1, if_neg hne, ← henough]
        by_cases hen : c.get_visits ≥ s.min_required_visits elapsed_centis time_for_move
        · simp [hen]
        · simp [hen]
      · intro hf
        rw [hf] at hv
        exact absurd hv (by simp)
    · have hinv : c.m_status = Status.INVALID := by
        unfold UCTNode.valid at hv
        simpa using hv
      refine ⟨c, by rw [Option.map_some', if_neg hv], rfl, rfl, ?_, ?_⟩
      · intro h
        exact absurd h hv
      · intro _
        exact hinv
  · rw [hkids, List.length_map]
  · rw [hcount, hkids, List.countP_map]
    apply List.countP_congr
    intro c _
    by_cases hv : c.valid = true
    · have hne : c.m_status ≠ Status.INVALID := by
        unfold UCTNode.valid at hv
        simpa using hv
      simp only [Function.comp, hv, if_true, Bool.true_and, (set_active_spec c _).1, if_neg hne]
      by_cases hen : c.get_visits ≥ s.min_required_visits elapsed_centis time_for_move
      · simp [hen]
      · simp [hen]
    · have hinv : c.m_status = Status.INVALID := by
        unfold UCTNode.valid at hv
        simpa using hv
      simp [Function.comp, hv, hinv]

/-- An instance of the pruning in range: with 10 playouts left, of the
children with 50 and 0 visits the second is pruned, and the returned count 1
is the number of `PRUNED` children. -/
theorem prune_noncontenders_in_range_sample :
    (Sample.search Sample.config Sample.state Sample.one_contender).prune_in_range 50 1000
      ∧ ((Sample.search Sample.config Sample.state Sample.one_contender).prune_noncontenders
          50 1000).1 = 1
      ∧ ((Sample.search Sample.config Sample.state Sample.one_contender).prune_noncontenders
          50 1000).2.m_root.m_children.countP (fun c => c.m_status == Status.PRUNED) = 1 := by
  have hrange : (Sample.search Sample.config Sample.state
      Sample.one_contender).prune_in_range 50 1000 := by
    refine ⟨by decide!, by decide!, by decide!, Or.inl (by decide)⟩
  have hone : ((Sample.search Sample.config Sample.state
      Sample.one_contender).prune_noncontenders 50 1000).1 = 1 := by decide!
  refine ⟨hrange, hone, ?_⟩
  rw [← (prune_noncontenders_in_range
    (Sample.search Sample.config Sample.state Sample.one_contender) 50 1000 hrange).2.2]
  exact hone

/-- C22 (the code at the failing input): 200 playouts in 100 centiseconds and
a time budget of 2000000000 centiseconds, no playout limit, root children
with 150 and 50 visits.  The playout rate is 2, the time left rounds to the
`float` 1999999872, the product 3999999744 is outside the range of `int`, the
cast gives `-2^31` and `est_playouts_left` returns it; the `int` subtraction
`Nfirst - est_playouts_left` wraps around to `-2147483498`, so both children
are left `ACTIVE` and no child is counted as pruned, although the visits of
the second child plus the estimate are below the maximum 150. -/
theorem prune_noncontenders_overflow :
    Sample.search_unlimited.est_playouts_ceil 100 2000000000 = 3999999744
      ∧ Sample.search_unlimited.est_playouts_left 100 2000000000 = -2147483648
      ∧ Sample.search_unlimited.min_required_visits 100 2000000000 = -2147483498
      ∧ (Sample.search_unlimited.prune_noncontenders 100 2000000000).2.m_root.m_children.map
          (fun c => (c.m_move, c.m_visits, c.active)) = [(72, 150, true), (73, 50, true)]
      ∧ (Sample.search_unlimited.prune_noncontenders 100 2000000000).1 = 0
      ∧ (50 : Int) + Sample.search_unlimited.est_playouts_left 100 2000000000 < 150 := by
  decide!

/-- A list of nodes that is not empty has a node with the most visits. -/
theorem exists_most_visited :
    ∀ l : List UCTNode, l ≠ [] → ∃ c ∈ l, ∀ d ∈ l, d.m_visits ≤ c.m_visits := by
  intro l
  induction l with
  | nil => intro h; exact absurd rfl h
  | cons a t ih =>
    intro _
    by_cases ht : t = []
    · subst ht
      exact ⟨a, by simp, by simp⟩
    · obtain ⟨c, hc, hbest⟩ := ih ht
      by_cases hac : c.m_visits ≤ a.m_visits
      · refine ⟨a, by simp, ?_⟩
        intro d hd
        rcases List.mem_cons.mp hd with rfl | hd
        · exact le_refl _
        · exact le_trans (hbest d hd) hac
      · refine ⟨c, List.mem_cons_of_mem _ hc, ?_⟩
        intro d hd
        rcases List.mem_cons.mp hd with rfl | hd
        · omega
        · exact hbest d hd

/-- The assertion at the end of `prune_noncontenders` when the `int`
computations stay in range (`prune_in_range`) and the root has at least one
child: `est_playouts_left` is not negative, so a valid root child whose visit
count is maximal among the valid children is left `ACTIVE`, and the number of
pruned children is strictly less than the number of root children. -/
theorem prune_assertion_in_range (s : UCTSearch) (elapsed_centis time_for_move : Int)
    (hchild : s.m_root.m_children ≠ [])
    (hrange : s.prune_in_range elapsed_centis time_for_move) :
    0 ≤ s.est_playouts_left elapsed_centis time_for_move
      ∧ (∀ (i : Nat) (c : UCTNode), s.m_root.m_children[i]? = some c → c.valid = true →
          (∀ d ∈ s.m_root.m_children, d.valid = true → d.m_visits ≤ c.m_visits) →
          ∃ c' : UCTNode,
            (s.prune_noncontenders elapsed_centis time_for_move).2.m_root.m_children[i]?
                = some c'
              ∧ c'.m_status = Status.ACTIVE)
      ∧ (s.prune_noncontenders elapsed_centis time_for_move).1 < s.m_root.m_children.length
      ∧ s.prune_assertion elapsed_centis time_for_move = true := by
  have hest := (est_playouts_left_in_range s elapsed_centis time_for_move hrange.2.1
    hrange.2.2.1 hrange.2.2.2).1
  obtain ⟨hkids, hcount⟩ := prune_noncontenders_eq s elapsed_centis time_for_move
  -- a child with maximal visits passes the test of the second loop
  have hmax : ∀ c ∈ s.m_root.m_children, c.valid = true →
      (∀ d ∈ s.m_root.m_children, d.valid = true → d.m_visits ≤ c.m_visits) →
      c.get_visits ≥ s.min_required_visits elapsed_centis time_for_move := by
    intro c hc hv hall
    rw [has_enough_visits_iff s elapsed_centis time_for_move hrange c (hrange.1 c hc hv).1]
    intro d hd hdv
    have := hall d hd hdv
    omega
  have hlt : (s.prune_noncontenders elapsed_centis time_for_move).1
      < s.m_root.m_children.length := by
    rw [hcount]
    apply lt_of_le_of_ne (List.countP_le_length _)
    intro heq
    rw [List.countP_eq_length] at heq
    -- every child would be valid and fail the test: take one with the most visits
    have hallvalid : ∀ c ∈ s.m_root.m_children, c.valid = true := by
      intro c hc
      have := heq c hc
      simp only [Bool.and_eq_true] at this
      exact this.1
    obtain ⟨c, hc, hbest⟩ := exists_most_visited s.m_root.m_children hchild
    have hen := hmax c hc (hallvalid c hc) (fun d hd _ => hbest d hd)
    have := heq c hc
    simp only [Bool.and_eq_true, Bool.not_eq_true', decide_eq_false_iff_not] at this
    exact this.2 hen
  refine ⟨hest, ?_, hlt, ?_⟩
  · intro i c hi hv hall
    have hen := hmax c (List.getElem?_mem hi) hv hall
    have hne : c.m_status ≠ Status.INVALID := by
      unfold UCTNode.valid at hv
      simpa using hv
    refine ⟨_, by rw [hkids, List.getElem?_map, hi, Option.map_some', if_pos hv], ?_⟩
    rw [(set_active_spec c _).1, if_neg hne]
    simp [hen]
  · unfold UCTSearch.prune_assertion
    exact decide_eq_true hlt

/-- An instance of the assertion in range: the sample root with the children
72 and 73 passes it. -/
theorem prune_assertion_in_range_sample :
    (Sample.search Sample.config Sample.state Sample.one_contender).m_root.m_children.length
        = 2
      ∧ ((Sample.search Sample.config Sample.state Sample.one_contender).prune_noncontenders
          50 1000).1 < 2
      ∧ (Sample.search Sample.config Sample.state Sample.one_contender).prune_assertion
          50 1000 = true := by
  have h := prune_assertion_in_range
    (Sample.search Sample.config Sample.state Sample.one_contender) 50 1000
    (by simp [Sample.search, Sample.root, Sample.one_contender])
    ⟨by decide!, by decide!, by decide!, Or.inl (by decide)⟩
  exact ⟨rfl, h.2.2.1, h.2.2.2⟩

/-- C24 (the code at the failing input): with 200 playouts in 100
centiseconds, a time budget of 2000000000 centiseconds and no playout limit,
`est_playouts_left` is negative: the value `std::ceil(playout_rate *
time_left) = 3999999744` is not below `2^31`, and its cast to `int` gives
`-2147483648`, which `std::min` returns.  The closing assertion of
`prune_noncontenders` is passed all the same, as the wrapped subtraction
leaves every child `ACTIVE`. -/
theorem est_playouts_left_negative :
    (0 : Int) ≤ Sample.search_unlimited.m_playouts
      ∧ Sample.search_unlimited.m_maxplayouts < 2 ^ 31
      ∧ ¬ Sample.search_unlimited.est_playouts_ceil 100 2000000000 < 2 ^ 31
      ∧ Sample.search_unlimited.est_playouts_left 100 2000000000 < 0
      ∧ Sample.search_unlimited.prune_assertion 100 2000000000 = true := by
  decide!

/-! ### The status `INVALID` -/

/-- The child `uct_select_child` returns is active. -/
theorem uct_select_child_active (num : Numerics) (cfg : Config) (n : UCTNode) (color : Int)
    (is_root : Bool) (i : Nat) (child : UCTNode)
    (h : n.uct_select_child num cfg color is_root = some (i, child)) :
    child.active = true := by
  rcases select_loop_spec (UCTNode.child_value num cfg n color is_root) n.m_children 0 none with
    ⟨h1, _, _⟩ | ⟨k, c, hk, hcact, hres, _, _, _⟩
  · unfold UCTNode.uct_select_child at h
    rw [h1] at h
    exact absurd h (by simp)
  · unfold UCTNode.uct_select_child at h
    rw [hres] at h
    simp only [Nat.zero_add, hk, Option.some.injEq, Prod.mk.injEq] at h
    rw [← h.2]
    exact hcact

/-- An `INVALID` node keeps its status under any sequence of `set_active`
calls. -/
theorem set_active_invalid (flags : List Bool) :
    ∀ n : UCTNode, n.m_status = Status.INVALID →
      (flags.foldl UCTNode.set_active n).m_status = Status.INVALID := by
  induction flags with
  | nil => intro n h; exact h
  | cons flag rest ih =>
    intro n h
    rw [List.foldl_cons]
    apply ih
    rw [(set_active_spec n flag).1, if_pos h]

/-- C25: `INVALID` is an absorbing node status.  Once `invalidate()` has been
called on a node, no sequence of `set_active(true)` / `set_active(false)`
calls changes the status, so `valid()` and `active()` stay false; an `INVALID`
root child is still `INVALID` after `prune_noncontenders` and after the
reactivation loop of `think`; `uct_select_child` returns an `ACTIVE` child
only, so never the child at the index of an `INVALID` one; and on a node that
is not `INVALID`, `set_active(b)` makes `active()` equal `b` and keeps
`valid()` true. -/
theorem invalid_is_absorbing :
    (∀ (n : UCTNode) (flags : List Bool),
        (flags.foldl UCTNode.set_active n.invalidate).m_status = Status.INVALID
          ∧ (flags.foldl UCTNode.set_active n.invalidate).valid = false
          ∧ (flags.foldl UCTNode.set_active n.invalidate).active = false)
      ∧ (∀ (s : UCTSearch) (elapsed_centis time_for_move : Int) (i : Nat) (c : UCTNode),
          s.m_root.m_children[i]? = some c → c.m_status = Status.INVALID →
            ∃ c' : UCTNode,
              (s.prune_noncontenders elapsed_centis time_for_move).2.m_root.m_children[i]?
                  = some c'
                ∧ c'.m_status = Status.INVALID)
      ∧ (∀ (s : UCTSearch) (i : Nat) (c : UCTNode),
          s.m_root.m_children[i]? = some c → c.m_status = Status.INVALID →
            ∃ c' : UCTNode, s.reactivate_children.m_root.m_children[i]? = some c'
              ∧ c'.m_status = Status.INVALID)
      ∧ (∀ (num : Numerics) (cfg : Config) (parent : UCTNode) (color : Int) (is_root : Bool)
          (i : Nat) (child : UCTNode),
          parent.uct_select_child num cfg color is_root = some (i, child) →
            child.m_status = Status.ACTIVE ∧ child.valid = true
              ∧ ∀ (j : Nat) (c : UCTNode), parent.m_children[j]? = some c →
                  c.m_status = Status.INVALID → j ≠ i)
      ∧ (∀ (n : UCTNode) (flag : Bool), n.m_status ≠ Status.INVALID →
          (n.set_active flag).active = flag ∧ (n.set_active flag).valid = true) := by
  refine ⟨?_, ?_, ?_, ?_, ?_⟩
  · intro n flags
    have h := set_active_invalid flags n.invalidate rfl
    refine ⟨h, ?_, ?_⟩
    · unfold UCTNode.valid
      rw [h]
      rfl
    · unfold UCTNode.active
      rw [h]
      rfl
  · intro s elapsed_centis time_for_move i c hi hinv
    have hv : ¬ c.valid = true := by
      unfold UCTNode.valid
      rw [hinv]
      decide
    refine ⟨c, ?_, hinv⟩
    rw [(prune_noncontenders_eq s elapsed_centis time_for_move).1, List.getElem?_map, hi,
      Option.map_some', if_neg hv]
  · intro s i c hi hinv
    refine ⟨c.set_active true, ?_, ?_⟩
    · unfold UCTSearch.reactivate_children
      simp only
      rw [List.getElem?_map, hi, Option.map_some']
    · rw [(set_active_spec c true).1, if_pos hinv]
  · intro num cfg parent color is_root i child h
    have hact := uct_select_child_active num cfg parent color is_root i child h
    have hstatus : child.m_status = Status.ACTIVE := by
      unfold UCTNode.active at hact
      simpa using hact
    refine ⟨hstatus, ?_, ?_⟩
    · unfold UCTNode.valid
      rw [hstatus]
      rfl
    · intro j c hj hinv hji
      have hi := uct_select_child_some num cfg parent color is_root i child h
      rw [hji, hi] at hj
      simp only [Option.some.injEq] at hj
      rw [hj, hinv] at hstatus
      exact absurd hstatus (by decide)
  · intro n flag hne
    have hs := (set_active_spec n flag).1
    rw [if_neg hne] at hs
    constructor
    · unfold UCTNode.active
      rw [hs]
      cases flag <;> rfl
    · unfold UCTNode.valid
      rw [hs]
      cases flag <;> rfl

/-- Witness of C25: the invalidated move 72 stays `INVALID` through a pruning
and a reactivation, and a node that is `ACTIVE` is pruned by
`set_active(false)`. -/
theorem invalid_is_absorbing_witness :
    ([true, false, true].foldl UCTNode.set_active
        (Sample.child 72 (1 / 2) 50 25).invalidate).m_status = Status.INVALID
      ∧ (∃ c' : UCTNode,
          ((Sample.search Sample.config Sample.state Sample.one_invalid).prune_noncontenders
              50 1000).2.m_root.m_children[0]? = some c'
            ∧ c'.m_status = Status.INVALID)
      ∧ (Sample.child 73 (1 / 4) 0 0).m_status ≠ Status.INVALID
      ∧ ((Sample.child 73 (1 / 4) 0 0).set_active false).active = false :=
  ⟨(invalid_is_absorbing.1 (Sample.child 72 (1 / 2) 50 25) [true, false, true]).1,
    invalid_is_absorbing.2.1 (Sample.search Sample.config Sample.state Sample.one_invalid)
      50 1000 0 (Sample.child 72 (1 / 2) 50 25).invalidate rfl rfl,
    by decide,
    (invalid_is_absorbing.2.2.2.2 (Sample.child 73 (1 / 4) 0 0) false (by decide)).1⟩

/-! ### The value with bonus -/

/-- The method `eval_with_bonus` of the embedding is the body
`eval_with_bonus_over` on the rationals. -/
theorem eval_with_bonus_eq_over (num : Numerics) (r : SearchResult) (xbar : ℚ) :
    r.eval_with_bonus num xbar
      = SearchResult.eval_with_bonus_over num.sigmoid num.log r.m_alpkt r.m_beta xbar := rfl

/-- C23 (amended): `SearchResult::eval_with_bonus(xbar)`, over any ordered
field (so over the reals with `sigmoid` the logistic curve of the score
head), returns `sigmoid(alpha, beta, 0)` when `|xbar| < 0.001`; for `|xbar| >=
0.001` it returns `1 - log(sigmoid(alpha,beta,xbar)/sigmoid(alpha,beta,0)) /
(beta*xbar)` when `(|alpha|+|xbar|)*beta < 10`, and otherwise saturates to 1
when `alpha > 0` and to 0 otherwise.  Nothing is said about continuity at the
cutoff. -/
theorem eval_with_bonus_branches {K : Type} [LinearOrderedField K]
    (sigmoid : K → K → K → K) (log : K → K) (alpkt beta xbar : K) :
    (|xbar| < 1 / 1000 →
        SearchResult.eval_with_bonus_over sigmoid log alpkt beta xbar = sigmoid alpkt beta 0)
      ∧ (1 / 1000 ≤ |xbar| → (|alpkt| + |xbar|) * beta < 10 →
          SearchResult.eval_with_bonus_over sigmoid log alpkt beta xbar
            = 1 - log (sigmoid alpkt beta xbar / sigmoid alpkt beta 0) / (beta * xbar))
      ∧ (1 / 1000 ≤ |xbar| → 10 ≤ (|alpkt| + |xbar|) * beta →
          SearchResult.eval_with_bonus_over sigmoid log alpkt beta xbar
            = if alpkt > 0 then 1 else 0) := by
  refine ⟨?_, ?_, ?_⟩
  · intro hsmall
    unfold SearchResult.eval_with_bonus_over
    rw [if_pos hsmall]
  · intro hbig hcut
    unfold SearchResult.eval_with_bonus_over
    rw [if_neg (not_lt.mpr hbig), if_pos hcut, div_div]
  · intro hbig hcut
    unfold SearchResult.eval_with_bonus_over
    rw [if_neg (not_lt.mpr hbig), if_neg (not_lt.mpr hcut)]

/-- Witness of C23 (amended): on the rationals, for the score head `alpha =
1`, `beta = 1` and `xbar = -9`, which is on the cutoff, the method returns the
saturated value 1. -/
theorem eval_with_bonus_branches_witness :
    (1 : ℚ) / 1000 ≤ |(-9 : ℚ)|
      ∧ (10 : ℚ) ≤ (|(1 : ℚ)| + |(-9 : ℚ)|) * 1
      ∧ SearchResult.eval_with_bonus Sample.numerics
          { m_valid := true, m_eval := 1 / 2, m_alpkt := 1, m_beta := 1 } (-9) = 1 := by
  have h1 : (1 : ℚ) / 1000 ≤ |(-9 : ℚ)| := by norm_num [abs_of_neg]
  have h2 : (10 : ℚ) ≤ (|(1 : ℚ)| + |(-9 : ℚ)|) * 1 := by norm_num [abs_of_neg]
  refine ⟨h1, h2, ?_⟩
  rw [eval_with_bonus_eq_over,
    (eval_with_bonus_branches Sample.numerics.sigmoid Sample.numerics.log 1 1 (-9)).2.2 h1 h2]
  norm_num

/-! ### The value with bonus on the reals -/

/-- The logistic curve on the reals is positive. -/
theorem logistic_pos (t : ℝ) : 0 < logistic Real.exp t := by
  unfold logistic
  have := Real.exp_pos (-t)
  positivity

/-- A quotient of two values of the logistic curve. -/
theorem logistic_div (t u : ℝ) :
    logistic Real.exp t / logistic Real.exp u
      = (1 + Real.exp (-u)) / (1 + Real.exp (-t)) := by
  unfold logistic
  have h1 := Real.exp_pos (-t)
  have h2 := Real.exp_pos (-u)
  field_simp

/-- With the offset added to `alpha`, the formula at `alpha = 1`, `beta = 1`,
`xbar = -9` is below `0.92`. -/
theorem formula_plus_at_cutoff :
    1 - Real.log (sigmoid_plus Real.exp 1 1 (-9) / sigmoid_plus Real.exp 1 1 0)
        / ((1 : ℝ) * (-9)) < 92 / 100 := by
  unfold sigmoid_plus
  rw [← div_div, logistic_div]
  have he8 : (9 : ℝ) ≤ Real.exp 8 := by
    have := Real.add_one_le_exp (8 : ℝ)
    linarith
  have he1 : Real.exp (-1) ≤ 1 := by
    rw [Real.exp_le_one_iff]
    norm_num
  have hpos1 := Real.exp_pos (-1)
  have hs : (1 + Real.exp (-(1 * (1 + 0)))) / (1 + Real.exp (-(1 * (1 + (-9))))) ≤ 2 / 10 := by
    have e1 : -(1 * ((1 : ℝ) + 0)) = -1 := by norm_num
    have e2 : -(1 * ((1 : ℝ) + (-9))) = 8 := by norm_num
    rw [e1, e2, div_le_div_iff₀ (by linarith) (by norm_num)]
    linarith
  have hspos : 0 < (1 + Real.exp (-(1 * (1 + 0)))) / (1 + Real.exp (-(1 * (1 + (-9))))) := by
    have := Real.exp_pos (-(1 * ((1 : ℝ) + 0)))
    have := Real.exp_pos (-(1 * ((1 : ℝ) + (-9))))
    positivity
  have hlog := Real.log_le_sub_one_of_pos hspos
  have hl : Real.log ((1 + Real.exp (-(1 * (1 + 0)))) / (1 + Real.exp (-(1 * (1 + (-9))))))
      ≤ -(8 / 10) := by linarith
  rw [div_one]
  have : Real.log ((1 + Real.exp (-(1 * (1 + 0)))) / (1 + Real.exp (-(1 * (1 + (-9)))))) / (-9)
      ≥ 8 / 90 := by
    rw [ge_iff_le, le_div_iff_of_neg (by norm_num)]
    linarith
  linarith

/-- With the offset subtracted from `alpha`, the formula at `alpha = 1`,
`beta = 1`, `xbar = -9` is above `1.02`. -/
theorem formula_minus_at_cutoff :
    102 / 100 < 1 - Real.log (sigmoid_minus Real.exp 1 1 (-9)
        / sigmoid_minus Real.exp 1 1 0) / ((1 : ℝ) * (-9)) := by
  unfold sigmoid_minus
  rw [← div_div, logistic_div]
  have e1 : -(1 * ((1 : ℝ) - 0)) = -1 := by norm_num
  have e2 : -(1 * ((1 : ℝ) - (-9))) = -10 := by norm_num
  rw [e1, e2]
  have he10 : Real.exp (-10) ≤ 1 / 11 := by
    rw [Real.exp_neg, inv_eq_one_div, div_le_div_iff₀ (Real.exp_pos _) (by norm_num)]
    have := Real.add_one_le_exp (10 : ℝ)
    linarith
  have he1 : 1 / 3 ≤ Real.exp (-1) := by
    rw [Real.exp_neg, inv_eq_one_div, div_le_div_iff₀ (by norm_num) (Real.exp_pos _)]
    have := Real.exp_one_lt_d9
    linarith
  have hpos10 := Real.exp_pos (-10)
  have hs : 11 / 9 ≤ (1 + Real.exp (-1)) / (1 + Real.exp (-10)) := by
    rw [div_le_div_iff₀ (by norm_num) (by linarith)]
    linarith
  have hspos : 0 < (1 + Real.exp (-1)) / (1 + Real.exp (-10)) := by linarith
  have hlog := Real.one_sub_inv_le_log_of_pos hspos
  have hinv : ((1 + Real.exp (-1)) / (1 + Real.exp (-10)))⁻¹ ≤ 9 / 11 := by
    rw [inv_le_comm₀ hspos (by norm_num)]
    simpa using hs
  have hl : 2 / 11 ≤ Real.log ((1 + Real.exp (-1)) / (1 + Real.exp (-10))) := by linarith
  rw [div_one]
  have : Real.log ((1 + Real.exp (-1)) / (1 + Real.exp (-10))) / (-9) ≤ -(2 / 99) := by
    rw [div_le_iff_of_neg (by norm_num)]
    linarith
  linarith

/-- The logistic curve at 0 is one half. -/
theorem logistic_zero : logistic Real.exp 0 = 1 / 2 := by
  unfold logistic
  norm_num

/-- With the offset added to `alpha`, the formula at `alpha = 0`, `beta = 1`,
`xbar = 1/2000` is above the value `sigmoid(0, 1, 0)` the code returns. -/
theorem formula_plus_small :
    sigmoid_plus Real.exp 0 1 0
      < 1 - Real.log (sigmoid_plus Real.exp 0 1 (1 / 2000)
          / sigmoid_plus Real.exp 0 1 0) / ((1 : ℝ) * (1 / 2000)) := by
  unfold sigmoid_plus
  rw [← div_div, logistic_div]
  have e1 : (1 : ℝ) * (0 + 0) = 0 := by norm_num
  have e2 : (1 : ℝ) * (0 + 1 / 2000) = 1 / 2000 := by norm_num
  rw [e1, e2, logistic_zero, neg_zero, Real.exp_zero]
  have hpos := Real.exp_pos (-(1 / 2000 : ℝ))
  have hspos : 0 < (1 + 1) / (1 + Real.exp (-(1 / 2000 : ℝ))) := by positivity
  have hlog : Real.log ((1 + 1) / (1 + Real.exp (-(1 / 2000 : ℝ)))) < 1 / 4000 := by
    rw [Real.log_lt_iff_lt_exp hspos, div_lt_iff₀ (by linarith)]
    have h1 : Real.exp (1 / 4000) * Real.exp (-(1 / 2000 : ℝ)) = Real.exp (-(1 / 4000)) := by
      rw [← Real.exp_add]
      norm_num
    have h2 := Real.add_one_lt_exp (by norm_num : (1 / 4000 : ℝ) ≠ 0)
    have h3 := Real.add_one_lt_exp (by norm_num : (-(1 / 4000) : ℝ) ≠ 0)
    rw [mul_add, mul_one, h1]
    linarith
  rw [div_one]
  have : Real.log ((1 + 1) / (1 + Real.exp (-(1 / 2000 : ℝ)))) / (1 / 2000) < 1 / 2 := by
    rw [div_lt_iff₀ (by norm_num)]
    linarith
  linarith

/-- With the offset subtracted from `alpha`, the formula at `alpha = 0`,
`beta = 1`, `xbar = 1/2000` is above the value `sigmoid(0, 1, 0)` the code
returns. -/
theorem formula_minus_small :
    sigmoid_minus Real.exp 0 1 0
      < 1 - Real.log (sigmoid_minus Real.exp 0 1 (1 / 2000)
          / sigmoid_minus Real.exp 0 1 0) / ((1 : ℝ) * (1 / 2000)) := by
  unfold sigmoid_minus
  rw [← div_div, logistic_div]
  have e1 : (1 : ℝ) * (0 - 0) = 0 := by norm_num
  have e2 : -((1 : ℝ) * (0 - 1 / 2000)) = 1 / 2000 := by norm_num
  rw [e1, e2, logistic_zero, neg_zero, Real.exp_zero]
  have hgt : (1 : ℝ) < Real.exp (1 / 2000) := by
    rw [Real.one_lt_exp_iff]
    norm_num
  have hspos : 0 < (1 + 1) / (1 + Real.exp (1 / 2000 : ℝ)) := by positivity
  have hlog : Real.log ((1 + 1) / (1 + Real.exp (1 / 2000 : ℝ))) < 0 := by
    apply Real.log_neg hspos
    rw [div_lt_one (by linarith)]
    linarith
  rw [div_one]
  have : Real.log ((1 + 1) / (1 + Real.exp (1 / 2000 : ℝ))) / (1 / 2000) < 0 :=
    div_neg_of_neg_of_pos hlog (by norm_num)
  linarith


/-- The code on the reals at a small `xbar`: `sigmoid(alpha, beta, 0)`. -/
theorem eval_with_bonus_over_small (sigmoid : ℝ → ℝ → ℝ → ℝ) (alpkt beta : ℝ) :
    SearchResult.eval_with_bonus_over sigmoid Real.log alpkt beta (1 / 2000)
      = sigmoid alpkt beta 0 := by
  have h : |(1 / 2000 : ℝ)| < 1 / 1000 := by
    rw [abs_of_pos (by norm_num)]
    norm_num
  unfold SearchResult.eval_with_bonus_over
  rw [if_pos h]

/-- The code on the reals at `alpha = 1`, `beta = 1`, `xbar = -9`: the
saturated value 1. -/
theorem eval_with_bonus_over_cutoff (sigmoid : ℝ → ℝ → ℝ → ℝ) :
    (|(1 : ℝ)| + |(-9 : ℝ)|) * 1 = 10
      ∧ SearchResult.eval_with_bonus_over sigmoid Real.log 1 1 (-9) = 1 := by
  have h9 : |(-9 : ℝ)| = 9 := by
    rw [abs_of_neg (by norm_num)]
    norm_num
  have hcut : (|(1 : ℝ)| + |(-9 : ℝ)|) * 1 = 10 := by
    rw [h9, abs_one]
    norm_num
  refine ⟨hcut, ?_⟩
  unfold SearchResult.eval_with_bonus_over
  rw [if_neg (by rw [h9]; norm_num), if_neg (by rw [hcut]; norm_num), if_pos (by norm_num)]

/-- C23 (counterexample): over the reals, with `sigmoid` the logistic curve of
the score head (the offset added to `alpha`, or subtracted from it).  For
`alpha = 0`, `beta = 1`, `xbar = 1/2000`, which is not 0 and is inside the
cutoff, the code returns `sigmoid(0, 1, 0)`, which is not the value of the
formula.  For `alpha = 1`, `beta = 1`, `xbar = -9`, on the cutoff, the code
returns the saturated value 1, and the formula there differs from 1 by more
than 0.001. -/
theorem eval_with_bonus_not_continuous :
    ((1 / 2000 : ℝ) ≠ 0 ∧ (|(0 : ℝ)| + |(1 / 2000 : ℝ)|) * 1 < 10
        ∧ SearchResult.eval_with_bonus_over (sigmoid_plus Real.exp) Real.log 0 1 (1 / 2000)
          ≠ 1 - Real.log (sigmoid_plus Real.exp 0 1 (1 / 2000) / sigmoid_plus Real.exp 0 1 0)
              / ((1 : ℝ) * (1 / 2000))
        ∧ SearchResult.eval_with_bonus_over (sigmoid_minus Real.exp) Real.log 0 1 (1 / 2000)
          ≠ 1 - Real.log (sigmoid_minus Real.exp 0 1 (1 / 2000) / sigmoid_minus Real.exp 0 1 0)
              / ((1 : ℝ) * (1 / 2000)))
      ∧ ((|(1 : ℝ)| + |(-9 : ℝ)|) * 1 = 10
        ∧ SearchResult.eval_with_bonus_over (sigmoid_plus Real.exp) Real.log 1 1 (-9) = 1
        ∧ 1 / 1000
          < |(1 - Real.log (sigmoid_plus Real.exp 1 1 (-9) / sigmoid_plus Real.exp 1 1 0)
                / ((1 : ℝ) * (-9))) - 1|
        ∧ SearchResult.eval_with_bonus_over (sigmoid_minus Real.exp) Real.log 1 1 (-9) = 1
        ∧ 1 / 1000
          < |(1 - Real.log (sigmoid_minus Real.exp 1 1 (-9) / sigmoid_minus Real.exp 1 1 0)
                / ((1 : ℝ) * (-9))) - 1|) := by
  refine ⟨⟨by norm_num, ?_, ?_, ?_⟩, (eval_with_bonus_over_cutoff (sigmoid_plus Real.exp)).1,
    (eval_with_bonus_over_cutoff (sigmoid_plus Real.exp)).2, ?_,
    (eval_with_bonus_over_cutoff (sigmoid_minus Real.exp)).2, ?_⟩
  · rw [abs_zero, abs_of_pos (by norm_num)]
    norm_num
  · rw [eval_with_bonus_over_small]
    exact ne_of_lt formula_plus_small
  · rw [eval_with_bonus_over_small]
    exact ne_of_lt formula_minus_small
  · rw [lt_abs]
    right
    have := formula_plus_at_cutoff
    linarith
  · rw [lt_abs]
    left
    have := formula_minus_at_cutoff
    linarith

end SAI
